import Mathlib

/-!
Verification of the reftable storage engine (reader and merged reader).

The embedding follows `reftable/reader.c`, `reftable/merged.c` and
`reftable/file.c`.  Keys are byte strings (`List Nat`), compared in memcmp
order, which is the lexicographic order on `List Nat` (`slice_compare`).
Block-level primitives (`block_iter_seek`, `block_iter_next`,
`block_reader_first_key`) and the record codec live in `block.c` / `record.c`,
which are not part of this corpus; they are modelled from the specification
where noted, as purely functional operations on blocks represented as lists
of decoded records.
-/

/-- Byte-string keys, compared lexicographically (memcmp order), as in
`slice_compare`. -/
abbrev Key := List Nat

/-- `BLOCK_TYPE_REF` = 'r'. -/
def tagRef : Nat := 114

/-- `BLOCK_TYPE_LOG` = 'g'. -/
def tagLog : Nat := 103

/-- `BLOCK_TYPE_OBJ` = 'o'. -/
def tagObj : Nat := 111

/-- `BLOCK_TYPE_INDEX` = 'i'. -/
def tagIdx : Nat := 105

/-- A decoded record, as yielded by the block iterator: the union of the
fields of the four record shapes that the claims mention.  `key` is the
record's sort key (`record_key`); `name`/`upd`/`del` are the ref/log fields;
`offsets` is the obj-record offset list; `val` is an opaque payload used to
tell records apart. -/
structure Rec where
  typ : Nat := 0
  key : Key := []
  name : List Nat := []
  upd : Nat := 0
  del : Bool := false
  val : Nat := 0
  offsets : List Nat := []
deriving DecidableEq, Repr

/-- The error taxonomy of `reftable.h` (closed tag set, §7 of the spec). -/
inductive ErrCode where
  | ioErr
  | formatErr
  | apiErr
  | notExistErr
deriving DecidableEq, Repr

/-- Modelled from the spec: `block_iter_seek` (block.c, §4.4) positions the
iterator inside one block so that the next `next()` yields the first record
whose key is `≥ want`; the restart-array binary search plus linear advance is
an in-block search over the (sorted) record sequence, so its functional
content is dropping the records with key `< want`. -/
def blockIterSeek (want : Key) (b : List Rec) : List Rec :=
  b.dropWhile (fun r => decide (r.key < want))

/-- `table_iter_next` (reader.c): yield the next record of the current block;
when the block is exhausted, advance block by block (`table_iter_next_block`)
until a record is found or the section ends.  State is (records remaining in
the current block, blocks remaining after it). -/
def tableIterNext : List Rec → List (List Rec) → Option (Rec × (List Rec × List (List Rec)))
  | r :: rem, rest => some (r, (rem, rest))
  | [], b :: rest => tableIterNext b rest
  | [], [] => none

/-- The record produced by one `next` call, discarding the successor state. -/
def tableIterNextRec (cur : List Rec) (rest : List (List Rec)) : Option Rec :=
  (tableIterNext cur rest).map Prod.fst

/-- The block-advance loop of `reader_seek_linear` (reader.c): repeatedly
inspect the first key of the following block and move to it while that first
key is `≤ want` (`slice_compare(got_key, want_key) > 0` breaks the loop); a
block whose first key cannot be decoded (empty block) is a format error. -/
def seekLinearLoop (want : Key) : List Rec → List (List Rec) → Except ErrCode (List Rec × List (List Rec))
  | cur, [] => .ok (cur, [])
  | cur, b :: rest =>
    match b with
    | [] => .error .formatErr
    | r :: _ =>
      if want < r.key then .ok (cur, b :: rest)
      else seekLinearLoop want b rest

/-- `reader_seek_linear` (reader.c): starting from the first block of the
section (`reader_start`), run the block-advance loop, then seek within the
candidate block (`block_iter_seek`). -/
def readerSeekLinear (want : Key) (blocks : List (List Rec)) : Except ErrCode (List Rec × List (List Rec)) :=
  match blocks with
  | [] => .error .formatErr
  | b :: rest =>
    match seekLinearLoop want b rest with
    | .error e => .error e
    | .ok (cur, rest') => .ok (blockIterSeek want cur, rest')

/-- Strict key order between records, the order in which a well-formed
section lists them. -/
def recLt (a b : Rec) : Prop := a.key < b.key

instance : DecidableRel recLt := fun a b => inferInstanceAs (Decidable (a.key < b.key))

/-- The last key stored in a block (the key of the block's final record,
which is what an index record pointing at the block carries); `none` for an
empty block. -/
def lastKey? (b : List Rec) : Option Key :=
  b.getLast?.map fun r => r.key

/-- One section of an opened table, as the reader sees it after
`parse_footer`: the presence flag, the decoded data blocks in file order,
and the decoded index levels, root level first (`levels = []` models
`index_offset = 0` in the footer).  Each level is a list of index blocks
whose records are index records: `key` holds the last key of the pointed-to
block and `val` its position among the next level's blocks (for the bottom
level: among the data blocks), standing for the block offset the index
record stores on disk. -/
structure RSection where
  present : Bool
  blocks : List (List Rec)
  levels : List (List (List Rec)) := []
deriving DecidableEq, Repr

/-- The outcome `reader_seek` leaves with the caller: the empty iterator
(`iterator_set_empty`, whose `next` immediately reports end of iteration),
a positioned table iterator, or — `eof` — the positive return code 1 of an
indexed seek whose index holds no entry `≥` the wanted key (reader.c line
516: `table_iter_next` reports 1 and `reader_seek_indexed` hands the code
up without storing an iterator; callers such as `merged_table_seek_record`
treat the code as a sub-iterator that contributes nothing). -/
inductive SeekResult where
  | empty
  | eof
  | iter (cur : List Rec) (rest : List (List Rec))
deriving DecidableEq, Repr

/-- The descent loop of `reader_seek_indexed` (reader.c lines 515-544):
holding the index entry found at the previous level, load the block its
offset points at (`reader_table_iter_at`), seek the wanted key inside it
(`block_iter_seek`), and either stop — the block is a data block of the
wanted type, reached below the bottom level — or read the next index record
(`table_iter_next`) and descend one more level; an exhausted index reports
code 1 (`err != 0` hands the `table_iter_next` result up), and an offset
pointing outside the next level is the format error the loop's block-type
dispatch raises.  The file lays the levels out one after another; the model
keeps them apart, which agrees with the code whenever the pointed-to block
covers the wanted key (as it does under `WfIndex`). -/
def seekIndexedLevels (want : Key) (blocks : List (List Rec)) :
    Rec → List (List (List Rec)) → Except ErrCode SeekResult
  | e, [] =>
    match blocks[e.val]? with
    | none => .error .formatErr
    | some b => .ok (.iter (blockIterSeek want b) (blocks.drop (e.val + 1)))
  | e, lvl :: rest =>
    match lvl[e.val]? with
    | none => .error .formatErr
    | some b =>
      match tableIterNextRec (blockIterSeek want b) (lvl.drop (e.val + 1)) with
      | none => .ok .eof
      | some e2 => seekIndexedLevels want blocks e2 rest

/-- `reader_seek_internal` (reader.c): with an index
(`offs->index_offset > 0`) take `reader_seek_indexed` — linear-seek the
root level for the wanted key, read the first index entry at or past it
(`table_iter_next`, whose code 1 is returned as is), then descend through
the levels.  Without an index, `reader_start` plus `reader_seek_linear`
position a table iterator on the data blocks. -/
def readerSeekInternal (s : RSection) (want : Key) : Except ErrCode SeekResult :=
  match s.levels with
  | root :: rest =>
    match readerSeekLinear want root with
    | .error e => .error e
    | .ok (cur, crest) =>
      match tableIterNextRec cur crest with
      | none => .ok .eof
      | some e => seekIndexedLevels want s.blocks e rest
  | [] =>
    match readerSeekLinear want s.blocks with
    | .error e => .error e
    | .ok (cur, rest) => .ok (.iter cur rest)

/-- `reader_seek` (reader.c): an absent section yields the empty iterator
and success; otherwise `reader_seek_internal` seeks the section. -/
def readerSeek (s : RSection) (want : Key) : Except ErrCode SeekResult :=
  if s.present then readerSeekInternal s want else .ok .empty

/-- `next` on the result of `reader_seek`: the empty iterator yields nothing
(`empty_iterator_next` returns 1), the code-1 outcome likewise ends the
iteration before it starts, and a table iterator yields its next record. -/
def seekResultNextRec : SeekResult → Option Rec
  | .empty => none
  | .eof => none
  | .iter cur rest => tableIterNextRec cur rest

/-- The full record sequence a seek outcome will yield: nothing for the
empty iterator and for the code-1 outcome; the current block's remainder
followed by the remaining blocks for a table iterator. -/
def seekResultStream : SeekResult → List Rec
  | .empty => []
  | .eof => []
  | .iter cur rest => cur ++ rest.flatten

/-- A well-formed index level over its targets (the next level's blocks, or
the data blocks at the bottom): the level is nonempty, its blocks are
nonempty, its concatenated index records are sorted (spec §3, Invariants),
and the `j`-th index record points at target block `j` and stores its last
key — the canonical shape the writer produces, one index record per block
of the level below. -/
def WfLevel (lvl targets : List (List Rec)) : Prop :=
  lvl ≠ [] ∧ (∀ b ∈ lvl, b ≠ []) ∧ lvl.flatten.Pairwise recLt ∧
  lvl.flatten.length = targets.length ∧
  ∀ j, j < lvl.flatten.length →
    (lvl.flatten.getD j {}).val = j ∧
    lastKey? (targets.getD j []) = some (lvl.flatten.getD j {}).key

/-- The blocks an index entry of the outermost remaining level points into:
the next level down, or the data blocks once past the bottom level. -/
def topTargets (blocks : List (List Rec)) : List (List (List Rec)) → List (List Rec)
  | [] => blocks
  | lvl :: _ => lvl

/-- A well-formed multi-level index over the data blocks: every level is a
well-formed level over the one below it, the bottom level over the data
blocks (`levels = []`: the section carries no index). -/
def WfIndex (blocks : List (List Rec)) : List (List (List Rec)) → Prop
  | [] => True
  | lvl :: rest => WfLevel lvl (topTargets blocks rest) ∧ WfIndex blocks rest

instance (lvl targets : List (List Rec)) : Decidable (WfLevel lvl targets) :=
  inferInstanceAs (Decidable (_ ∧ _ ∧ _ ∧ _ ∧ _))

instance wfIndexDec (blocks : List (List Rec)) :
    (levels : List (List (List Rec))) → Decidable (WfIndex blocks levels)
  | [] => .isTrue trivial
  | _ :: rest =>
    haveI := wfIndexDec blocks rest
    inferInstanceAs (Decidable (_ ∧ _))

/-- The concrete indexed section used by the C1 witness: two data blocks
with keys `[1]` and `[3]` under a one-level index of two index records. -/
def c1Sec : RSection :=
  ⟨true, [[{ key := [1] }], [{ key := [3] }]],
   [[[{ typ := tagIdx, key := [1], val := 0 },
      { typ := tagIdx, key := [3], val := 1 }]]]⟩

/-- A well-formed section body: every block is nonempty and the concatenated
record sequence is strictly increasing by key (spec §3, Invariants). -/
def WfBlocks (blocks : List (List Rec)) : Prop :=
  (∀ b ∈ blocks, b ≠ []) ∧ blocks.flatten.Pairwise recLt

instance : DecidablePred (fun blocks => WfBlocks blocks) := fun _ =>
  inferInstanceAs (Decidable (_ ∧ _))

/-- Total number of records left across all sub-iterators of a merged
iterator. -/
def totalSize (streams : List (List Rec)) : Nat :=
  (streams.map List.length).sum

/-- Modelled from the spec: the priority-queue order of `pq.c` (§4.6):
entries are ordered by record key; on equal keys the larger stack index
(the newer table) comes first. -/
def pqLess (a b : Rec × Nat) : Bool :=
  if a.1.key = b.1.key then decide (b.2 < a.2) else decide (a.1.key < b.1.key)

/-- The top of the merged iterator's priority queue.  After
`merged_iter_init` / `merged_iter_advance_subiter` the queue holds exactly
the head record of every non-exhausted sub-iterator, so the top is the
`pqLess`-least (record, stack index) pair among the stream heads.  The
argument `i` is the stack index of the first listed stream. -/
def pickTop : Nat → List (List Rec) → Option (Rec × Nat)
  | _, [] => none
  | i, s :: rest =>
    match pickTop (i+1) rest, s.head? with
    | none, none => none
    | none, some r => some (r, i)
    | some m, none => some m
    | some m, some r => if pqLess m (r, i) then some m else some (r, i)

/-- The shadowing loop of `merged_iter_next_entry` (merged.c lines 107-128):
while the queue's top has a key `≤` the popped entry's key, pop it and
advance its sub-iterator, discarding the record.  `fuel` bounds the
iteration; every executed step removes one record, so `totalSize` many
steps always suffice. -/
def dropShadowedF : Nat → Key → List (List Rec) → List (List Rec)
  | 0, _, streams => streams
  | fuel+1, k, streams =>
    match pickTop 0 streams with
    | none => streams
    | some (r, j) =>
      if r.key ≤ k then
        dropShadowedF fuel k (streams.set j ((streams.getD j []).tail))
      else streams

/-- The shadowing loop, with enough fuel for any input. -/
def dropShadowed (k : Key) (streams : List (List Rec)) : List (List Rec) :=
  dropShadowedF (totalSize streams) k streams

/-- `merged_iter_next_entry` (merged.c): an empty queue reports end of
iteration; otherwise pop the least entry (newest table first on equal keys),
advance its sub-iterator, run the shadowing loop, and emit the record. -/
def mergedNextEntry (streams : List (List Rec)) : Option (Rec × List (List Rec)) :=
  match pickTop 0 streams with
  | none => none
  | some (r, j) =>
    some (r, dropShadowed r.key (streams.set j ((streams.getD j []).tail)))

/-- `merged_iter_next` (merged.c): loop over `merged_iter_next_entry`,
skipping deletion records when `suppress_deletions` is set. -/
def mergedNextF : Nat → Bool → List (List Rec) → Option (Rec × List (List Rec))
  | 0, _, _ => none
  | fuel+1, suppress, streams =>
    match mergedNextEntry streams with
    | none => none
    | some (r, s') =>
      if suppress && r.del then mergedNextF fuel suppress s' else some (r, s')

/-- `merged_iter_next`, with enough fuel for any input. -/
def mergedNext (suppress : Bool) (streams : List (List Rec)) :
    Option (Rec × List (List Rec)) :=
  mergedNextF (totalSize streams + 1) suppress streams

/-- The full output of the merged iterator: successive `merged_iter_next`
calls until end of iteration. -/
def mergedRunF : Nat → Bool → List (List Rec) → List Rec
  | 0, _, _ => []
  | fuel+1, suppress, streams =>
    match mergedNext suppress streams with
    | none => []
    | some (r, s') => r :: mergedRunF fuel suppress s'

/-- The full output of the merged iterator, with enough fuel for any input. -/
def mergedRun (suppress : Bool) (streams : List (List Rec)) : List Rec :=
  mergedRunF (totalSize streams + 1) suppress streams

/-- One stack step of the winner computation: a stream that contains a record
with key `k` overrides the record found so far. -/
def winnerStep (k : Key) (acc : Option Rec) (s : List Rec) : Option Rec :=
  match s.find? (fun r => decide (r.key = k)) with
  | some r => some r
  | none => acc

/-- The record for key `k` in the largest-indexed (newest) sub-iterator that
contains `k`: fold over the stack, a later stream's match overriding an
earlier one's. -/
def winnerRec (k : Key) (streams : List (List Rec)) : Option Rec :=
  streams.foldl (winnerStep k) none

/-- One step of the closed form of the shadowing loop: a stream whose head
key is `≤ k` loses its head. -/
def dropHeadLE (k : Key) : List Rec → List Rec
  | [] => []
  | x :: t => if x.key ≤ k then t else x :: t

/-- Closed form of the shadowing loop on a state whose head keys are all
`≥ k`: every stream with head key `≤ k` (hence `= k`) is advanced once. -/
def dropHeads (k : Key) (streams : List (List Rec)) : List (List Rec) :=
  streams.map (dropHeadLE k)

/-- All stream heads have key `≥ k`. -/
def HeadsGE (k : Key) (streams : List (List Rec)) : Prop :=
  ∀ s ∈ streams, ∀ r : Rec, s.head? = some r → k ≤ r.key

/-- Every sub-iterator yields records in strictly increasing key order. -/
def SortedStreams (streams : List (List Rec)) : Prop :=
  ∀ s ∈ streams, s.Pairwise recLt

/-- All records in all streams have key `> k`. -/
def AllGtKey (k : Key) (streams : List (List Rec)) : Prop :=
  ∀ s ∈ streams, ∀ x ∈ s, k < x.key

instance (streams : List (List Rec)) : Decidable (SortedStreams streams) := by
  unfold SortedStreams
  exact inferInstance

/-- The per-reader metadata consulted by `reftable_new_merged_table`:
`hash_id`, `min_update_index`, `max_update_index`. -/
structure RdMeta where
  hashId : Nat
  minUpd : Nat
  maxUpd : Nat
deriving DecidableEq, Repr

/-- The merged table produced on success (merged.c): stack length, `min`,
`max`, `hash_id`. -/
structure MergedTable where
  stackLen : Nat
  minUpd : Nat
  maxUpd : Nat
  hashId : Nat
deriving DecidableEq, Repr

/-- Update-index ordering between adjacent tables in a stack (spec §3):
the older table's `max_update_index` lies strictly below the newer table's
`min_update_index`. -/
def updOrder (a b : RdMeta) : Prop := a.maxUpd < b.minUpd

instance : DecidableRel updOrder := fun a b => inferInstanceAs (Decidable (_ < _))

/-- The validation loop of `reftable_new_merged_table` (merged.c lines
179-192): per reader, check the hash id; for `i > 0` check
`last_max >= min_update_index` and fail; remember the first reader's min and
the running last max. -/
def newMergedLoop (hashId : Nat) : List RdMeta → Nat → Nat → Nat → Except ErrCode (Nat × Nat)
  | [], _, firstMin, lastMax => .ok (firstMin, lastMax)
  | r :: rest, i, firstMin, lastMax =>
    if r.hashId ≠ hashId then .error .formatErr
    else if 0 < i ∧ r.minUpd ≤ lastMax then .error .formatErr
    else newMergedLoop hashId rest (i+1)
      (if i = 0 then r.minUpd else firstMin) r.maxUpd

/-- `reftable_new_merged_table` (merged.c): run the validation loop from
index 0 with `first_min = last_max = 0`; on success build the merged table
carrying the collected min and max. -/
def reftableNewMergedTable (stack : List RdMeta) (hashId : Nat) :
    Except ErrCode MergedTable :=
  match newMergedLoop hashId stack 0 0 0 with
  | .error e => .error e
  | .ok (fm, lm) => .ok ⟨stack.length, fm, lm, hashId⟩

/-- The running last max after a (possibly empty) suffix of readers. -/
def lastMaxD (lm : Nat) (l : List RdMeta) : Nat :=
  match l.getLast? with
  | some r => r.maxUpd
  | none => lm

/-- A loaned block buffer (`struct reftable_block`): `data = none` models a
NULL data pointer (otherwise the id of the backing allocation), `len` the
byte count, `srcOps` whether `block.source.ops` is non-NULL. -/
structure RBlock where
  data : Option Nat := none
  len : Nat := 0
  srcOps : Bool := false
deriving DecidableEq, Repr

/-- The file block source's private state: ids of live (malloc'd, not yet
freed) buffers. -/
structure FileSource where
  live : List Nat
deriving DecidableEq, Repr

/-- C `free` via `reftable_free`: freeing NULL is a no-op; freeing a buffer
removes it from the live set. -/
def freeBuf (s : FileSource) : Option Nat → FileSource
  | none => s
  | some i => ⟨s.live.erase i⟩

/-- `file_return_block` (file.c): memset the buffer to 0xff (no observable
effect on the source model) and free `dest->data`; with a zero'd block this
is `memset(NULL, 0xff, 0)` plus `free(NULL)`, both no-ops. -/
def fileReturnBlock (s : FileSource) (b : RBlock) : FileSource :=
  freeBuf s b.data

/-- `block_source_return_block` (reader.c): invoke the source's
`return_block`, then clear the block: `data = NULL`, `len = 0`, and the
block's source ops pointer is cleared. -/
def blockSourceReturnBlock (s : FileSource) (b : RBlock) : FileSource × RBlock :=
  (fileReturnBlock s b, ⟨none, 0, false⟩)

/-- The per-block state of a table iterator (`table_iter` / `block_iter`):
`br = none` models `bi.br == NULL`, i.e. every block already returned. -/
structure TIState where
  br : Option RBlock := none
  lastKeyLen : Nat := 0
  nextOff : Nat := 0
deriving DecidableEq, Repr

/-- `table_iter_block_done` (reader.c): with `bi.br == NULL` it returns
immediately; otherwise it returns the block to the source and resets the
iterator. -/
def tableIterBlockDone (s : FileSource) (ti : TIState) : FileSource × TIState :=
  match ti.br with
  | none => (s, ti)
  | some b => ((blockSourceReturnBlock s b).1, ⟨none, 0, 0⟩)

/-- `table_iter_close` (reader.c): `table_iter_block_done` then
`block_iter_close`, which only releases the iterator's own key buffer and
touches neither the source nor any block. -/
def tableIterClose (s : FileSource) (ti : TIState) : FileSource × TIState :=
  tableIterBlockDone s ti

/-- 2^64, the modulus of C `uint64_t` arithmetic. -/
def u64Mod : Nat := 2 ^ 64

/-- Modelled from the spec: `block_iter_next` (block.c, §4.4) yields the next
decoded record of the current block, or end of block. -/
def blockIterNext (b : List Rec) : Option (Rec × List Rec) :=
  match b with
  | [] => none
  | r :: rest => some (r, rest)

/-- `table_iter_next_in_block` (reader.c lines 240-249): take the next record
from the block iterator; exactly when it is a ref record, add the table's
`min_update_index` to the decoded update-index delta (uint64 addition). -/
def tableIterNextInBlock (minUpdateIdx : Nat) (b : List Rec) : Option (Rec × List Rec) :=
  match blockIterNext b with
  | none => none
  | some (r, rest) =>
    if r.typ = tagRef then
      some ({ r with upd := (r.upd + minUpdateIdx) % u64Mod }, rest)
    else some (r, rest)

/-- Modelled from the spec: the writer encodes a ref record's `update_index`
as a delta relative to the table's `min_update_index` (spec §3); in uint64
arithmetic the stored delta is `u - m` mod 2^64. -/
def encodeRefDelta (minUpdateIdx u : Nat) : Nat :=
  (u + u64Mod - minUpdateIdx) % u64Mod

/-- The reflected CRC-32 (IEEE 802.3) polynomial, as used by zlib's
`crc32`. -/
def crcPoly : Nat := 0xEDB88320

/-- One bit step of the bitwise CRC-32: shift right, conditionally xor the
polynomial. -/
def crcStep (s : Nat) : Nat :=
  if s % 2 = 1 then (s / 2) ^^^ crcPoly else s / 2

/-- Eight bit steps (one byte). -/
def crcSteps8 (s : Nat) : Nat :=
  crcStep (crcStep (crcStep (crcStep (crcStep (crcStep (crcStep (crcStep s)))))))

/-- Absorb one message byte into the CRC state. -/
def crcByte (s b : Nat) : Nat := crcSteps8 (s ^^^ b)

/-- Absorb a byte string. -/
def crcUpdate (s : Nat) (bytes : List Nat) : Nat := bytes.foldl crcByte s

/-- zlib `crc32(0, buf, len)`: initial state `0xFFFFFFFF`, final
complement. -/
def crc32 (bytes : List Nat) : Nat := crcUpdate 0xFFFFFFFF bytes ^^^ 0xFFFFFFFF

/-- Iterated absorption of zero bytes, the homogeneous tail of the CRC's
linear structure. -/
def crcZeros : Nat → Nat → Nat
  | 0, d => d
  | n+1, d => crcZeros n (crcByte d 0)

/-- `SHA1_ID` = 0x73686131 ("sha1"). -/
def sha1Id : Nat := 0x73686131

/-- `SHA256_ID` = 0x73323536 ("s256"). -/
def sha256Id : Nat := 0x73323536

/-- `header_size(version)`: 24 bytes for v1, 28 for v2 (spec §3; block.c). -/
def headerSize (v : Nat) : Nat := if v = 1 then 24 else 28

/-- `footer_size(version)`: 68 bytes for v1, 72 for v2 (spec §3; block.c). -/
def footerSize (v : Nat) : Nat := if v = 1 then 68 else 72

/-- Big-endian integer read of `n` bytes at offset `off` (`get_be24`,
`get_be32`, `get_be64`). -/
def getBe (bytes : List Nat) (off n : Nat) : Nat :=
  ((bytes.drop off).take n).foldl (fun acc b => acc * 256 + b) 0

/-- The magic bytes "REFT". -/
def magicREFT : List Nat := [82, 69, 70, 84]

/-- The reader's cached footer metadata, filled in by `parse_footer`. -/
structure Rdr where
  version : Nat
  blockSize : Nat
  minUpdateIdx : Nat
  maxUpdateIdx : Nat
  hashId : Nat
  refIndexOff : Nat
  objOff : Nat
  objectIdLen : Nat
  objIndexOff : Nat
  logOff : Nat
  logIndexOff : Nat
  refPresent : Bool
  objPresent : Bool
  logPresent : Bool
  rdSize : Nat
deriving DecidableEq, Repr

/-- `parse_footer` (reader.c): check the footer magic, compare the footer's
leading bytes against the file header, decode block size and update indices,
check the v2 hash id, decode the five section offsets (obj offset packs
`object_id_len` in its low 5 bits), verify the CRC-32 of the footer bytes
before the CRC word, and derive the section presence flags from the first
block's type byte (the byte right after the file header) and the obj/log
offsets. -/
def parseFooter (version size : Nat) (footer header : List Nat) : Except ErrCode Rdr :=
  if footer.take 4 ≠ magicREFT then .error .formatErr
  else if footer.take (headerSize version) ≠ header.take (headerSize version) then
    .error .formatErr
  else if version ≠ 1 ∧ getBe footer 24 4 ≠ sha1Id ∧ getBe footer 24 4 ≠ sha256Id then
    .error .formatErr
  else if crc32 (footer.take (headerSize version + 40)) ≠
      getBe footer (headerSize version + 40) 4 then .error .formatErr
  else
    .ok { version := version
          blockSize := getBe footer 5 3
          minUpdateIdx := getBe footer 8 8
          maxUpdateIdx := getBe footer 16 8
          hashId := if version = 1 then sha1Id else getBe footer 24 4
          refIndexOff := getBe footer (headerSize version) 8
          objOff := getBe footer (headerSize version + 8) 8 / 32
          objectIdLen := getBe footer (headerSize version + 8) 8 % 32
          objIndexOff := getBe footer (headerSize version + 16) 8
          logOff := getBe footer (headerSize version + 24) 8
          logIndexOff := getBe footer (headerSize version + 32) 8
          refPresent := header.getD (headerSize version) 0 = tagRef
          objPresent := 0 < getBe footer (headerSize version + 8) 8 / 32
          logPresent := header.getD (headerSize version) 0 = tagLog ∨
            0 < getBe footer (headerSize version + 24) 8
          rdSize := size }

/-- A block-source read: the bytes of `[off, off+size)` clipped to the file;
the number of bytes obtained is the length of the result (`file_read_block`
returns the byte count, and fewer than requested is a short read). -/
def readBlock (file : List Nat) (off size : Nat) : List Nat :=
  (file.drop off).take size

/-- `init_reader` (reader.c): read a probe of `header_size(2) + 1` bytes
(short read is an i/o error), check the magic and the version byte, compute
the table size as file size minus footer size (uint64 arithmetic), read the
footer at that offset (short read is an i/o error), and parse it. -/
def initReader (file : List Nat) : Except ErrCode Rdr :=
  let header := readBlock file 0 (headerSize 2 + 1)
  if header.length ≠ headerSize 2 + 1 then .error .ioErr
  else if header.take 4 ≠ magicREFT then .error .formatErr
  else if header.getD 4 0 ≠ 1 ∧ header.getD 4 0 ≠ 2 then .error .formatErr
  else
    let version := header.getD 4 0
    let size := (file.length + u64Mod - footerSize version) % u64Mod
    let footer := readBlock file size (footerSize version)
    if footer.length ≠ footerSize version then .error .ioErr
    else parseFooter version size footer header

/-- The probe read by `init_reader`. -/
def probeOf (file : List Nat) : List Nat := readBlock file 0 (headerSize 2 + 1)

/-- The version byte of the file. -/
def versionOf (file : List Nat) : Nat := (probeOf file).getD 4 0

/-- `r->size`: file size minus footer size in uint64 arithmetic. -/
def rdrSizeOf (file : List Nat) : Nat :=
  (file.length + u64Mod - footerSize (versionOf file)) % u64Mod

/-- The footer bytes read by `init_reader`. -/
def footerBytesOf (file : List Nat) : List Nat :=
  readBlock file (rdrSizeOf file) (footerSize (versionOf file))

/-- The three validation checks of `parse_footer` beyond the magic bytes, on
the footer and header actually read by `init_reader`: the footer's leading
header copy agrees with the file's header, the (v2) hash id is known, and the
stored CRC-32 equals the one computed over the preceding footer bytes. -/
def footerChecksOk (file : List Nat) : Prop :=
  (footerBytesOf file).take (headerSize (versionOf file)) =
    (probeOf file).take (headerSize (versionOf file)) ∧
  (versionOf file = 1 ∨ getBe (footerBytesOf file) 24 4 = sha1Id ∨
    getBe (footerBytesOf file) 24 4 = sha256Id) ∧
  crc32 ((footerBytesOf file).take (headerSize (versionOf file) + 40)) =
    getBe (footerBytesOf file) (headerSize (versionOf file) + 40) 4

/-- A concrete minimal version-1 table file: 24-byte header, a 5-byte ref
block stub ('r' type byte), and a 68-byte footer with valid CRC. -/
def c4File : List Nat :=
  [82, 69, 70, 84, 1, 0, 0, 0, 0, 0, 0, 0, 0, 0, 0, 1, 0, 0, 0, 0, 0, 0, 0, 1,
   114, 0, 0, 0, 0,
   82, 69, 70, 84, 1, 0, 0, 0, 0, 0, 0, 0, 0, 0, 0, 1, 0, 0, 0, 0, 0, 0, 0, 1,
   0, 0, 0, 0, 0, 0, 0, 0, 0, 0, 0, 0, 0, 0, 0, 0, 0, 0, 0, 0, 0, 0, 0, 0,
   0, 0, 0, 0, 0, 0, 0, 0, 0, 0, 0, 0, 0, 0, 0, 0, 193, 233, 27, 60]

/-- Like `c4File` but the first block's type byte is 'o' (111) while the
footer's obj offset field is zero. -/
def c5File : List Nat :=
  [82, 69, 70, 84, 1, 0, 0, 0, 0, 0, 0, 0, 0, 0, 0, 1, 0, 0, 0, 0, 0, 0, 0, 1,
   111, 0, 0, 0, 0,
   82, 69, 70, 84, 1, 0, 0, 0, 0, 0, 0, 0, 0, 0, 0, 1, 0, 0, 0, 0, 0, 0, 0, 1,
   0, 0, 0, 0, 0, 0, 0, 0, 0, 0, 0, 0, 0, 0, 0, 0, 0, 0, 0, 0, 0, 0, 0, 0,
   0, 0, 0, 0, 0, 0, 0, 0, 0, 0, 0, 0, 0, 0, 0, 0, 193, 233, 27, 60]

/-- The first 64 footer bytes shared by `c4File` and `c5File` (the CRC'd
region). -/
def c45Footer64 : List Nat := [82, 69, 70, 84, 1, 0, 0, 0, 0, 0, 0, 0, 0, 0, 0, 1, 0, 0, 0, 0, 0, 0, 0, 1, 0, 0, 0, 0, 0, 0, 0, 0, 0, 0, 0, 0, 0, 0, 0, 0, 0, 0, 0, 0, 0, 0, 0, 0, 0, 0, 0, 0, 0, 0, 0, 0, 0, 0, 0, 0, 0, 0, 0, 0]

/-- The full 68-byte footer of `c4File` and `c5File`. -/
def c45Footer : List Nat := [82, 69, 70, 84, 1, 0, 0, 0, 0, 0, 0, 0, 0, 0, 0, 1, 0, 0, 0, 0, 0, 0, 0, 1, 0, 0, 0, 0, 0, 0, 0, 0, 0, 0, 0, 0, 0, 0, 0, 0, 0, 0, 0, 0, 0, 0, 0, 0, 0, 0, 0, 0, 0, 0, 0, 0, 0, 0, 0, 0, 0, 0, 0, 0, 193, 233, 27, 60]

/-- The 29-byte probe of `c5File`. -/
def c5Probe : List Nat := [82, 69, 70, 84, 1, 0, 0, 0, 0, 0, 0, 0, 0, 0, 0, 1, 0, 0, 0, 0, 0, 0, 0, 1, 111, 0, 0, 0, 0]

/-- The reader produced by opening `c5File`. -/
def c5Rdr : Rdr :=
  { version := 1, blockSize := 0, minUpdateIdx := 1, maxUpdateIdx := 1,
    hashId := sha1Id, refIndexOff := 0, objOff := 0, objectIdLen := 0,
    objIndexOff := 0, logOff := 0, logIndexOff := 0,
    refPresent := false, objPresent := false, logPresent := false, rdSize := 29 }

/-- `~((uint64_t)0)`: the largest 64-bit value. -/
def u64Max : Nat := u64Mod - 1

/-- Modelled from the spec: big-endian `n`-byte encoding of a value
(`put_be64` in record.c). -/
def beBytes : Nat → Nat → List Nat
  | 0, _ => []
  | n + 1, x => x / 256 ^ n :: beBytes n (x % 256 ^ n)

/-- Modelled from the spec: the sort key of a log record for `name` at
`update_index` `u` is `name ++ "\x00" ++ bswap64(~u)` (record.c,
`log_record_key`; spec §4.5: log blocks are sorted by ref name then
descending update index, realised by appending the big-endian complement of
the update index). -/
def logKey (name : List Nat) (u : Nat) : Key :=
  name ++ 0 :: beBytes 8 (u64Max - u)

/-- `reftable_reader_seek_log_at` (reader.c): seek the log section with the
key of a log record for `name` at `update_index`. -/
def readerSeekLogAt (s : RSection) (name : List Nat) (u : Nat) :
    Except ErrCode SeekResult :=
  readerSeek s (logKey name u)

/-- `reftable_reader_seek_log` (reader.c): seek with
`update_index = ~((uint64_t)0)`. -/
def readerSeekLog (s : RSection) (name : List Nat) : Except ErrCode SeekResult :=
  readerSeekLogAt s name u64Max

/-- `merged_table_seek_record` (merged.c): seek every reader of the stack
with the same key, stopping at the first error; the surviving iterators form
the merged iterator's sub-iterator stack. -/
def mergedSeekRecord : List RSection → Key → Except ErrCode (List SeekResult)
  | [], _ => .ok []
  | s :: t, want =>
    match readerSeek s want with
    | .error e => .error e
    | .ok r =>
      match mergedSeekRecord t want with
      | .error e => .error e
      | .ok rs => .ok (r :: rs)

/-- `reftable_merged_table_seek_log_at` (merged.c). -/
def mergedSeekLogAt (secs : List RSection) (name : List Nat) (u : Nat) :
    Except ErrCode (List SeekResult) :=
  mergedSeekRecord secs (logKey name u)

/-- `reftable_merged_table_seek_log` (merged.c): seek with
`update_index = ~((uint64_t)0)`. -/
def mergedSeekLog (secs : List RSection) (name : List Nat) :
    Except ErrCode (List SeekResult) :=
  mergedSeekLogAt secs name u64Max

/-- A section whose records are log records: each record's key is the log
key built from its name and update index, the update index fits in 64 bits,
and the ref name contains no NUL byte. -/
def LogRecords (l : List Rec) : Prop :=
  ∀ r ∈ l, r.typ = tagLog ∧ r.key = logKey r.name r.upd ∧
    r.upd < u64Mod ∧ 0 ∉ r.name

instance (l : List Rec) : Decidable (LogRecords l) :=
  inferInstanceAs (Decidable (∀ r ∈ l, _ ∧ _ ∧ _ ∧ _))

/-- The concrete log section used by the C6 witness: two entries for ref
name `[97]`, at update indices 5 and 2 (newer first in key order). -/
def c6Sec : RSection :=
  ⟨true, [[{ typ := tagLog, key := logKey [97] 5, name := [97], upd := 5 }],
          [{ typ := tagLog, key := logKey [97] 2, name := [97], upd := 2 }]], []⟩

/-- The iterator shapes that `reftable_reader_refs_for` can store into its
output: the empty iterator (`iterator_set_empty`), an indexed-table ref
iterator over the offset list of the matching obj record
(`new_indexed_table_ref_iter`), or a filtering ref iterator wrapping a table
iterator over the whole ref section (`filtering_ref_iterator`, with its
`oid` and `double_check` fields). -/
inductive RefsIter where
  | empty
  | indexed (offsets : List Nat)
  | filtered (oid : List Nat) (doubleCheck : Bool) (blocks : List (List Rec))
deriving DecidableEq, Repr

/-- The parts of an opened reader that `refs_for` consults: the obj section
(with its presence flag), the ref section, and `object_id_len` from the
footer. -/
structure RdTable where
  objSec : RSection
  refSec : RSection
  objectIdLen : Nat
deriving DecidableEq, Repr

/-- `reftable_reader_refs_for_indexed` (reader.c): seek the obj section with
the first `object_id_len` bytes of `oid` as key.  A nonzero seek return is
handed straight back (`if (err != 0) return err;` — this includes the
positive code 1 of an overshooting indexed seek, returned with the output
iterator left unset, modelled as `.ok none`).  Otherwise, if `next` reports
end of iteration, or the record found stores a different hash prefix
(`memcmp` over `object_id_len` bytes), set the output to the empty iterator
and return success; otherwise build an indexed-table ref iterator from the
record's offset list (`new_indexed_table_ref_iter`, modelled from the spec
as succeeding with that offset list).  In the result, `.ok (some it)` is a
zero return with output `it`, `.ok none` the positive return with no
output. -/
def refsForIndexed (t : RdTable) (oid : List Nat) :
    Except ErrCode (Option RefsIter) :=
  match readerSeek t.objSec (oid.take t.objectIdLen) with
  | .error e => .error e
  | .ok .eof => .ok none
  | .ok sr =>
    match seekResultNextRec sr with
    | none => .ok (some .empty)
    | some got =>
      if got.key.take t.objectIdLen = oid.take t.objectIdLen then
        .ok (some (.indexed got.offsets))
      else .ok (some .empty)

/-- `reader_start` with `BLOCK_TYPE_REF` and `index = false` (reader.c): a
table iterator at the first block of the ref section.  Reading the block
can fail in the program (`reader_init_block_reader`); over the decoded
blocks of the embedding the read always succeeds, so the error constructor
of the result is never produced, but callers still propagate it. -/
def readerStart (s : RSection) : Except ErrCode (List Rec × List (List Rec)) :=
  match s.blocks with
  | [] => .ok ([], [])
  | b :: rest => .ok (b, rest)

/-- `reftable_reader_refs_for_unindexed` (reader.c): start a table iterator
at the beginning of the ref section (`reader_start`), propagating its
errors (`if (err < 0) return err;`), and wrap it in a filtering ref
iterator whose `double_check` is `false`. -/
def refsForUnindexed (t : RdTable) (oid : List Nat) :
    Except ErrCode (Option RefsIter) :=
  match readerStart t.refSec with
  | .error e => .error e
  | .ok (cur, rest) => .ok (some (.filtered oid false (cur :: rest)))

/-- `reftable_reader_refs_for` (reader.c): take the indexed path exactly
when the obj section is present, the unindexed path otherwise. -/
def refsFor (t : RdTable) (oid : List Nat) : Except ErrCode (Option RefsIter) :=
  if t.objSec.present then refsForIndexed t oid else refsForUnindexed t oid

/-- The concrete table used by the C10 witness: one obj record whose stored
prefix `[1, 2]` differs from the searched oid `[9, 9, 9]`. -/
def c10Table : RdTable :=
  ⟨⟨true, [[{ typ := tagObj, key := [1, 2], offsets := [0] }]], []⟩,
   ⟨true, [[{ typ := tagRef, key := [97] }]], []⟩, 2⟩

/-- The concrete table refuting C10 as stated: the obj section carries a
one-level index, and the searched oid lies past every obj key, so the
indexed obj seek overshoots and `refs_for` returns the positive code 1
without setting the output iterator. -/
def c10xTable : RdTable :=
  ⟨⟨true, [[{ typ := tagObj, key := [1, 2], offsets := [0] }]],
    [[[{ typ := tagIdx, key := [1, 2], val := 0 }]]]⟩,
   ⟨true, [[{ typ := tagRef, key := [97] }]], []⟩, 2⟩

theorem tableIterNextRec_eq_head? (cur : List Rec) (rest : List (List Rec)) :
    tableIterNextRec cur rest = (cur ++ rest.flatten).head? := by
  induction rest generalizing cur with
  | nil => cases cur <;> simp [tableIterNextRec, tableIterNext]
  | cons b rest ih =>
    cases cur with
    | nil => simpa [tableIterNextRec, tableIterNext] using ih b
    | cons r rem => simp [tableIterNextRec, tableIterNext]

theorem seekLinearLoop_spec (want : Key) (rest : List (List Rec)) (cur : List Rec)
    (hne : ∀ b ∈ rest, b ≠ [])
    (hs : (cur ++ rest.flatten).Pairwise recLt) :
    ∃ cur' rest' skipped, seekLinearLoop want cur rest = .ok (cur', rest') ∧
      cur ++ rest.flatten = skipped ++ (cur' ++ rest'.flatten) ∧
      (∀ r ∈ skipped, r.key < want) ∧
      (∀ b ∈ rest', b ∈ rest) ∧
      (∀ r, rest'.flatten.head? = some r → want < r.key) := by
  induction rest generalizing cur with
  | nil =>
    refine ⟨cur, [], [], rfl, by simp, by simp, by simp, by simp⟩
  | cons b rest₂ ih =>
    obtain ⟨r, bs, rfl⟩ : ∃ r bs, b = r :: bs := by
      cases hb : b with
      | nil => exact absurd hb (hne b (by simp))
      | cons x xs => exact ⟨x, xs, rfl⟩
    by_cases hlt : want < r.key
    · refine ⟨cur, (r :: bs) :: rest₂, [], ?_, by simp, by simp, fun b hb => hb, ?_⟩
      · simp [seekLinearLoop, hlt]
      · intro x hx
        simp only [List.flatten_cons, List.cons_append, List.head?_cons,
          Option.some.injEq] at hx
        exact hx ▸ hlt
    · have hrw : r.key ≤ want := le_of_not_lt hlt
      have hs' : ((r :: bs) ++ rest₂.flatten).Pairwise recLt := by
        have := (List.pairwise_append.mp (by simpa using hs)).2.1
        simpa using this
      obtain ⟨cur₁, rest₁, skipped₁, heq, hflat, hskip, hmem, hhead⟩ :=
        ih (r :: bs) (fun b hb => hne b (by simp [hb])) hs'
      refine ⟨cur₁, rest₁, cur ++ skipped₁, ?_, ?_, ?_, fun b hb => by simp [hmem b hb], hhead⟩
      · simpa [seekLinearLoop, hlt] using heq
      · simp only [List.flatten_cons, List.append_assoc] at hflat ⊢
        rw [hflat]
      · intro x hx
        rcases List.mem_append.mp hx with hx | hx
        · have hcross := (List.pairwise_append.mp (by simpa using hs)).2.2
          have : recLt x r := hcross x hx r (by simp)
          exact lt_of_lt_of_le this hrw
        · exact hskip x hx

theorem find?_min_of_pairwise (l : List Rec) (want : Key)
    (hs : l.Pairwise recLt) :
    (match l.find? (fun r => decide (want ≤ r.key)) with
     | some r₀ => r₀ ∈ l ∧ want ≤ r₀.key ∧ ∀ r ∈ l, want ≤ r.key → r₀.key ≤ r.key
     | none => ∀ r ∈ l, r.key < want) := by
  induction l with
  | nil => simp
  | cons a t ih =>
    by_cases ha : want ≤ a.key
    · have hf : List.find? (fun r => decide (want ≤ r.key)) (a :: t) = some a :=
        List.find?_cons_of_pos _ (decide_eq_true ha)
      rw [hf]
      refine ⟨by simp, ha, ?_⟩
      intro r hr _
      rcases List.mem_cons.mp hr with rfl | hr
      · exact le_refl _
      · exact le_of_lt (List.rel_of_pairwise_cons hs hr)
    · have ha' : a.key < want := lt_of_not_le ha
      have hf0 : List.find? (fun r => decide (want ≤ r.key)) (a :: t) =
          List.find? (fun r => decide (want ≤ r.key)) t :=
        List.find?_cons_of_neg _ (by simp [ha])
      rw [hf0]
      have iht := ih (List.Pairwise.of_cons hs)
      cases hf : t.find? (fun r => decide (want ≤ r.key)) with
      | some r₀ =>
        rw [hf] at iht
        exact ⟨List.mem_cons_of_mem a iht.1, iht.2.1, by
          intro r hr hwr
          rcases List.mem_cons.mp hr with rfl | hr
          · exact absurd hwr ha
          · exact iht.2.2 r hr hwr⟩
      | none =>
        rw [hf] at iht
        intro r hr
        rcases List.mem_cons.mp hr with rfl | hr
        · exact ha'
        · exact iht r hr

theorem readerSeekLinear_next_spec (blocks : List (List Rec)) (want : Key)
    (hwf : WfBlocks blocks) (hnil : blocks ≠ []) :
    ∃ cur rest, readerSeekLinear want blocks = .ok (cur, rest) ∧
      tableIterNextRec cur rest =
        blocks.flatten.find? (fun r => decide (want ≤ r.key)) := by
  obtain ⟨B, rest0, rfl⟩ : ∃ B rest0, blocks = B :: rest0 := by
    cases blocks with
    | nil => exact absurd rfl hnil
    | cons x xs => exact ⟨x, xs, rfl⟩
  have hs : (B ++ rest0.flatten).Pairwise recLt := by simpa using hwf.2
  obtain ⟨cur', rest', skipped, hloop, hflat, hskip, _, hhead⟩ :=
    seekLinearLoop_spec want rest0 B (fun b hb => hwf.1 b (by simp [hb])) hs
  refine ⟨blockIterSeek want cur', rest', ?_, ?_⟩
  · simp [readerSeekLinear, hloop]
  · rw [tableIterNextRec_eq_head?]
    have hfl : (B :: rest0).flatten = skipped ++ (cur' ++ rest'.flatten) := by
      simpa using hflat
    rw [hfl, List.find?_append, List.find?_append]
    have h1 : List.find? (fun r => decide (want ≤ r.key)) skipped = none :=
      List.find?_eq_none.mpr (fun x hx => by simp [not_le.mpr (hskip x hx)])
    rw [h1, Option.none_or]
    have h2 : List.find? (fun r => decide (want ≤ r.key)) cur' =
        (blockIterSeek want cur').head? := by
      rw [List.find?_eq_head?_dropWhile_not]
      unfold blockIterSeek
      have hpe : (fun x : Rec => !decide (want ≤ x.key)) =
          (fun r : Rec => decide (r.key < want)) := by
        funext r
        by_cases h : want ≤ r.key
        · simp [h, not_lt.mpr h]
        · simp [h, lt_of_not_le h]
      rw [hpe]
    rw [h2]
    cases hx : (blockIterSeek want cur').head? with
    | some v => simp [List.head?_append, hx]
    | none =>
      rw [List.head?_append, hx, Option.none_or, Option.none_or]
      cases hfz : rest'.flatten with
      | nil => simp
      | cons r tl =>
        have hr : want < r.key := hhead r (by simp [hfz])
        have hf : List.find? (fun x => decide (want ≤ x.key)) (r :: tl) = some r :=
          List.find?_cons_of_pos _ (decide_eq_true (le_of_lt hr))
        rw [hf, List.head?_cons]

theorem find?_ge_eq_head_dropWhile (l : List Rec) (want : Key) :
    l.find? (fun r => decide (want ≤ r.key)) =
      (l.dropWhile (fun r => decide (r.key < want))).head? := by
  rw [List.find?_eq_head?_dropWhile_not]
  have hpe : (fun x : Rec => !decide (want ≤ x.key)) =
      (fun r : Rec => decide (r.key < want)) := by
    funext r
    by_cases h : want ≤ r.key
    · simp [h, not_lt.mpr h]
    · simp [h, lt_of_not_le h]
  rw [hpe]

theorem seekResultNextRec_eq_head (res : SeekResult) :
    seekResultNextRec res = (seekResultStream res).head? := by
  cases res with
  | empty => rfl
  | eof => rfl
  | iter cur rest =>
    simpa [seekResultNextRec, seekResultStream] using tableIterNextRec_eq_head? cur rest

theorem key_le_getLast (l : List Rec) (hs : l.Pairwise recLt) (x : Rec)
    (hx : x ∈ l) (k : Key) (hk : lastKey? l = some k) : x.key ≤ k := by
  induction l with
  | nil => cases hx
  | cons a t ih =>
    cases t with
    | nil =>
      have hxa : x = a := by simpa using hx
      have hka : a.key = k := by simpa [lastKey?] using hk
      rw [hxa, hka]
    | cons b t2 =>
      have hk2 : lastKey? (b :: t2) = some k := by
        simpa [lastKey?, List.getLast?_cons_cons] using hk
      rcases List.mem_cons.mp hx with rfl | hx2
      · obtain ⟨y, hy, hyk⟩ : ∃ y, y ∈ b :: t2 ∧ y.key = k := by
          unfold lastKey? at hk2
          cases hg : (b :: t2).getLast? with
          | none => rw [hg] at hk2; cases hk2
          | some y =>
            rw [hg] at hk2
            exact ⟨y, List.mem_of_mem_getLast? (by rw [hg]; rfl),
              by simpa using hk2⟩
        rw [← hyk]
        exact le_of_lt (List.rel_of_pairwise_cons hs hy)
      · exact ih (List.Pairwise.of_cons hs) hx2 hk2

theorem flatten_take_small (targets : List (List Rec)) (want : Key) (j : Nat)
    (hsort : targets.flatten.Pairwise recLt)
    (hkeys : ∀ i, i < j → i < targets.length →
      ∃ k, lastKey? (targets.getD i []) = some k ∧ k < want) :
    ∀ x ∈ (targets.take j).flatten, x.key < want := by
  intro x hx
  obtain ⟨blk, hblk, hxblk⟩ := List.mem_flatten.mp hx
  obtain ⟨i, hi, hbi⟩ := List.getElem_of_mem hblk
  have hlen : i < j ∧ i < targets.length := by
    have := hi
    simp [List.length_take] at this
    omega
  have hbi2 : targets.getD i [] = blk := by
    rw [List.getD_eq_getElem _ _ hlen.2, ← hbi, List.getElem_take]
  obtain ⟨k, hk, hkw⟩ := hkeys i hlen.1 hlen.2
  rw [hbi2] at hk
  have hbmem : blk ∈ targets := (List.take_sublist j targets).mem hblk
  have hbsort : blk.Pairwise recLt :=
    List.Pairwise.sublist (List.sublist_flatten_of_mem hbmem) hsort
  exact lt_of_le_of_lt (key_le_getLast blk hbsort x hxblk k hk) hkw

theorem levelStep (want : Key) (targets : List (List Rec)) (j : Nat)
    (hs : targets.flatten.Pairwise recLt)
    (hj : j < targets.length)
    (hbefore : ∀ x ∈ (targets.take j).flatten, x.key < want)
    (hlast : ∃ k, lastKey? (targets.getD j []) = some k ∧ want ≤ k) :
    blockIterSeek want (targets.getD j []) ≠ [] ∧
    blockIterSeek want (targets.getD j []) ++ (targets.drop (j + 1)).flatten =
      targets.flatten.dropWhile (fun r => decide (r.key < want)) := by
  obtain ⟨k, hk, hwk⟩ := hlast
  obtain ⟨y, hyb, hyk⟩ : ∃ y, y ∈ targets.getD j [] ∧ y.key = k := by
    unfold lastKey? at hk
    cases hg : (targets.getD j []).getLast? with
    | none => rw [hg] at hk; cases hk
    | some y =>
      rw [hg] at hk
      exact ⟨y, List.mem_of_mem_getLast? (by rw [hg]; rfl), by simpa using hk⟩
  have hne : blockIterSeek want (targets.getD j []) ≠ [] := by
    unfold blockIterSeek
    intro hcon
    have hlt := List.dropWhile_eq_nil_iff.mp hcon y hyb
    rw [decide_eq_true_eq, hyk] at hlt
    exact absurd hwk (not_le.mpr hlt)
  refine ⟨hne, ?_⟩
  have hdec : targets.flatten =
      (targets.take j).flatten ++
        (targets.getD j [] ++ (targets.drop (j + 1)).flatten) := by
    conv_lhs => rw [← List.take_append_drop j targets]
    rw [List.flatten_append, List.drop_eq_getElem_cons hj, List.flatten_cons,
      List.getD_eq_getElem _ _ hj]
  rw [hdec, List.dropWhile_append]
  have h1 : (targets.take j).flatten.dropWhile (fun r => decide (r.key < want)) = [] :=
    List.dropWhile_eq_nil_iff.mpr (fun x hx => by simpa using hbefore x hx)
  rw [h1, if_pos (show ([] : List Rec).isEmpty = true from rfl)]
  rw [List.dropWhile_append]
  have h2 : ((targets.getD j []).dropWhile (fun r => decide (r.key < want))).isEmpty = false := by
    unfold blockIterSeek at hne
    cases hx : (targets.getD j []).dropWhile (fun r => decide (r.key < want)) with
    | nil => exact absurd hx hne
    | cons z tl => rfl
  rw [h2, if_neg Bool.false_ne_true]
  rfl

theorem head_dropWhile_pos (l : List Rec) (p : Rec → Bool) (e : Rec)
    (he : (l.dropWhile p).head? = some e) :
    l[(l.takeWhile p).length]? = some e ∧ p e = false := by
  constructor
  · have hsplit : (l.takeWhile p ++ l.dropWhile p)[(l.takeWhile p).length]? = some e := by
      rw [List.getElem?_append_right (le_refl _)]
      simpa [List.head?_eq_getElem?] using he
    simpa [List.takeWhile_append_dropWhile] using hsplit
  · have h2 := List.head?_dropWhile_not p l
    rw [he] at h2
    exact h2

theorem wfLevel_entry (lvl targets : List (List Rec)) (h : WfLevel lvl targets)
    (want : Key) (e : Rec)
    (he : (lvl.flatten.dropWhile (fun r => decide (r.key < want))).head? = some e) :
    e.val < targets.length ∧
    (∀ i, i < e.val → i < targets.length →
      ∃ k, lastKey? (targets.getD i []) = some k ∧ k < want) ∧
    (∃ k, lastKey? (targets.getD e.val []) = some k ∧ want ≤ k) := by
  obtain ⟨-, -, hsorted, hlen, hpt⟩ := h
  obtain ⟨hpos, hpe⟩ := head_dropWhile_pos _ _ _ he
  have hjlt : (lvl.flatten.takeWhile (fun r => decide (r.key < want))).length <
      lvl.flatten.length := by
    by_contra hge
    push_neg at hge
    rw [List.getElem?_eq_none hge] at hpos
    cases hpos
  have hej : lvl.flatten.getD
      (lvl.flatten.takeWhile (fun r => decide (r.key < want))).length {} = e := by
    rw [List.getD_eq_getElem _ _ hjlt]
    rw [List.getElem?_eq_getElem hjlt] at hpos
    simpa using hpos
  obtain ⟨hval, hlk⟩ := hpt _ hjlt
  rw [hej] at hval hlk
  rw [← hval] at hlk
  have hweq : want ≤ e.key := by
    rw [decide_eq_false_iff_not] at hpe
    exact le_of_not_lt hpe
  refine ⟨by omega, ?_, ?_⟩
  · intro i hi hilen
    have hij : i < (lvl.flatten.takeWhile (fun r => decide (r.key < want))).length := by
      omega
    have hient : lvl.flatten[i]? =
        (lvl.flatten.takeWhile (fun r => decide (r.key < want)))[i]? := by
      conv_lhs =>
        rw [← List.takeWhile_append_dropWhile (fun r => decide (r.key < want)) lvl.flatten]
      rw [List.getElem?_append_left hij]
    have hifl : i < lvl.flatten.length := by omega
    have hmemtw : lvl.flatten.getD i {} ∈
        lvl.flatten.takeWhile (fun r => decide (r.key < want)) := by
      apply List.getElem?_mem
      rw [← hient, List.getD_eq_getElem _ _ hifl, List.getElem?_eq_getElem hifl]
    have hsm := List.mem_takeWhile_imp hmemtw
    rw [decide_eq_true_eq] at hsm
    obtain ⟨-, hlki⟩ := hpt i hifl
    exact ⟨(lvl.flatten.getD i {}).key, hlki, hsm⟩
  · exact ⟨e.key, hlk, hweq⟩

theorem wfIndex_cons (blocks lvl : List (List Rec))
    (rest : List (List (List Rec))) :
    WfIndex blocks (lvl :: rest) ↔
      WfLevel lvl (topTargets blocks rest) ∧ WfIndex blocks rest := Iff.rfl

theorem wfTargets (blocks : List (List Rec))
    (hb : ∀ b ∈ blocks, b ≠ []) (hsrt : blocks.flatten.Pairwise recLt)
    (rest : List (List (List Rec))) (hwf : WfIndex blocks rest) :
    (∀ b ∈ topTargets blocks rest, b ≠ []) ∧
    (topTargets blocks rest).flatten.Pairwise recLt := by
  cases rest with
  | nil => exact ⟨hb, hsrt⟩
  | cons lvl r =>
    obtain ⟨hL, -⟩ := (wfIndex_cons blocks lvl r).mp hwf
    exact ⟨hL.2.1, hL.2.2.1⟩

theorem wfIndex_all_small (want : Key) (blocks : List (List Rec))
    (hb : ∀ b ∈ blocks, b ≠ []) (hsrt : blocks.flatten.Pairwise recLt)
    (rest : List (List (List Rec))) (hwfi : WfIndex blocks rest)
    (hsm : ∀ x ∈ (topTargets blocks rest).flatten, x.key < want) :
    ∀ x ∈ blocks.flatten, x.key < want := by
  induction rest with
  | nil => exact hsm
  | cons lvl r ih =>
    obtain ⟨hL, hwr⟩ := (wfIndex_cons blocks lvl r).mp hwfi
    apply ih hwr
    intro x hx
    obtain ⟨-, -, -, hlen, hpt⟩ := hL
    obtain ⟨blk, hblk, hxblk⟩ := List.mem_flatten.mp hx
    obtain ⟨i, hi, hbi⟩ := List.getElem_of_mem hblk
    have hifl : i < lvl.flatten.length := by omega
    obtain ⟨-, hlki⟩ := hpt i hifl
    have hbi2 : (topTargets blocks r).getD i [] = blk := by
      rw [List.getD_eq_getElem _ _ hi, hbi]
    rw [hbi2] at hlki
    have hmem : lvl.flatten.getD i {} ∈ lvl.flatten := by
      rw [List.getD_eq_getElem _ _ hifl]
      exact List.getElem_mem hifl
    have hklt : (lvl.flatten.getD i {}).key < want := hsm _ hmem
    have hbsort : blk.Pairwise recLt :=
      List.Pairwise.sublist (List.sublist_flatten_of_mem hblk)
        (wfTargets blocks hb hsrt r hwr).2
    exact lt_of_le_of_lt (key_le_getLast blk hbsort x hxblk _ hlki) hklt

theorem seekIndexedLevels_spec (want : Key) (blocks : List (List Rec))
    (hb : ∀ b ∈ blocks, b ≠ []) (hsrt : blocks.flatten.Pairwise recLt)
    (rest : List (List (List Rec))) :
    WfIndex blocks rest →
    ∀ e : Rec, e.val < (topTargets blocks rest).length →
      (∀ i, i < e.val → i < (topTargets blocks rest).length →
        ∃ k, lastKey? ((topTargets blocks rest).getD i []) = some k ∧ k < want) →
      (∃ k, lastKey? ((topTargets blocks rest).getD e.val []) = some k ∧ want ≤ k) →
      ∃ cur crest, seekIndexedLevels want blocks e rest = .ok (.iter cur crest) ∧
        cur ++ crest.flatten =
          blocks.flatten.dropWhile (fun r => decide (r.key < want)) := by
  induction rest with
  | nil =>
    intro _ e hj hbefore hlast
    have hj2 : e.val < blocks.length := hj
    have hbefore2 : ∀ i, i < e.val → i < blocks.length →
        ∃ k, lastKey? (blocks.getD i []) = some k ∧ k < want := hbefore
    have hlast2 : ∃ k, lastKey? (blocks.getD e.val []) = some k ∧ want ≤ k := hlast
    have hsome : blocks[e.val]? = some (blocks.getD e.val []) := by
      rw [List.getD_eq_getElem _ _ hj2, List.getElem?_eq_getElem hj2]
    obtain ⟨hne, hstream⟩ := levelStep want blocks e.val hsrt hj2
      (flatten_take_small blocks want e.val hsrt hbefore2) hlast2
    refine ⟨blockIterSeek want (blocks.getD e.val []),
      blocks.drop (e.val + 1), ?_, hstream⟩
    unfold seekIndexedLevels
    rw [hsome]
  | cons lvl r ih =>
    intro hwf e hj hbefore hlast
    obtain ⟨hL, hwr⟩ := (wfIndex_cons blocks lvl r).mp hwf
    have hj2 : e.val < lvl.length := hj
    have hbefore2 : ∀ i, i < e.val → i < lvl.length →
        ∃ k, lastKey? (lvl.getD i []) = some k ∧ k < want := hbefore
    have hlast2 : ∃ k, lastKey? (lvl.getD e.val []) = some k ∧ want ≤ k := hlast
    have hsome : lvl[e.val]? = some (lvl.getD e.val []) := by
      rw [List.getD_eq_getElem _ _ hj2, List.getElem?_eq_getElem hj2]
    obtain ⟨hne, hstream⟩ := levelStep want lvl e.val hL.2.2.1 hj2
      (flatten_take_small lvl want e.val hL.2.2.1 hbefore2) hlast2
    have hnext : tableIterNextRec (blockIterSeek want (lvl.getD e.val []))
        (lvl.drop (e.val + 1)) =
        (lvl.flatten.dropWhile (fun r => decide (r.key < want))).head? := by
      rw [tableIterNextRec_eq_head?, hstream]
    have hnn : lvl.flatten.dropWhile (fun r => decide (r.key < want)) ≠ [] := by
      rw [← hstream]
      intro hcon
      exact hne (List.append_eq_nil.mp hcon).1
    obtain ⟨e2, he2⟩ : ∃ e2,
        (lvl.flatten.dropWhile (fun r => decide (r.key < want))).head? = some e2 := by
      cases hh : (lvl.flatten.dropWhile (fun r => decide (r.key < want))).head? with
      | none => exact absurd (List.head?_eq_none_iff.mp hh) hnn
      | some y => exact ⟨y, rfl⟩
    obtain ⟨hj2, hbef2, hlast2⟩ := wfLevel_entry lvl (topTargets blocks r) hL want e2 he2
    obtain ⟨cur, crest, hrun, hstr⟩ := ih hwr e2 hj2 hbef2 hlast2
    refine ⟨cur, crest, ?_, hstr⟩
    unfold seekIndexedLevels
    simp only [hsome, hnext, he2]
    exact hrun

theorem readerSeekLinear_stream (blocks : List (List Rec)) (want : Key)
    (hwf : WfBlocks blocks) (hnil : blocks ≠ []) :
    ∃ cur rest, readerSeekLinear want blocks = .ok (cur, rest) ∧
      cur ++ rest.flatten =
        blocks.flatten.dropWhile (fun r => decide (r.key < want)) := by
  obtain ⟨B, rest0, rfl⟩ : ∃ B rest0, blocks = B :: rest0 := by
    cases blocks with
    | nil => exact absurd rfl hnil
    | cons x xs => exact ⟨x, xs, rfl⟩
  have hs : (B ++ rest0.flatten).Pairwise recLt := by simpa using hwf.2
  obtain ⟨cur', rest', skipped, hloop, hflat, hskip, -, hhead⟩ :=
    seekLinearLoop_spec want rest0 B (fun b hb => hwf.1 b (by simp [hb])) hs
  refine ⟨blockIterSeek want cur', rest', ?_, ?_⟩
  · simp [readerSeekLinear, hloop]
  · have hfl : (B :: rest0).flatten = skipped ++ (cur' ++ rest'.flatten) := by
      simpa using hflat
    rw [hfl, List.dropWhile_append]
    have h1 : skipped.dropWhile (fun r => decide (r.key < want)) = [] :=
      List.dropWhile_eq_nil_iff.mpr (fun x hx => by simpa using hskip x hx)
    rw [h1]
    simp only [List.isEmpty_nil, if_true]
    rw [List.dropWhile_append]
    cases hx : cur'.dropWhile (fun r => decide (r.key < want)) with
    | nil =>
      rw [if_pos (show ([] : List Rec).isEmpty = true from rfl)]
      unfold blockIterSeek
      rw [hx, List.nil_append]
      cases hf : rest'.flatten with
      | nil => simp
      | cons r tl =>
        have hr : want < r.key := hhead r (by rw [hf]; rfl)
        rw [List.dropWhile_cons,
          if_neg (by simp only [decide_eq_true_eq]; exact not_lt.mpr (le_of_lt hr))]
    | cons y tl =>
      rw [if_neg (show ¬ ((y :: tl).isEmpty = true) from by simp)]
      unfold blockIterSeek
      rw [hx]

theorem readerSeek_stream (s : RSection) (want : Key) (hp : s.present = true)
    (hwf : WfBlocks s.blocks) (hnil : s.blocks ≠ [])
    (hidx : WfIndex s.blocks s.levels) :
    ∃ res, readerSeek s want = .ok res ∧
      seekResultStream res =
        s.blocks.flatten.dropWhile (fun r => decide (r.key < want)) := by
  suffices h : ∃ res, readerSeekInternal s want = .ok res ∧
      seekResultStream res =
        s.blocks.flatten.dropWhile (fun r => decide (r.key < want)) by
    obtain ⟨res, h1, h2⟩ := h
    exact ⟨res, by simp [readerSeek, hp, h1], h2⟩
  cases hlv : s.levels with
  | nil =>
    obtain ⟨cur, rest, hlin, hstr⟩ := readerSeekLinear_stream s.blocks want hwf hnil
    refine ⟨.iter cur rest, ?_, hstr⟩
    unfold readerSeekInternal
    simp only [hlv, hlin]
  | cons root rest =>
    rw [hlv] at hidx
    obtain ⟨hroot, hwr⟩ := (wfIndex_cons s.blocks root rest).mp hidx
    obtain ⟨cur, crest, hlin, hstr0⟩ :=
      readerSeekLinear_stream root want ⟨hroot.2.1, hroot.2.2.1⟩ hroot.1
    have hnext : tableIterNextRec cur crest =
        (root.flatten.dropWhile (fun r => decide (r.key < want))).head? := by
      rw [tableIterNextRec_eq_head?, hstr0]
    cases he : (root.flatten.dropWhile (fun r => decide (r.key < want))).head? with
    | none =>
      have hdw : root.flatten.dropWhile (fun r => decide (r.key < want)) = [] :=
        List.head?_eq_none_iff.mp he
      have hall : ∀ x ∈ root.flatten, x.key < want := by
        intro x hx
        simpa using List.dropWhile_eq_nil_iff.mp hdw x hx
      have hsmall : ∀ x ∈ s.blocks.flatten, x.key < want :=
        wfIndex_all_small want s.blocks hwf.1 hwf.2 (root :: rest) hidx hall
      refine ⟨.eof, ?_, ?_⟩
      · unfold readerSeekInternal
        simp only [hlv, hlin, hnext, he]
      · symm
        exact List.dropWhile_eq_nil_iff.mpr (fun x hx => by simpa using hsmall x hx)
    | some e =>
      obtain ⟨hj, hbef, hlast⟩ :=
        wfLevel_entry root (topTargets s.blocks rest) hroot want e he
      obtain ⟨cur2, crest2, hrun, hstr⟩ :=
        seekIndexedLevels_spec want s.blocks hwf.1 hwf.2 rest hwr e hj hbef hlast
      refine ⟨.iter cur2 crest2, ?_, hstr⟩
      unfold readerSeekInternal
      simp only [hlv, hlin, hnext, he]
      exact hrun

/-- C1: for every well-formed single table — with or without an index, so
through either branch of `reader_seek_internal` — and every key `k`,
seeking the section via `reader_seek` succeeds, and `next` yields the
record with the smallest key `k' ≥ k` present in the section, or reports
end of iteration when no such key exists (an overshooting indexed seek
reports it already at the seek, with the positive code 1 that `next` on an
exhausted iterator uses, `SeekResult.eof`). -/
theorem seek_then_next_yields_successor (s : RSection) (want : Key)
    (hp : s.present = true) (hwf : WfBlocks s.blocks) (hnil : s.blocks ≠ [])
    (hidx : WfIndex s.blocks s.levels) :
    ∃ res, readerSeek s want = .ok res ∧
      (match seekResultNextRec res with
       | some r₀ => r₀ ∈ s.blocks.flatten ∧ want ≤ r₀.key ∧
           ∀ r ∈ s.blocks.flatten, want ≤ r.key → r₀.key ≤ r.key
       | none => ∀ r ∈ s.blocks.flatten, r.key < want) := by
  obtain ⟨res, hsk, hstr⟩ := readerSeek_stream s want hp hwf hnil hidx
  refine ⟨res, hsk, ?_⟩
  have hnr : seekResultNextRec res =
      s.blocks.flatten.find? (fun r => decide (want ≤ r.key)) := by
    rw [seekResultNextRec_eq_head, hstr, ← find?_ge_eq_head_dropWhile]
  rw [hnr]
  exact find?_min_of_pairwise _ want hwf.2

/-- Witness for C1 at the concrete indexed two-block table `c1Sec` and key
`[2]`. -/
theorem seek_then_next_yields_successor_witness :
    (c1Sec.present = true ∧ WfBlocks c1Sec.blocks ∧ c1Sec.blocks ≠ [] ∧
      WfIndex c1Sec.blocks c1Sec.levels) ∧
    (∃ res, readerSeek c1Sec [2] = .ok res ∧
      (match seekResultNextRec res with
       | some r₀ => r₀ ∈ c1Sec.blocks.flatten ∧ [2] ≤ r₀.key ∧
           ∀ r ∈ c1Sec.blocks.flatten, [2] ≤ r.key → r₀.key ≤ r.key
       | none => ∀ r ∈ c1Sec.blocks.flatten, r.key < [2])) :=
  ⟨⟨rfl, by decide, by decide, by decide⟩,
    seek_then_next_yields_successor c1Sec [2] rfl (by decide) (by decide) (by decide)⟩

theorem pickTop_eq_none_iff (i : Nat) (streams : List (List Rec)) :
    pickTop i streams = none ↔ ∀ s ∈ streams, s = [] := by
  induction streams generalizing i with
  | nil => simp [pickTop]
  | cons s rest ih =>
    constructor
    · intro h x hx
      cases hp : pickTop (i+1) rest with
      | some m =>
        exfalso
        cases hh : s.head? with
        | none => simp [pickTop, hp, hh] at h
        | some r =>
          simp only [pickTop, hp, hh] at h
          split at h <;> simp at h
      | none =>
        cases hh : s.head? with
        | some r => simp [pickTop, hp, hh] at h
        | none =>
          rcases List.mem_cons.mp hx with rfl | hx
          · exact List.head?_eq_none_iff.mp hh
          · exact (ih (i+1)).mp hp x hx
    · intro h
      have hs : s = [] := h s (by simp)
      have hr : pickTop (i+1) rest = none :=
        (ih (i+1)).mpr (fun x hx => h x (by simp [hx]))
      simp [pickTop, hr, hs]

theorem pickTop_mem (i : Nat) (streams : List (List Rec)) (r : Rec) (j : Nat)
    (h : pickTop i streams = some (r, j)) :
    ∃ k t, j = i + k ∧ streams[k]? = some (r :: t) := by
  induction streams generalizing i with
  | nil => simp [pickTop] at h
  | cons s rest ih =>
    cases hp : pickTop (i+1) rest with
    | none =>
      cases hh : s.head? with
      | none => simp [pickTop, hp, hh] at h
      | some r0 =>
        obtain ⟨t, rfl⟩ := List.head?_eq_some_iff.mp hh
        have h' : r0 = r ∧ i = j := by simpa [pickTop, hp, hh] using h
        obtain ⟨rfl, rfl⟩ := h'
        exact ⟨0, t, by omega, by simp⟩
    | some m =>
      cases hh : s.head? with
      | none =>
        have hm : some m = some (r, j) := by simpa [pickTop, hp, hh] using h
        obtain ⟨k, t, hk, hget⟩ := ih (i+1) (hp.trans hm)
        exact ⟨k + 1, t, by omega, by simpa using hget⟩
      | some r0 =>
        obtain ⟨t0, rfl⟩ := List.head?_eq_some_iff.mp hh
        by_cases hc : pqLess m (r0, i) = true
        · have hm : some m = some (r, j) := by simpa [pickTop, hp, hh, hc] using h
          obtain ⟨k, t, hk, hget⟩ := ih (i+1) (hp.trans hm)
          exact ⟨k + 1, t, by omega, by simpa using hget⟩
        · have h' : r0 = r ∧ i = j := by simpa [pickTop, hp, hh, hc] using h
          obtain ⟨rfl, rfl⟩ := h'
          exact ⟨0, t0, by omega, by simp⟩

theorem pickTop_min_key (streams : List (List Rec)) :
    ∀ (i : Nat) (r : Rec) (j : Nat), pickTop i streams = some (r, j) →
    ∀ (k : Nat) (r' : Rec) (t' : List Rec),
      streams[k]? = some (r' :: t') → r.key ≤ r'.key := by
  induction streams with
  | nil => intro i r j h; simp [pickTop] at h
  | cons s rest ih =>
    intro i r j h k r' t' hget
    cases hp : pickTop (i+1) rest with
    | none =>
      have hrest : ∀ x ∈ rest, x = [] := (pickTop_eq_none_iff _ _).mp hp
      cases hh : s.head? with
      | none => simp [pickTop, hp, hh] at h
      | some r0 =>
        have h' : r0 = r ∧ i = j := by simpa [pickTop, hp, hh] using h
        obtain ⟨rfl, rfl⟩ := h'
        cases k with
        | zero =>
          obtain ⟨t, rfl⟩ := List.head?_eq_some_iff.mp hh
          have hcons : r0 :: t = r' :: t' := by simpa using hget
          injection hcons with h1 _
          exact le_of_eq (by rw [h1])
        | succ k =>
          have hmem : (r' :: t') ∈ rest := List.getElem?_mem (by simpa using hget)
          exact absurd (hrest _ hmem) (by simp)
    | some m =>
      cases hh : s.head? with
      | none =>
        have hm : some m = some (r, j) := by simpa [pickTop, hp, hh] using h
        cases k with
        | zero =>
          have hs : s = r' :: t' := by simpa using hget
          rw [hs] at hh
          simp at hh
        | succ k => exact ih (i+1) r j (hp.trans hm) k r' t' (by simpa using hget)
      | some r0 =>
        by_cases hc : pqLess m (r0, i) = true
        · have hm : some m = some (r, j) := by simpa [pickTop, hp, hh, hc] using h
          have hmin := ih (i+1) r j (hp.trans hm)
          have hmkey : m.1 = r := by
            have : m = (r, j) := by simpa using hm
            rw [this]
          have hmr0 : r.key ≤ r0.key := by
            by_cases he : r.key = r0.key
            · exact le_of_eq he
            · unfold pqLess at hc
              rw [hmkey] at hc
              simp [he] at hc
              exact le_of_lt hc
          cases k with
          | zero =>
            obtain ⟨t0, rfl⟩ := List.head?_eq_some_iff.mp hh
            have hcons : r0 :: t0 = r' :: t' := by simpa using hget
            injection hcons with h1 _
            exact h1 ▸ hmr0
          | succ k => exact hmin k r' t' (by simpa using hget)
        · have h' : r0 = r ∧ i = j := by simpa [pickTop, hp, hh, hc] using h
          obtain ⟨rfl, rfl⟩ := h'
          have hmin := ih (i+1) m.1 m.2 (by simpa using hp)
          have hr0m : r0.key ≤ m.1.key := by
            unfold pqLess at hc
            by_cases he : m.1.key = r0.key
            · exact le_of_eq he.symm
            · simp [he] at hc
              exact hc
          cases k with
          | zero =>
            obtain ⟨t0, rfl⟩ := List.head?_eq_some_iff.mp hh
            have hcons : r0 :: t0 = r' :: t' := by simpa using hget
            injection hcons with h1 _
            exact le_of_eq (by rw [h1])
          | succ k =>
            exact le_trans hr0m (hmin k r' t' (by simpa using hget))

theorem pickTop_max_tie (streams : List (List Rec)) :
    ∀ (i : Nat) (r : Rec) (j : Nat), pickTop i streams = some (r, j) →
    ∀ (k : Nat) (r' : Rec) (t' : List Rec),
      streams[k]? = some (r' :: t') → r'.key = r.key → i + k ≤ j := by
  induction streams with
  | nil => intro i r j h; simp [pickTop] at h
  | cons s rest ih =>
    intro i r j h k r' t' hget hkey
    cases hp : pickTop (i+1) rest with
    | none =>
      have hrest : ∀ x ∈ rest, x = [] := (pickTop_eq_none_iff _ _).mp hp
      cases hh : s.head? with
      | none => simp [pickTop, hp, hh] at h
      | some r0 =>
        have h' : r0 = r ∧ i = j := by simpa [pickTop, hp, hh] using h
        obtain ⟨rfl, rfl⟩ := h'
        cases k with
        | zero => omega
        | succ k =>
          have hmem : (r' :: t') ∈ rest := List.getElem?_mem (by simpa using hget)
          exact absurd (hrest _ hmem) (by simp)
    | some m =>
      cases hh : s.head? with
      | none =>
        have hm : some m = some (r, j) := by simpa [pickTop, hp, hh] using h
        cases k with
        | zero =>
          have hs : s = r' :: t' := by simpa using hget
          rw [hs] at hh
          simp at hh
        | succ k =>
          have := ih (i+1) r j (hp.trans hm) k r' t' (by simpa using hget) hkey
          omega
      | some r0 =>
        by_cases hc : pqLess m (r0, i) = true
        · have hm : some m = some (r, j) := by simpa [pickTop, hp, hh, hc] using h
          have hmj : m = (r, j) := by simpa using hm
          cases k with
          | zero =>
            obtain ⟨t0, rfl⟩ := List.head?_eq_some_iff.mp hh
            have hcons : r0 :: t0 = r' :: t' := by simpa using hget
            injection hcons with h1 _
            subst h1
            have hij : i < j := by
              unfold pqLess at hc
              rw [hmj] at hc
              rw [← hkey] at hc
              simp at hc
              exact hc
            omega
          | succ k =>
            have := ih (i+1) r j (hp.trans hm) k r' t' (by simpa using hget) hkey
            omega
        · have h' : r0 = r ∧ i = j := by simpa [pickTop, hp, hh, hc] using h
          obtain ⟨rfl, rfl⟩ := h'
          cases k with
          | zero => omega
          | succ k =>
            obtain ⟨km, tm, hkm, hgetm⟩ := pickTop_mem _ _ _ _ hp
            have hmm := pickTop_min_key rest (i+1) m.1 m.2 (by simpa using hp)
            have hr0m : (¬ (m.1.key = r0.key ∧ i < m.2)) ∧
                (m.1.key = r0.key ∨ r0.key ≤ m.1.key) := by
              unfold pqLess at hc
              by_cases he : m.1.key = r0.key
              · simp [he] at hc
                exact ⟨fun hx => absurd hx.2 (not_lt.mpr hc), Or.inl he⟩
              · simp [he] at hc
                exact ⟨fun hx => he hx.1, Or.inr hc⟩
            have hmgt : i < m.2 := by omega
            rcases hr0m.2 with he | hle
            · exact absurd ⟨he, hmgt⟩ hr0m.1
            · have hlt : r0.key < m.1.key :=
                lt_of_le_of_ne hle (fun hx => hr0m.1 ⟨hx.symm, hmgt⟩)
              have hky : m.1.key ≤ r'.key := hmm k r' t' (by simpa using hget)
              rw [hkey] at hky
              exact absurd (lt_of_lt_of_le hlt hky) (lt_irrefl _)

theorem map_eq_self_of_eq {α : Type} (l : List α) (f : α → α)
    (h : ∀ x ∈ l, f x = x) : l.map f = l := by
  induction l with
  | nil => rfl
  | cons x xs ih =>
    simp only [List.map_cons, h x (by simp)]
    rw [ih (fun y hy => h y (by simp [hy]))]

theorem set_eq_self_of_getElem? {α : Type} (l : List α) (n : Nat) (a : α)
    (h : l[n]? = some a) : l.set n a = l := by
  apply List.ext_getElem?
  intro m
  rw [List.getElem?_set]
  by_cases hnm : n = m
  · subst hnm
    have hlt : n < l.length := by
      by_contra hg
      rw [List.getElem?_eq_none (le_of_not_lt hg)] at h
      simp at h
    simp [hlt, h]
  · simp [hnm]

theorem totalSize_cons (s : List Rec) (rest : List (List Rec)) :
    totalSize (s :: rest) = s.length + totalSize rest := by
  simp [totalSize]

theorem totalSize_set_le (l : List (List Rec)) (j : Nat) (s s' : List Rec)
    (h : l[j]? = some s) (hlen : s'.length ≤ s.length) :
    totalSize (l.set j s') ≤ totalSize l := by
  induction l generalizing j with
  | nil => simp at h
  | cons x xs ih =>
    cases j with
    | zero =>
      have hx : x = s := by simpa using h
      subst hx
      simpa [totalSize_cons] using Nat.add_le_add_right hlen (totalSize xs)
    | succ j =>
      have := ih j (by simpa using h)
      simpa [totalSize_cons] using Nat.add_le_add_left this x.length

theorem totalSize_set_lt (l : List (List Rec)) (j : Nat) (s s' : List Rec)
    (h : l[j]? = some s) (hlen : s'.length < s.length) :
    totalSize (l.set j s') < totalSize l := by
  induction l generalizing j with
  | nil => simp at h
  | cons x xs ih =>
    cases j with
    | zero =>
      have hx : x = s := by simpa using h
      subst hx
      simpa [totalSize_cons] using Nat.add_lt_add_right hlen (totalSize xs)
    | succ j =>
      have := ih j (by simpa using h)
      simpa [totalSize_cons] using Nat.add_lt_add_left this x.length

theorem dropShadowedF_size (fuel : Nat) (k : Key) (streams : List (List Rec)) :
    totalSize (dropShadowedF fuel k streams) ≤ totalSize streams := by
  induction fuel generalizing streams with
  | zero => simp [dropShadowedF]
  | succ fuel ih =>
    unfold dropShadowedF
    cases hp : pickTop 0 streams with
    | none => exact le_refl _
    | some e =>
      obtain ⟨r, j⟩ := e
      by_cases hc : r.key ≤ k
      · simp only [hc, if_true]
        obtain ⟨k0, t, hk0, hget⟩ := pickTop_mem 0 streams r j hp
        have hj : streams[j]? = some (r :: t) := by
          have : j = k0 := by omega
          rw [this]; exact hget
        have hgd : (streams.getD j []).tail = t := by
          rw [List.getD_eq_getElem?_getD, hj]
          rfl
        calc totalSize (dropShadowedF fuel k (streams.set j ((streams.getD j []).tail)))
            ≤ totalSize (streams.set j ((streams.getD j []).tail)) := ih _
          _ ≤ totalSize streams := by
              rw [hgd]
              exact totalSize_set_le _ _ _ _ hj (by simp)
      · simp [hc]

theorem mergedNextEntry_size (streams : List (List Rec)) (r : Rec)
    (s' : List (List Rec)) (h : mergedNextEntry streams = some (r, s')) :
    totalSize s' < totalSize streams := by
  unfold mergedNextEntry at h
  cases hp : pickTop 0 streams with
  | none => rw [hp] at h; simp at h
  | some e =>
    obtain ⟨r0, j⟩ := e
    rw [hp] at h
    simp only [Option.some.injEq, Prod.mk.injEq] at h
    obtain ⟨hr0, rfl⟩ := h
    subst hr0
    obtain ⟨k0, t, hk0, hget⟩ := pickTop_mem 0 streams r0 j hp
    have hj : streams[j]? = some (r0 :: t) := by
      have : j = k0 := by omega
      rw [this]; exact hget
    have hgd : (streams.getD j []).tail = t := by
      rw [List.getD_eq_getElem?_getD, hj]
      rfl
    calc totalSize (dropShadowed r0.key (streams.set j ((streams.getD j []).tail)))
        ≤ totalSize (streams.set j ((streams.getD j []).tail)) := dropShadowedF_size _ _ _
      _ < totalSize streams := by
          rw [hgd]
          exact totalSize_set_lt _ _ _ _ hj (by simp)

theorem mergedNextF_size (fuel : Nat) (b : Bool) (streams : List (List Rec))
    (r : Rec) (s' : List (List Rec)) (h : mergedNextF fuel b streams = some (r, s')) :
    totalSize s' < totalSize streams := by
  induction fuel generalizing streams with
  | zero => simp [mergedNextF] at h
  | succ fuel ih =>
    unfold mergedNextF at h
    cases he : mergedNextEntry streams with
    | none => rw [he] at h; simp at h
    | some e =>
      obtain ⟨r0, s0⟩ := e
      rw [he] at h
      simp only at h
      by_cases hc : (b && r0.del) = true
      · rw [if_pos hc] at h
        exact lt_trans (ih s0 h) (mergedNextEntry_size _ _ _ he)
      · rw [if_neg hc] at h
        simp only [Option.some.injEq, Prod.mk.injEq] at h
        obtain ⟨rfl, rfl⟩ := h
        exact mergedNextEntry_size _ _ _ he

theorem mergedNextF_congr (f1 : Nat) : ∀ (f2 : Nat) (b : Bool) (streams : List (List Rec)),
    totalSize streams < f1 → totalSize streams < f2 →
    mergedNextF f1 b streams = mergedNextF f2 b streams := by
  induction f1 with
  | zero => intro f2 b s h1; omega
  | succ f1 ih =>
    intro f2 b s h1 h2
    cases f2 with
    | zero => omega
    | succ f2 =>
      unfold mergedNextF
      cases he : mergedNextEntry s with
      | none => rfl
      | some e =>
        obtain ⟨r0, s0⟩ := e
        simp only
        by_cases hc : (b && r0.del) = true
        · rw [if_pos hc, if_pos hc]
          have hs := mergedNextEntry_size _ _ _ he
          exact ih f2 b s0 (by omega) (by omega)
        · rw [if_neg hc, if_neg hc]

theorem mergedNextF_eq_mergedNext (fuel : Nat) (b : Bool) (streams : List (List Rec))
    (h : totalSize streams < fuel) :
    mergedNextF fuel b streams = mergedNext b streams :=
  mergedNextF_congr fuel _ b streams h (by omega)

theorem mergedNext_size (b : Bool) (streams : List (List Rec)) (r : Rec)
    (s' : List (List Rec)) (h : mergedNext b streams = some (r, s')) :
    totalSize s' < totalSize streams :=
  mergedNextF_size _ b streams r s' h

theorem mergedRunF_congr (f1 : Nat) : ∀ (f2 : Nat) (b : Bool) (streams : List (List Rec)),
    totalSize streams < f1 → totalSize streams < f2 →
    mergedRunF f1 b streams = mergedRunF f2 b streams := by
  induction f1 with
  | zero => intro f2 b s h1; omega
  | succ f1 ih =>
    intro f2 b s h1 h2
    cases f2 with
    | zero => omega
    | succ f2 =>
      unfold mergedRunF
      cases hn : mergedNext b s with
      | none => rfl
      | some e =>
        obtain ⟨r0, s0⟩ := e
        simp only
        have hs := mergedNext_size _ _ _ _ hn
        rw [ih f2 b s0 (by omega) (by omega)]

theorem mergedRunF_eq_mergedRun (fuel : Nat) (b : Bool) (streams : List (List Rec))
    (h : totalSize streams < fuel) :
    mergedRunF fuel b streams = mergedRun b streams :=
  mergedRunF_congr fuel _ b streams h (by omega)

theorem mem_set_cases {α : Type} (l : List α) (n : Nat) (a x : α)
    (h : x ∈ l.set n a) : x = a ∨ x ∈ l := by
  obtain ⟨m, hm⟩ := List.mem_iff_getElem?.mp h
  rw [List.getElem?_set] at hm
  by_cases hnm : n = m
  · rw [if_pos hnm] at hm
    by_cases hl : n < l.length
    · rw [if_pos hl] at hm
      exact Or.inl (by injection hm with h'; exact h'.symm)
    · rw [if_neg hl] at hm
      simp at hm
  · rw [if_neg hnm] at hm
    exact Or.inr (List.getElem?_mem hm)

theorem totalSize_eq_zero (streams : List (List Rec)) (h : totalSize streams = 0) :
    ∀ s ∈ streams, s = [] := by
  intro s hs
  induction streams with
  | nil => simp at hs
  | cons x xs ih =>
    rw [totalSize_cons] at h
    rcases List.mem_cons.mp hs with rfl | hs'
    · exact List.length_eq_zero.mp (by omega)
    · exact ih (by omega) hs'

theorem pickTop_min_key_mem (streams : List (List Rec)) (r : Rec) (j : Nat)
    (h : pickTop 0 streams = some (r, j)) :
    ∀ s ∈ streams, ∀ r' : Rec, s.head? = some r' → r.key ≤ r'.key := by
  intro s hs r' hh
  obtain ⟨t, rfl⟩ := List.head?_eq_some_iff.mp hh
  obtain ⟨n, hn⟩ := List.mem_iff_getElem?.mp hs
  exact pickTop_min_key streams 0 r j h n r' t hn

theorem dropHeads_set_tail (streams : List (List Rec)) (j : Nat) (r : Rec)
    (t : List Rec) (k : Key) (hj : streams[j]? = some (r :: t))
    (hrk : r.key ≤ k) (ht : dropHeadLE k t = t) :
    dropHeads k (streams.set j t) = dropHeads k streams := by
  unfold dropHeads
  rw [List.map_set, ht]
  apply set_eq_self_of_getElem?
  rw [List.getElem?_map, hj]
  simp [dropHeadLE, hrk]

theorem dropHeadLE_eq_self_of_gt (k : Key) (s : List Rec)
    (h : ∀ r : Rec, s.head? = some r → k < r.key) : dropHeadLE k s = s := by
  cases s with
  | nil => rfl
  | cons r t =>
    have := h r (by simp)
    simp [dropHeadLE, not_le.mpr this]

theorem dropShadowedF_closed (fuel : Nat) : ∀ (k : Key) (streams : List (List Rec)),
    totalSize streams ≤ fuel → HeadsGE k streams → SortedStreams streams →
    dropShadowedF fuel k streams = dropHeads k streams := by
  induction fuel with
  | zero =>
    intro k streams hfuel _ _
    have hz : ∀ s ∈ streams, s = [] := totalSize_eq_zero streams (by omega)
    unfold dropShadowedF dropHeads
    exact (map_eq_self_of_eq _ _ (fun s hs => by rw [hz s hs]; rfl)).symm
  | succ fuel ih =>
    intro k streams hfuel hge hs
    unfold dropShadowedF
    cases hp : pickTop 0 streams with
    | none =>
      have hz : ∀ s ∈ streams, s = [] := (pickTop_eq_none_iff _ _).mp hp
      exact (map_eq_self_of_eq _ _ (fun s hs => by rw [hz s hs]; rfl)).symm
    | some e =>
      obtain ⟨r, j⟩ := e
      obtain ⟨k0, t, hk0, hget⟩ := pickTop_mem 0 streams r j hp
      have hj : streams[j]? = some (r :: t) := by
        have : j = k0 := by omega
        rw [this]; exact hget
      have hmem : (r :: t) ∈ streams := List.getElem?_mem hj
      have hsorted : (r :: t).Pairwise recLt := hs _ hmem
      by_cases hc : r.key ≤ k
      · simp only [hc, if_true]
        have hgd : (streams.getD j []).tail = t := by
          rw [List.getD_eq_getElem?_getD, hj]
          rfl
        rw [hgd]
        have htail : ∀ r' : Rec, t.head? = some r' → k < r'.key := by
          intro r' hh
          obtain ⟨t', rfl⟩ := List.head?_eq_some_iff.mp hh
          have hlt : recLt r r' := List.rel_of_pairwise_cons hsorted (by simp)
          have hkr : k ≤ r.key := hge _ hmem r (by simp)
          exact lt_of_le_of_lt hkr hlt
        have hge' : HeadsGE k (streams.set j t) := by
          intro s hsm r' hh
          rcases mem_set_cases _ _ _ _ hsm with rfl | hsm'
          · exact le_of_lt (htail r' hh)
          · exact hge s hsm' r' hh
        have hs' : SortedStreams (streams.set j t) := by
          intro s hsm
          rcases mem_set_cases _ _ _ _ hsm with rfl | hsm'
          · exact List.Pairwise.of_cons hsorted
          · exact hs s hsm'
        have hsize : totalSize (streams.set j t) ≤ fuel := by
          have := totalSize_set_lt streams j (r :: t) t hj (by simp)
          omega
        rw [ih k (streams.set j t) hsize hge' hs']
        exact dropHeads_set_tail streams j r t k hj hc
          (dropHeadLE_eq_self_of_gt _ _ htail)
      · simp only [hc, if_false]
        have hmin := pickTop_min_key_mem streams r j hp
        refine (map_eq_self_of_eq _ _ (fun s hsm => ?_)).symm
        refine dropHeadLE_eq_self_of_gt _ _ (fun r' hh => ?_)
        exact lt_of_lt_of_le (lt_of_not_le hc) (hmin s hsm r' hh)

theorem mergedNextEntry_closed (streams : List (List Rec)) (r : Rec)
    (s' : List (List Rec)) (hs : SortedStreams streams)
    (h : mergedNextEntry streams = some (r, s')) :
    s' = dropHeads r.key streams ∧ ∃ j, pickTop 0 streams = some (r, j) := by
  unfold mergedNextEntry at h
  cases hp : pickTop 0 streams with
  | none => rw [hp] at h; simp at h
  | some e =>
    obtain ⟨r0, j⟩ := e
    rw [hp] at h
    simp only [Option.some.injEq, Prod.mk.injEq] at h
    obtain ⟨hr0, hs'⟩ := h
    subst hr0
    refine ⟨?_, j, rfl⟩
    obtain ⟨k0, t, hk0, hget⟩ := pickTop_mem 0 streams r0 j hp
    have hj : streams[j]? = some (r0 :: t) := by
      have : j = k0 := by omega
      rw [this]; exact hget
    have hmem : (r0 :: t) ∈ streams := List.getElem?_mem hj
    have hsorted := hs _ hmem
    have hgd : (streams.getD j []).tail = t := by
      rw [List.getD_eq_getElem?_getD, hj]
      rfl
    have htail : ∀ r' : Rec, t.head? = some r' → r0.key < r'.key := by
      intro r' hh
      obtain ⟨t', rfl⟩ := List.head?_eq_some_iff.mp hh
      exact List.rel_of_pairwise_cons hsorted (by simp)
    have hmin := pickTop_min_key_mem streams r0 j hp
    have hge' : HeadsGE r0.key (streams.set j t) := by
      intro s hsm r' hh
      rcases mem_set_cases _ _ _ _ hsm with rfl | hsm'
      · exact le_of_lt (htail r' hh)
      · exact hmin s hsm' r' hh
    have hs2 : SortedStreams (streams.set j t) := by
      intro s hsm
      rcases mem_set_cases _ _ _ _ hsm with rfl | hsm'
      · exact List.Pairwise.of_cons hsorted
      · exact hs s hsm'
    rw [← hs']
    unfold dropShadowed
    rw [hgd]
    rw [dropShadowedF_closed _ _ _ (le_refl _) hge' hs2]
    exact dropHeads_set_tail streams j r0 t r0.key hj (le_refl _)
      (dropHeadLE_eq_self_of_gt _ _ htail)

theorem dropHeadLE_nil (k : Key) : dropHeadLE k [] = [] := rfl

theorem dropHeadLE_cons (k : Key) (r : Rec) (t : List Rec) :
    dropHeadLE k (r :: t) = if r.key ≤ k then t else r :: t := rfl

theorem sorted_dropHeads (k : Key) (streams : List (List Rec))
    (hs : SortedStreams streams) : SortedStreams (dropHeads k streams) := by
  intro s hsm
  obtain ⟨s0, hs0, rfl⟩ := List.mem_map.mp hsm
  cases s0 with
  | nil => exact List.Pairwise.nil
  | cons r' t =>
    have := hs _ hs0
    unfold dropHeadLE
    by_cases hc : r'.key ≤ k
    · simpa [hc] using List.Pairwise.of_cons this
    · simpa [hc] using this

theorem dropHeads_mem_sub (k : Key) (streams : List (List Rec)) :
    ∀ x : Rec, ∀ s'' ∈ dropHeads k streams, x ∈ s'' → ∃ s ∈ streams, x ∈ s := by
  intro x s'' hsm hx
  obtain ⟨s0, hs0, rfl⟩ := List.mem_map.mp hsm
  refine ⟨s0, hs0, ?_⟩
  cases s0 with
  | nil => simp [dropHeadLE_nil] at hx
  | cons r' t =>
    rw [dropHeadLE_cons] at hx
    by_cases hc : r'.key ≤ k
    · rw [if_pos hc] at hx
      exact List.mem_cons_of_mem _ hx
    · rwa [if_neg hc] at hx

theorem allGt_of_entry (streams : List (List Rec)) (r : Rec) (s' : List (List Rec))
    (hs : SortedStreams streams) (h : mergedNextEntry streams = some (r, s')) :
    AllGtKey r.key s' := by
  obtain ⟨rfl, j, hp⟩ := mergedNextEntry_closed streams r s' hs h
  have hmin := pickTop_min_key_mem streams r j hp
  intro s'' hsm x hx
  obtain ⟨s0, hs0, rfl⟩ := List.mem_map.mp hsm
  cases s0 with
  | nil => simp [dropHeadLE_nil] at hx
  | cons r' t =>
    have hsorted := hs _ hs0
    have hr' : r.key ≤ r'.key := hmin _ hs0 r' (by simp)
    rw [dropHeadLE_cons] at hx
    by_cases hc : r'.key ≤ r.key
    · rw [if_pos hc] at hx
      have heq : r'.key = r.key := le_antisymm hc hr'
      have hlt : recLt r' x := List.rel_of_pairwise_cons hsorted hx
      calc r.key = r'.key := heq.symm
        _ < x.key := hlt
    · rw [if_neg hc] at hx
      have hrr' : r.key < r'.key := lt_of_not_le hc
      rcases List.mem_cons.mp hx with rfl | hx'
      · exact hrr'
      · exact lt_trans hrr' (List.rel_of_pairwise_cons hsorted hx')

theorem emitted_mem_of_entry (streams : List (List Rec)) (r : Rec)
    (s' : List (List Rec)) (h : mergedNextEntry streams = some (r, s')) :
    ∃ s ∈ streams, r ∈ s := by
  unfold mergedNextEntry at h
  cases hp : pickTop 0 streams with
  | none => rw [hp] at h; simp at h
  | some e =>
    obtain ⟨r0, j⟩ := e
    rw [hp] at h
    simp only [Option.some.injEq, Prod.mk.injEq] at h
    obtain ⟨hr0, _⟩ := h
    subst hr0
    obtain ⟨k0, t, hk0, hget⟩ := pickTop_mem 0 streams r0 j hp
    exact ⟨r0 :: t, List.getElem?_mem hget, by simp⟩

theorem mergedNextF_spec (fuel : Nat) : ∀ (b : Bool) (streams : List (List Rec))
    (r : Rec) (s' : List (List Rec)), SortedStreams streams →
    mergedNextF fuel b streams = some (r, s') →
    AllGtKey r.key s' ∧ SortedStreams s' ∧ (∃ s ∈ streams, r ∈ s) ∧
      (∀ x : Rec, ∀ s'' ∈ s', x ∈ s'' → ∃ s ∈ streams, x ∈ s) := by
  induction fuel with
  | zero => intro b streams r s' _ h; simp [mergedNextF] at h
  | succ fuel ih =>
    intro b streams r s' hs h
    unfold mergedNextF at h
    cases he : mergedNextEntry streams with
    | none => rw [he] at h; simp at h
    | some e =>
      obtain ⟨r0, s0⟩ := e
      rw [he] at h
      simp only at h
      have hclosed := mergedNextEntry_closed streams r0 s0 hs he
      have hsorted0 : SortedStreams s0 := by
        rw [hclosed.1]
        exact sorted_dropHeads _ _ hs
      have hsub0 : ∀ x : Rec, ∀ s'' ∈ s0, x ∈ s'' → ∃ s ∈ streams, x ∈ s := by
        rw [hclosed.1]
        exact dropHeads_mem_sub _ _
      by_cases hc : (b && r0.del) = true
      · rw [if_pos hc] at h
        obtain ⟨hgt, hsrt, hmem, hsub⟩ := ih b s0 r s' hsorted0 h
        refine ⟨hgt, hsrt, ?_, ?_⟩
        · obtain ⟨s1, hs1, hr1⟩ := hmem
          exact hsub0 r s1 hs1 hr1
        · intro x s'' hsm hx
          obtain ⟨s1, hs1, hx1⟩ := hsub x s'' hsm hx
          exact hsub0 x s1 hs1 hx1
      · rw [if_neg hc] at h
        simp only [Option.some.injEq, Prod.mk.injEq] at h
        obtain ⟨hr0, hs0'⟩ := h
        subst hr0
        subst hs0'
        exact ⟨allGt_of_entry _ _ _ hs he, hsorted0,
          emitted_mem_of_entry _ _ _ he, hsub0⟩

theorem mergedRunF_mem (fuel : Nat) : ∀ (b : Bool) (streams : List (List Rec)),
    SortedStreams streams →
    ∀ x ∈ mergedRunF fuel b streams, ∃ s ∈ streams, x ∈ s := by
  induction fuel with
  | zero => intro b streams _ x hx; simp [mergedRunF] at hx
  | succ fuel ih =>
    intro b streams hs x hx
    unfold mergedRunF at hx
    cases hn : mergedNext b streams with
    | none => rw [hn] at hx; simp at hx
    | some e =>
      obtain ⟨r0, s0⟩ := e
      rw [hn] at hx
      obtain ⟨_, hsrt, hmem, hsub⟩ :=
        mergedNextF_spec _ b streams r0 s0 hs hn
      rcases List.mem_cons.mp hx with rfl | hx'
      · exact hmem
      · obtain ⟨s1, hs1, hx1⟩ := ih b s0 hsrt x hx'
        exact hsub x s1 hs1 hx1

theorem mergedRunF_pairwise (fuel : Nat) : ∀ (b : Bool) (streams : List (List Rec)),
    SortedStreams streams → (mergedRunF fuel b streams).Pairwise recLt := by
  induction fuel with
  | zero => intro b streams _; simp [mergedRunF]
  | succ fuel ih =>
    intro b streams hs
    unfold mergedRunF
    cases hn : mergedNext b streams with
    | none => exact List.Pairwise.nil
    | some e =>
      obtain ⟨r0, s0⟩ := e
      obtain ⟨hgt, hsrt, _, _⟩ := mergedNextF_spec _ b streams r0 s0 hs hn
      refine List.pairwise_cons.mpr ⟨?_, ih b s0 hsrt⟩
      intro x hx
      obtain ⟨s1, hs1, hx1⟩ := mergedRunF_mem fuel b s0 hsrt x hx
      exact hgt s1 hs1 x hx1

/-- C3: for every merged iterator whose sub-iterators each yield records in
strictly increasing key order, the sequence of records emitted by successive
`next` calls is strictly increasing in key: no two emitted records share a
key, and each emitted key is greater than the previous one. -/
theorem merged_output_strictly_increasing (suppress : Bool)
    (streams : List (List Rec)) (hs : SortedStreams streams) :
    (mergedRun suppress streams).Pairwise recLt :=
  mergedRunF_pairwise _ suppress streams hs

/-- Witness for C3 at a concrete two-stream stack. -/
theorem merged_output_strictly_increasing_witness :
    SortedStreams [[{ key := [1] }, { key := [3] }], [{ key := [1], del := true }]] ∧
    (mergedRun true
      [[{ key := [1] }, { key := [3] }], [{ key := [1], del := true }]]).Pairwise recLt :=
  ⟨by decide, merged_output_strictly_increasing true _ (by decide)⟩

theorem winnerStep_none (k : Key) (acc : Option Rec) (s : List Rec)
    (h : s.find? (fun r => decide (r.key = k)) = none) : winnerStep k acc s = acc := by
  unfold winnerStep
  rw [h]

theorem winnerStep_some (k : Key) (acc : Option Rec) (s : List Rec) (r : Rec)
    (h : s.find? (fun r => decide (r.key = k)) = some r) : winnerStep k acc s = some r := by
  unfold winnerStep
  rw [h]

theorem winner_fold_none (k : Key) (streams : List (List Rec)) (acc : Option Rec)
    (h : ∀ s ∈ streams, s.find? (fun r => decide (r.key = k)) = none) :
    streams.foldl (winnerStep k) acc = acc := by
  induction streams generalizing acc with
  | nil => rfl
  | cons s rest ih =>
    rw [List.foldl_cons, winnerStep_none k acc s (h s (by simp))]
    exact ih acc (fun s' hs' => h s' (by simp [hs']))

theorem head_key_min (s : List Rec) (hs : s.Pairwise recLt) (x : Rec) (hx : x ∈ s)
    (r0 : Rec) (hh : s.head? = some r0) : r0.key ≤ x.key := by
  obtain ⟨t, rfl⟩ := List.head?_eq_some_iff.mp hh
  rcases List.mem_cons.mp hx with rfl | hx'
  · exact le_refl _
  · exact le_of_lt (List.rel_of_pairwise_cons hs hx')

theorem winner_fold_of_pickTop (streams : List (List Rec)) :
    ∀ (i : Nat) (r : Rec) (j : Nat), SortedStreams streams →
    pickTop i streams = some (r, j) →
    ∀ acc, streams.foldl (winnerStep r.key) acc = some r := by
  induction streams with
  | nil => intro i r j _ h; simp [pickTop] at h
  | cons s rest ih =>
    intro i r j hs h acc
    have hsrest : SortedStreams rest := fun s' hs' => hs s' (by simp [hs'])
    cases hp : pickTop (i+1) rest with
    | none =>
      have hrest : ∀ x ∈ rest, x = [] := (pickTop_eq_none_iff _ _).mp hp
      cases hh : s.head? with
      | none => simp [pickTop, hp, hh] at h
      | some r0 =>
        have h' : r0 = r ∧ i = j := by simpa [pickTop, hp, hh] using h
        obtain ⟨rfl, rfl⟩ := h'
        obtain ⟨t, rfl⟩ := List.head?_eq_some_iff.mp hh
        rw [List.foldl_cons]
        have hstep : winnerStep r0.key acc (r0 :: t) = some r0 :=
          winnerStep_some _ _ _ _ (List.find?_cons_of_pos _ (by simp))
        rw [hstep]
        exact winner_fold_none _ _ _ (fun s' hs' => by rw [hrest s' hs']; rfl)
    | some m =>
      cases hh : s.head? with
      | none =>
        have hm : some m = some (r, j) := by simpa [pickTop, hp, hh] using h
        have hse : s = [] := List.head?_eq_none_iff.mp hh
        subst hse
        rw [List.foldl_cons]
        have hstep : winnerStep r.key acc [] = acc := winnerStep_none _ _ _ rfl
        rw [hstep]
        exact ih (i+1) r j hsrest (hp.trans hm) acc
      | some r0 =>
        obtain ⟨t, rfl⟩ := List.head?_eq_some_iff.mp hh
        by_cases hc : pqLess m (r0, i) = true
        · have hm : some m = some (r, j) := by simpa [pickTop, hp, hh, hc] using h
          rw [List.foldl_cons]
          exact ih (i+1) r j hsrest (hp.trans hm) _
        · have h' : r0 = r ∧ i = j := by simpa [pickTop, hp, hh, hc] using h
          obtain ⟨rfl, rfl⟩ := h'
          rw [List.foldl_cons]
          have hstep : winnerStep r0.key acc (r0 :: t) = some r0 :=
            winnerStep_some _ _ _ _ (List.find?_cons_of_pos _ (by simp))
          rw [hstep]
          have hmlt : r0.key < m.1.key := by
            obtain ⟨km, tm, hkm, hgetm⟩ := pickTop_mem _ _ _ _ hp
            have hr0m : (¬ (m.1.key = r0.key ∧ i < m.2)) ∧
                (m.1.key = r0.key ∨ r0.key ≤ m.1.key) := by
              unfold pqLess at hc
              by_cases he : m.1.key = r0.key
              · simp [he] at hc
                exact ⟨fun hx => absurd hx.2 (not_lt.mpr hc), Or.inl he⟩
              · simp [he] at hc
                exact ⟨fun hx => he hx.1, Or.inr hc⟩
            have hmgt : i < m.2 := by omega
            rcases hr0m.2 with he | hle
            · exact absurd ⟨he, hmgt⟩ hr0m.1
            · exact lt_of_le_of_ne hle (fun hx => hr0m.1 ⟨hx.symm, hmgt⟩)
          refine winner_fold_none _ _ _ (fun s' hs' => ?_)
          cases hfind : s'.find? (fun x => decide (x.key = r0.key)) with
          | none => rfl
          | some x =>
            exfalso
            have hxk : x.key = r0.key := by simpa using List.find?_some hfind
            have hxm : x ∈ s' := List.mem_of_find?_eq_some hfind
            obtain ⟨n, hn⟩ := List.mem_iff_getElem?.mp hs'
            cases hs'' : s' with
            | nil => rw [hs''] at hxm; simp at hxm
            | cons y t' =>
              subst hs''
              have hy : m.1.key ≤ y.key :=
                pickTop_min_key rest (i+1) m.1 m.2 (by simpa using hp) n y t' hn
              have hyx : y.key ≤ x.key :=
                head_key_min _ (hsrest _ hs') x hxm y (by simp)
              rw [hxk] at hyx
              have : m.1.key ≤ r0.key := le_trans hy hyx
              exact absurd (lt_of_lt_of_le hmlt this) (lt_irrefl _)

theorem winner_fold_dropHeads (k k0 : Key) (hne : k ≠ k0) :
    ∀ (streams : List (List Rec)) (acc : Option Rec), HeadsGE k0 streams →
    (dropHeads k0 streams).foldl (winnerStep k) acc = streams.foldl (winnerStep k) acc := by
  intro streams
  induction streams with
  | nil => intro acc _; rfl
  | cons s rest ih =>
    intro acc hge
    have hgerest : HeadsGE k0 rest := fun s' hs' => hge s' (by simp [hs'])
    have hstep : winnerStep k acc (dropHeadLE k0 s) = winnerStep k acc s := by
      cases s with
      | nil => rfl
      | cons r' t =>
        rw [dropHeadLE_cons]
        by_cases hc : r'.key ≤ k0
        · rw [if_pos hc]
          have hk0r : k0 ≤ r'.key := hge (r' :: t) (by simp) r' (by simp)
          have heq : r'.key = k0 := le_antisymm hc hk0r
          unfold winnerStep
          have hfind : List.find? (fun r => decide (r.key = k)) (r' :: t) =
              List.find? (fun r => decide (r.key = k)) t :=
            List.find?_cons_of_neg _ (by
              simp only [heq, decide_eq_true_eq]
              exact fun h => hne h.symm)
          rw [hfind]
        · rw [if_neg hc]
    unfold dropHeads
    rw [List.map_cons, List.foldl_cons, List.foldl_cons, hstep]
    exact ih (winnerStep k acc s) hgerest

theorem winnerRec_dropHeads (k k0 : Key) (streams : List (List Rec))
    (hne : k ≠ k0) (hge : HeadsGE k0 streams) :
    winnerRec k (dropHeads k0 streams) = winnerRec k streams :=
  winner_fold_dropHeads k k0 hne streams none hge

theorem mergedNextEntry_eq_none_iff (streams : List (List Rec)) :
    mergedNextEntry streams = none ↔ pickTop 0 streams = none := by
  unfold mergedNextEntry
  cases pickTop 0 streams with
  | none => simp
  | some e => obtain ⟨r, j⟩ := e; simp

theorem mergedNext_false (streams : List (List Rec)) :
    mergedNext false streams = mergedNextEntry streams := by
  unfold mergedNext mergedNextF
  cases mergedNextEntry streams with
  | none => rfl
  | some e => obtain ⟨r, j⟩ := e; simp

theorem mergedNextF_succ (n : Nat) (b : Bool) (streams : List (List Rec)) :
    mergedNextF (n+1) b streams =
      match mergedNextEntry streams with
      | none => none
      | some (r, s') => if b && r.del then mergedNextF n b s' else some (r, s') := rfl

theorem mergedRunF_succ (n : Nat) (b : Bool) (streams : List (List Rec)) :
    mergedRunF (n+1) b streams =
      match mergedNext b streams with
      | none => []
      | some (r, s') => r :: mergedRunF n b s' := rfl

theorem mergedNext_true_of_del (streams : List (List Rec)) (r : Rec)
    (s' : List (List Rec)) (he : mergedNextEntry streams = some (r, s'))
    (hdel : r.del = true) : mergedNext true streams = mergedNext true s' := by
  unfold mergedNext
  rw [mergedNextF_succ, he]
  simp only [hdel, Bool.and_self, if_true]
  have hsz := mergedNextEntry_size _ _ _ he
  exact mergedNextF_congr (totalSize streams) (totalSize s' + 1) true s' (by omega) (by omega)

theorem mergedNext_true_of_keep (streams : List (List Rec)) (r : Rec)
    (s' : List (List Rec)) (he : mergedNextEntry streams = some (r, s'))
    (hdel : r.del = false) : mergedNext true streams = some (r, s') := by
  unfold mergedNext
  rw [mergedNextF_succ, he]
  simp [hdel]

theorem mergedNext_true_of_entry_none (streams : List (List Rec))
    (he : mergedNextEntry streams = none) : mergedNext true streams = none := by
  unfold mergedNext
  rw [mergedNextF_succ, he]

theorem mergedRunF_succ_none (n : Nat) (b : Bool) (streams : List (List Rec))
    (h : mergedNext b streams = none) : mergedRunF (n+1) b streams = [] := by
  conv_lhs => unfold mergedRunF
  rw [h]

theorem mergedRunF_succ_some (n : Nat) (b : Bool) (streams : List (List Rec))
    (r : Rec) (s' : List (List Rec)) (h : mergedNext b streams = some (r, s')) :
    mergedRunF (n+1) b streams = r :: mergedRunF n b s' := by
  conv_lhs => unfold mergedRunF
  rw [h]

theorem mergedRunF_filter_winner (fuel : Nat) :
    ∀ (streams : List (List Rec)) (k : Key) (w : Rec),
    totalSize streams < fuel → SortedStreams streams → winnerRec k streams = some w →
    (mergedRunF fuel false streams).filter (fun r => decide (r.key = k)) = [w] := by
  induction fuel with
  | zero => intro streams k w h _ _; omega
  | succ fuel ih =>
    intro streams k w hfuel hs hw
    cases he : mergedNextEntry streams with
    | none =>
      exfalso
      have hz : ∀ s ∈ streams, s = [] :=
        (pickTop_eq_none_iff _ _).mp ((mergedNextEntry_eq_none_iff _).mp he)
      have hnone : winnerRec k streams = none :=
        winner_fold_none _ _ _ (fun s' hs' => by rw [hz s' hs']; rfl)
      rw [hw] at hnone
      simp at hnone
    | some e =>
      obtain ⟨r0, s0⟩ := e
      have hsome : mergedNext false streams = some (r0, s0) := by
        rw [mergedNext_false]; exact he
      rw [mergedRunF_succ_some _ _ _ _ _ hsome]
      obtain ⟨hs0eq, j, hp⟩ := mergedNextEntry_closed streams r0 s0 hs he
      have hsorted0 : SortedStreams s0 := by
        rw [hs0eq]
        exact sorted_dropHeads _ _ hs
      by_cases hk : k = r0.key
      · subst hk
        have hwr : winnerRec r0.key streams = some r0 := by
          unfold winnerRec
          exact winner_fold_of_pickTop streams 0 r0 j hs hp none
        rw [hw] at hwr
        have hwr0 : w = r0 := Option.some.inj hwr
        subst hwr0
        rw [List.filter_cons, if_pos (by simp)]
        have hempty : (mergedRunF fuel false s0).filter
            (fun r => decide (r.key = w.key)) = [] := by
          rw [List.filter_eq_nil_iff]
          intro x hx
          obtain ⟨s1, hs1, hx1⟩ := mergedRunF_mem fuel false s0 hsorted0 x hx
          have hgt := allGt_of_entry streams w s0 hs he s1 hs1 x hx1
          simp only [decide_eq_true_eq]
          exact fun hxe => absurd (hxe ▸ hgt) (lt_irrefl _)
        rw [hempty]
      · have hwin0 : winnerRec k s0 = some w := by
          rw [hs0eq]
          rw [winnerRec_dropHeads k r0.key streams hk (pickTop_min_key_mem streams r0 j hp)]
          exact hw
        have hsz := mergedNextEntry_size _ _ _ he
        have htail := ih s0 k w (by omega) hsorted0 hwin0
        rw [List.filter_cons, if_neg (by
          simp only [decide_eq_true_eq]
          exact fun h => hk h.symm)]
        exact htail

theorem mergedRunF_true_filter (fuel : Nat) :
    ∀ (streams : List (List Rec)), totalSize streams < fuel →
    mergedRunF fuel true streams =
      (mergedRunF fuel false streams).filter (fun r => !r.del) := by
  induction fuel with
  | zero => intro streams h; omega
  | succ fuel ih =>
    intro streams hfuel
    cases he : mergedNextEntry streams with
    | none =>
      have h1 : mergedNext false streams = none := by
        rw [mergedNext_false]; exact he
      rw [mergedRunF_succ_none _ _ _ h1,
        mergedRunF_succ_none _ _ _ (mergedNext_true_of_entry_none _ he)]
      rfl
    | some e =>
      obtain ⟨r0, s0⟩ := e
      have h1 : mergedNext false streams = some (r0, s0) := by
        rw [mergedNext_false]; exact he
      have hsz := mergedNextEntry_size _ _ _ he
      rw [mergedRunF_succ_some _ _ _ _ _ h1]
      cases hdel : r0.del with
      | false =>
        rw [mergedRunF_succ_some _ _ _ _ _ (mergedNext_true_of_keep _ _ _ he hdel)]
        rw [List.filter_cons]
        simp only [hdel, Bool.not_false, if_true]
        rw [ih s0 (by omega)]
      | true =>
        rw [List.filter_cons]
        simp only [hdel, Bool.not_true, if_false]
        rw [← ih s0 (by omega)]
        have h2 : mergedRunF (fuel+1) true streams =
            mergedRunF (totalSize s0 + 1) true s0 := by
          cases hn : mergedNext true s0 with
          | none =>
            rw [mergedRunF_succ_none _ _ _ ((mergedNext_true_of_del _ _ _ he hdel).trans hn),
              mergedRunF_succ_none _ _ _ hn]
          | some e2 =>
            obtain ⟨r1, s1⟩ := e2
            have hsz1 := mergedNext_size _ _ _ _ hn
            rw [mergedRunF_succ_some _ _ _ _ _
              ((mergedNext_true_of_del _ _ _ he hdel).trans hn),
              mergedRunF_succ_some _ _ _ _ _ hn]
            rw [mergedRunF_congr fuel (totalSize s0) true s1 (by omega) (by omega)]
        rw [h2]
        exact mergedRunF_congr (totalSize s0 + 1) fuel true s0 (by omega) (by omega)

/-- C2: for a stack ordered oldest to newest (index 0 oldest), for every key
`k` present in at least one sub-iterator, the merged iterator emits for `k`
exactly the record from the largest-indexed (newest) sub-iterator containing
`k`, discarding same-key records of lower-indexed sub-iterators; if
`suppress_deletions` is set and the winning record is a deletion, no record
is emitted for `k` at all. -/
theorem merged_emits_newest_winner (suppress : Bool) (streams : List (List Rec))
    (k : Key) (w : Rec) (hs : SortedStreams streams)
    (hw : winnerRec k streams = some w) :
    (mergedRun suppress streams).filter (fun r => decide (r.key = k)) =
      if suppress && w.del then [] else [w] := by
  cases suppress with
  | false =>
    simp only [Bool.false_and, if_false]
    exact mergedRunF_filter_winner _ streams k w (by omega) hs hw
  | true =>
    unfold mergedRun
    rw [mergedRunF_true_filter _ streams (by omega)]
    rw [List.filter_filter]
    have hcomm : (fun r : Rec => decide (r.key = k) && !r.del) =
        (fun r : Rec => !r.del && decide (r.key = k)) := by
      funext r
      exact Bool.and_comm _ _
    rw [hcomm, ← List.filter_filter]
    have hbase : (mergedRunF (totalSize streams + 1) false streams).filter
        (fun r => decide (r.key = k)) = [w] :=
      mergedRunF_filter_winner _ streams k w (by omega) hs hw
    rw [hbase]
    simp only [List.filter_cons, List.filter_nil, Bool.true_and]
    cases hdel : w.del with
    | false => simp
    | true => simp

/-- Witness for C2: two single-record streams for the same key, the newer a
tombstone; with `suppress_deletions` the key is absent from the output. -/
theorem merged_emits_newest_winner_witness :
    (SortedStreams [[{ key := [1], val := 7 }], [{ key := [1], del := true, val := 9 }]] ∧
      winnerRec [1] [[{ key := [1], val := 7 }], [{ key := [1], del := true, val := 9 }]] =
        some { key := [1], del := true, val := 9 }) ∧
    (mergedRun true [[{ key := [1], val := 7 }], [{ key := [1], del := true, val := 9 }]]).filter
        (fun r => decide (r.key = [1])) =
      if true && ({ key := [1], del := true, val := 9 } : Rec).del then []
      else [{ key := [1], del := true, val := 9 }] :=
  ⟨⟨by decide, by decide⟩,
    merged_emits_newest_winner true _ [1] _ (by decide) (by decide)⟩

theorem lastMaxD_nil (lm : Nat) : lastMaxD lm [] = lm := rfl

theorem lastMaxD_cons (lm : Nat) (r : RdMeta) (t : List RdMeta) :
    lastMaxD lm (r :: t) = lastMaxD r.maxUpd t := by
  unfold lastMaxD
  cases t with
  | nil => rfl
  | cons x xs =>
    rw [List.getLast?_cons_cons]
    cases h : (x :: xs).getLast? with
    | some y => rfl
    | none => simp [List.getLast?_eq_none_iff] at h

theorem lastMaxD_getLast? (l : List RdMeta) (lm : Nat) (rn : RdMeta)
    (h : l.getLast? = some rn) : lastMaxD lm l = rn.maxUpd := by
  unfold lastMaxD
  rw [h]

theorem chain_start_irrel (t : List RdMeta) (a a' : RdMeta)
    (h : a.maxUpd = a'.maxUpd) :
    List.Chain updOrder a t ↔ List.Chain updOrder a' t := by
  cases t with
  | nil => simp
  | cons b t' =>
    rw [List.chain_cons, List.chain_cons]
    unfold updOrder
    rw [h]

theorem newMergedLoop_pos (hashId : Nat) (l : List RdMeta) :
    ∀ (i fm lm : Nat), 1 ≤ i →
    newMergedLoop hashId l i fm lm =
      (if (∀ r ∈ l, r.hashId = hashId) ∧ List.Chain updOrder ⟨hashId, 0, lm⟩ l
       then .ok (fm, lastMaxD lm l) else .error .formatErr) := by
  induction l with
  | nil =>
    intro i fm lm _
    rw [if_pos (by simp)]
    rfl
  | cons r t ih =>
    intro i fm lm hi
    unfold newMergedLoop
    by_cases hh : r.hashId = hashId
    · rw [if_neg (by simpa using hh)]
      by_cases hlm : r.minUpd ≤ lm
      · rw [if_pos ⟨by omega, hlm⟩]
        rw [if_neg]
        intro hc
        have : updOrder ⟨hashId, 0, lm⟩ r := (List.chain_cons.mp hc.2).1
        unfold updOrder at this
        simp at this
        omega
      · rw [if_neg (fun hc => hlm hc.2)]
        rw [if_neg (by omega)]
        rw [ih (i+1) fm r.maxUpd (by omega)]
        by_cases hc : (∀ r' ∈ t, r'.hashId = hashId) ∧
            List.Chain updOrder ⟨hashId, 0, r.maxUpd⟩ t
        · rw [if_pos hc, if_pos, lastMaxD_cons]
          refine ⟨?_, ?_⟩
          · intro r' hr'
            rcases List.mem_cons.mp hr' with rfl | hr''
            · exact hh
            · exact hc.1 r' hr''
          · rw [List.chain_cons]
            refine ⟨by unfold updOrder; simp; omega, ?_⟩
            exact (chain_start_irrel t r ⟨hashId, 0, r.maxUpd⟩ rfl).mpr hc.2
        · rw [if_neg hc, if_neg]
          intro hc2
          refine hc ⟨fun r' hr' => hc2.1 r' (by simp [hr']), ?_⟩
          have := (List.chain_cons.mp hc2.2).2
          exact (chain_start_irrel t r ⟨hashId, 0, r.maxUpd⟩ rfl).mp this
    · rw [if_pos (by simpa using hh)]
      rw [if_neg]
      intro hc
      exact hh (hc.1 r (by simp))

theorem lastMaxD_of_getLast?_cons (r rn : RdMeta) (t : List RdMeta)
    (h : (r :: t).getLast? = some rn) : lastMaxD r.maxUpd t = rn.maxUpd := by
  cases t with
  | nil =>
    have hr : rn = r := by simpa using h.symm
    simp [lastMaxD_nil, hr]
  | cons x xs =>
    rw [List.getLast?_cons_cons] at h
    exact lastMaxD_getLast? _ _ _ h

/-- C8: `reftable_new_merged_table` succeeds (returns a table) iff every
reader in the stack carries the requested hash id and, for every `i > 0`,
`stack[i-1].max_update_index < stack[i].min_update_index` (`Chain'`); on any
violation it returns a format error and no table, and on success the merged
table's min and max update indices are the first reader's min and the last
reader's max. -/
theorem newMergedTable_ok_iff (stack : List RdMeta) (hashId : Nat) :
    (match reftableNewMergedTable stack hashId with
     | .ok mt =>
         ((∀ r ∈ stack, r.hashId = hashId) ∧ stack.Chain' updOrder) ∧
         mt.stackLen = stack.length ∧ mt.hashId = hashId ∧
         (∀ r0, stack.head? = some r0 → mt.minUpd = r0.minUpd) ∧
         (∀ rn, stack.getLast? = some rn → mt.maxUpd = rn.maxUpd)
     | .error e =>
         e = .formatErr ∧
         ¬ ((∀ r ∈ stack, r.hashId = hashId) ∧ stack.Chain' updOrder)) := by
  cases stack with
  | nil =>
    refine ⟨⟨by simp, by simp⟩, rfl, rfl, ?_, ?_⟩ <;> intro x hx <;> simp at hx
  | cons r t =>
    have hloop : newMergedLoop hashId (r :: t) 0 0 0 =
        (if r.hashId = hashId then
          (if (∀ r' ∈ t, r'.hashId = hashId) ∧
              List.Chain updOrder ⟨hashId, 0, r.maxUpd⟩ t
           then .ok (r.minUpd, lastMaxD r.maxUpd t) else .error .formatErr)
         else .error .formatErr) := by
      unfold newMergedLoop
      by_cases hh : r.hashId = hashId
      · rw [if_neg (by simpa using hh), if_neg (by omega), if_pos hh]
        simpa using newMergedLoop_pos hashId t 1 r.minUpd r.maxUpd (by omega)
      · rw [if_pos (by simpa using hh), if_neg hh]
    unfold reftableNewMergedTable
    rw [hloop]
    by_cases hh : r.hashId = hashId
    · rw [if_pos hh]
      by_cases hc : (∀ r' ∈ t, r'.hashId = hashId) ∧
          List.Chain updOrder ⟨hashId, 0, r.maxUpd⟩ t
      · rw [if_pos hc]
        refine ⟨⟨?_, ?_⟩, rfl, rfl, ?_, ?_⟩
        · intro r' hr'
          rcases List.mem_cons.mp hr' with rfl | hr''
          · exact hh
          · exact hc.1 r' hr''
        · exact (chain_start_irrel t r ⟨hashId, 0, r.maxUpd⟩ rfl).mpr hc.2
        · intro r0 h0
          have hr0 : r0 = r := by simpa using h0.symm
          simp [hr0]
        · intro rn hn
          exact lastMaxD_of_getLast?_cons r rn t hn
      · rw [if_neg hc]
        refine ⟨rfl, fun hcc => hc ⟨fun r' hr' => hcc.1 r' (by simp [hr']), ?_⟩⟩
        have hch : List.Chain updOrder r t := hcc.2
        exact (chain_start_irrel t r ⟨hashId, 0, r.maxUpd⟩ rfl).mp hch
    · rw [if_neg hh]
      exact ⟨rfl, fun hcc => hh (hcc.1 r (by simp))⟩

/-- C9: after `block_source_return_block` the block's data pointer is NULL
and its length zero; returning the zero'd block again is a no-op on both the
source and the block; consequently closing an iterator whose blocks have all
been returned (`bi.br == NULL`) is a no-op. -/
theorem return_block_clears_and_idempotent (s : FileSource) (b : RBlock) :
    (blockSourceReturnBlock s b).2.data = none ∧
    (blockSourceReturnBlock s b).2.len = 0 ∧
    blockSourceReturnBlock (blockSourceReturnBlock s b).1 (blockSourceReturnBlock s b).2 =
      ((blockSourceReturnBlock s b).1, (blockSourceReturnBlock s b).2) ∧
    (∀ ti : TIState, ti.br = none → tableIterClose s ti = (s, ti)) := by
  refine ⟨rfl, rfl, rfl, ?_⟩
  intro ti hti
  unfold tableIterClose tableIterBlockDone
  rw [hti]

/-- Witness for C9 at a concrete source and block. -/
theorem return_block_clears_and_idempotent_witness :
    ((blockSourceReturnBlock ⟨[5]⟩ ⟨some 5, 68, true⟩).2.data = none ∧
     (blockSourceReturnBlock ⟨[5]⟩ ⟨some 5, 68, true⟩).2.len = 0 ∧
     blockSourceReturnBlock (blockSourceReturnBlock ⟨[5]⟩ ⟨some 5, 68, true⟩).1
         (blockSourceReturnBlock ⟨[5]⟩ ⟨some 5, 68, true⟩).2 =
       ((blockSourceReturnBlock ⟨[5]⟩ ⟨some 5, 68, true⟩).1,
        (blockSourceReturnBlock ⟨[5]⟩ ⟨some 5, 68, true⟩).2) ∧
     (∀ ti : TIState, ti.br = none →
        tableIterClose ⟨[5]⟩ ti = (⟨[5]⟩, ti))) ∧
    tableIterClose ⟨[5]⟩ ⟨none, 0, 0⟩ = (⟨[5]⟩, ⟨none, 0, 0⟩) :=
  ⟨return_block_clears_and_idempotent ⟨[5]⟩ ⟨some 5, 68, true⟩,
    (return_block_clears_and_idempotent ⟨[5]⟩ ⟨some 5, 68, true⟩).2.2.2 ⟨none, 0, 0⟩ rfl⟩

/-- C7: the update index returned to the caller equals the stored delta plus
the table's `min_update_index`, applied only to ref records (other kinds are
returned unchanged); hence a ref written with update index `u` into a table
with `min_update_index m` is read back with update index `u`. -/
theorem ref_update_index_fixup (m : Nat) (b : List Rec) (u : Nat)
    (hu : u < u64Mod) (hm : m < u64Mod) :
    (match blockIterNext b with
     | some (r, rest) =>
         tableIterNextInBlock m b =
           some ((if r.typ = tagRef then { r with upd := (r.upd + m) % u64Mod }
                  else r), rest)
     | none => tableIterNextInBlock m b = none) ∧
    (encodeRefDelta m u + m) % u64Mod = u := by
  constructor
  · cases b with
    | nil => rfl
    | cons r rest =>
      by_cases ht : r.typ = tagRef
      · simp [tableIterNextInBlock, blockIterNext, ht]
      · simp [tableIterNextInBlock, blockIterNext, ht]
  · unfold encodeRefDelta u64Mod at *
    omega

/-- Witness for C7 at a concrete block, `u = 7`, `m = 3`. -/
theorem ref_update_index_fixup_witness :
    (7 < u64Mod ∧ 3 < u64Mod) ∧
    ((match blockIterNext [{ typ := 114, upd := 4 }, { typ := 103, upd := 9 }] with
      | some (r, rest) =>
          tableIterNextInBlock 3 [{ typ := 114, upd := 4 }, { typ := 103, upd := 9 }] =
            some ((if r.typ = tagRef then { r with upd := (r.upd + 3) % u64Mod }
                   else r), rest)
      | none => tableIterNextInBlock 3 [{ typ := 114, upd := 4 }, { typ := 103, upd := 9 }] = none) ∧
     (encodeRefDelta 3 7 + 3) % u64Mod = 7) :=
  ⟨⟨by decide, by decide⟩,
    ref_update_index_fixup 3 [{ typ := 114, upd := 4 }, { typ := 103, upd := 9 }] 7
      (by decide) (by decide)⟩

theorem xor_div_two (a b : Nat) : (a ^^^ b) / 2 = a / 2 ^^^ b / 2 := by
  apply Nat.eq_of_testBit_eq
  intro i
  simp [Nat.testBit_div_two, Nat.testBit_xor]

theorem xor_mod_two (a b : Nat) : (a ^^^ b) % 2 = 1 ↔ ((a % 2 = 1) ↔ ¬ (b % 2 = 1)) := by
  have h := Nat.testBit_xor a b 0
  simp only [Nat.testBit_zero] at h
  rcases Nat.mod_two_eq_zero_or_one a with ha | ha <;>
    rcases Nat.mod_two_eq_zero_or_one b with hb | hb <;>
      simp [ha, hb] at h ⊢ <;> omega

theorem xor_both (x y p : Nat) : (x ^^^ p) ^^^ (y ^^^ p) = x ^^^ y := by
  rw [Nat.xor_assoc x p (y ^^^ p), Nat.xor_comm p (y ^^^ p), Nat.xor_assoc y p p,
    Nat.xor_self, Nat.xor_zero]

theorem crcStep_linear (a b : Nat) : crcStep (a ^^^ b) = crcStep a ^^^ crcStep b := by
  unfold crcStep
  rcases Nat.mod_two_eq_zero_or_one a with ha | ha <;>
    rcases Nat.mod_two_eq_zero_or_one b with hb | hb
  · have hab : (a ^^^ b) % 2 = 0 := by
      rcases Nat.mod_two_eq_zero_or_one ((a ^^^ b)) with h | h
      · exact h
      · exact absurd ((xor_mod_two a b).mp h) (by simp [ha, hb])
    simp [ha, hb, hab, xor_div_two]
  · have hab : (a ^^^ b) % 2 = 1 := (xor_mod_two a b).mpr (by simp [ha, hb])
    rw [if_pos hab, if_neg (by omega), if_pos hb, xor_div_two]
    rw [Nat.xor_assoc]
  · have hab : (a ^^^ b) % 2 = 1 := (xor_mod_two a b).mpr (by simp [ha, hb])
    rw [if_pos hab, if_pos ha, if_neg (by omega), xor_div_two]
    rw [Nat.xor_assoc, Nat.xor_comm (b / 2) crcPoly, ← Nat.xor_assoc]
  · have hab : (a ^^^ b) % 2 = 0 := by
      rcases Nat.mod_two_eq_zero_or_one ((a ^^^ b)) with h | h
      · exact h
      · have := (xor_mod_two a b).mp h
        simp [ha, hb] at this
    rw [if_neg (by omega), if_pos ha, if_pos hb, xor_div_two, xor_both]

theorem crcStep_zero : crcStep 0 = 0 := by decide

theorem crcStep_lt (s : Nat) (h : s < 2 ^ 32) : crcStep s < 2 ^ 32 := by
  unfold crcStep
  split
  · exact Nat.xor_lt_two_pow (by omega) (by decide)
  · omega

theorem crcStep_ne_zero (s : Nat) (h : s < 2 ^ 32) (hz : s ≠ 0) : crcStep s ≠ 0 := by
  unfold crcStep
  split
  · intro hx
    have : s / 2 = crcPoly := by
      have := Nat.xor_eq_zero.mp hx
      exact this
    unfold crcPoly at this
    omega
  · intro hx
    omega

theorem crcSteps8_linear (a b : Nat) :
    crcSteps8 (a ^^^ b) = crcSteps8 a ^^^ crcSteps8 b := by
  unfold crcSteps8
  rw [crcStep_linear, crcStep_linear, crcStep_linear, crcStep_linear,
    crcStep_linear, crcStep_linear, crcStep_linear, crcStep_linear]

theorem crcSteps8_lt (s : Nat) (h : s < 2 ^ 32) : crcSteps8 s < 2 ^ 32 := by
  unfold crcSteps8
  exact crcStep_lt _ (crcStep_lt _ (crcStep_lt _ (crcStep_lt _ (crcStep_lt _
    (crcStep_lt _ (crcStep_lt _ (crcStep_lt _ h)))))))

theorem crcSteps8_ne_zero (s : Nat) (h : s < 2 ^ 32) (hz : s ≠ 0) :
    crcSteps8 s ≠ 0 := by
  unfold crcSteps8
  have h1 := crcStep_lt _ h
  have h2 := crcStep_lt _ h1
  have h3 := crcStep_lt _ h2
  have h4 := crcStep_lt _ h3
  have h5 := crcStep_lt _ h4
  have h6 := crcStep_lt _ h5
  have h7 := crcStep_lt _ h6
  exact crcStep_ne_zero _ h7 (crcStep_ne_zero _ h6 (crcStep_ne_zero _ h5
    (crcStep_ne_zero _ h4 (crcStep_ne_zero _ h3 (crcStep_ne_zero _ h2
      (crcStep_ne_zero _ h1 (crcStep_ne_zero _ h hz)))))))

theorem crcByte_linear (s1 s2 b1 b2 : Nat) :
    crcByte (s1 ^^^ s2) (b1 ^^^ b2) = crcByte s1 b1 ^^^ crcByte s2 b2 := by
  unfold crcByte
  rw [← crcSteps8_linear]
  congr 1
  rw [Nat.xor_assoc, ← Nat.xor_assoc s2 b1 b2, Nat.xor_comm s2 b1,
    Nat.xor_assoc b1 s2 b2, ← Nat.xor_assoc]

theorem crcUpdate_linear (l : List Nat) : ∀ (a d : Nat),
    crcUpdate (a ^^^ d) l = crcUpdate a l ^^^ crcZeros l.length d := by
  induction l with
  | nil => intro a d; rfl
  | cons x rest ih =>
    intro a d
    unfold crcUpdate
    rw [List.foldl_cons, List.foldl_cons]
    have hb : crcByte (a ^^^ d) x = crcByte a x ^^^ crcByte d 0 := by
      rw [← crcByte_linear a d x 0]
      congr 1
      rw [Nat.xor_zero]
    rw [hb]
    have := ih (crcByte a x) (crcByte d 0)
    unfold crcUpdate at this
    rw [this]
    rfl

theorem crcZeros_ne_zero (n : Nat) : ∀ (d : Nat), d < 2 ^ 32 → d ≠ 0 →
    crcZeros n d ≠ 0 := by
  induction n with
  | zero => intro d _ hz; exact hz
  | succ n ih =>
    intro d hd hz
    unfold crcZeros
    have hb : crcByte d 0 = crcSteps8 d := by
      unfold crcByte
      rw [Nat.xor_zero]
    rw [hb]
    exact ih _ (crcSteps8_lt d hd) (crcSteps8_ne_zero d hd hz)

theorem crc32_flip_ne (l : List Nat) (q i : Nat) (hq : q < l.length) (hi : i < 8) :
    crc32 (l.set q (l.getD q 0 ^^^ 2 ^ i)) ≠ crc32 l := by
  have hset : l.set q (l.getD q 0 ^^^ 2 ^ i) =
      l.take q ++ (l.getD q 0 ^^^ 2 ^ i) :: l.drop (q + 1) :=
    List.set_eq_take_cons_drop _ hq
  have hx : l[q]? = some (l.getD q 0) := by
    rw [List.getD_eq_getElem?_getD]
    cases hv : l[q]? with
    | none =>
      rw [List.getElem?_eq_none_iff] at hv
      omega
    | some v => rfl
  have hsplit : l = l.take q ++ l.getD q 0 :: l.drop (q + 1) :=
    calc l = l.set q (l.getD q 0) := (set_eq_self_of_getElem? l q _ hx).symm
      _ = l.take q ++ l.getD q 0 :: l.drop (q + 1) := List.set_eq_take_cons_drop _ hq
  have hb : crcByte (List.foldl crcByte 0xFFFFFFFF (l.take q)) (l.getD q 0 ^^^ 2 ^ i) =
      crcByte (List.foldl crcByte 0xFFFFFFFF (l.take q)) (l.getD q 0) ^^^
        crcSteps8 (2 ^ i) := by
    have hlin := crcByte_linear (List.foldl crcByte 0xFFFFFFFF (l.take q)) 0
      (l.getD q 0) (2 ^ i)
    rw [Nat.xor_zero] at hlin
    rw [hlin]
    congr 1
    unfold crcByte
    rw [Nat.zero_xor]
  have e1 : crcUpdate 0xFFFFFFFF l =
      List.foldl crcByte
        (crcByte (List.foldl crcByte 0xFFFFFFFF (l.take q)) (l.getD q 0))
        (l.drop (q + 1)) := by
    conv_lhs => rw [hsplit]
    unfold crcUpdate
    rw [List.foldl_append, List.foldl_cons]
  have e2 : crcUpdate 0xFFFFFFFF (l.set q (l.getD q 0 ^^^ 2 ^ i)) =
      List.foldl crcByte
        (crcByte (List.foldl crcByte 0xFFFFFFFF (l.take q)) (l.getD q 0) ^^^
          crcSteps8 (2 ^ i))
        (l.drop (q + 1)) := by
    rw [hset]
    unfold crcUpdate
    rw [List.foldl_append, List.foldl_cons, hb]
  have hflip : crcUpdate 0xFFFFFFFF (l.set q (l.getD q 0 ^^^ 2 ^ i)) =
      crcUpdate 0xFFFFFFFF l ^^^
        crcZeros (l.drop (q + 1)).length (crcSteps8 (2 ^ i)) := by
    rw [e1, e2]
    simpa [crcUpdate] using crcUpdate_linear (l.drop (q + 1))
      (crcByte (List.foldl crcByte 0xFFFFFFFF (l.take q)) (l.getD q 0))
      (crcSteps8 (2 ^ i))
  have hpow : (2:Nat) ^ i < 2 ^ 32 := by
    have h8 : (2:Nat) ^ i < 2 ^ 8 := Nat.pow_lt_pow_right (by omega) hi
    omega
  have hz : crcZeros (l.drop (q + 1)).length (crcSteps8 (2 ^ i)) ≠ 0 := by
    apply crcZeros_ne_zero
    · exact crcSteps8_lt _ hpow
    · exact crcSteps8_ne_zero _ hpow (by positivity)
  intro hcontra
  unfold crc32 at hcontra
  have hUD : crcUpdate 0xFFFFFFFF (l.set q (l.getD q 0 ^^^ 2 ^ i)) =
      crcUpdate 0xFFFFFFFF l := by
    have hc := congrArg (fun x => x ^^^ 0xFFFFFFFF) hcontra
    simpa [Nat.xor_assoc, Nat.xor_self, Nat.xor_zero] using hc
  rw [hflip] at hUD
  have hD0 : crcZeros (l.drop (q + 1)).length (crcSteps8 (2 ^ i)) = 0 := by
    have hc := congrArg (fun x => crcUpdate 0xFFFFFFFF l ^^^ x) hUD.symm
    simpa [← Nat.xor_assoc, Nat.xor_self, Nat.zero_xor] using hc.symm
  exact hz hD0

theorem getD_eq_of_lt_length (l : List Nat) (j : Nat) (h : j < l.length) :
    l[j]? = some (l.getD j 0) := by
  rw [List.getD_eq_getElem?_getD]
  cases hv : l[j]? with
  | none =>
    rw [List.getElem?_eq_none_iff] at hv
    omega
  | some v => rfl

theorem xor_pow_ne_self (a i : Nat) : a ^^^ 2 ^ i ≠ a := by
  intro hc
  have h := congrArg (fun x => x ^^^ a) hc
  simp only at h
  rw [Nat.xor_comm a (2 ^ i), Nat.xor_assoc, Nat.xor_self, Nat.xor_zero] at h
  exact absurd h (by positivity)

theorem set_flip_ne_self (l : List Nat) (j i : Nat) (h : j < l.length) :
    l.set j (l.getD j 0 ^^^ 2 ^ i) ≠ l := by
  intro hc
  have h1 : (l.set j (l.getD j 0 ^^^ 2 ^ i))[j]? = some (l.getD j 0 ^^^ 2 ^ i) := by
    rw [List.getElem?_set]
    simp [h]
  rw [hc, getD_eq_of_lt_length l j h] at h1
  have h2 : l.getD j 0 ^^^ 2 ^ i = l.getD j 0 := by
    injection h1 with h'
    exact h'.symm
  exact xor_pow_ne_self _ _ h2

theorem take_set_outside (l : List Nat) (j x n : Nat) (h : n ≤ j) :
    (l.set j x).take n = l.take n := by
  rw [List.set_take]
  apply List.set_eq_of_length_le
  rw [List.length_take]
  omega

theorem take_set_inside (l : List Nat) (j x n : Nat) :
    (l.set j x).take n = (l.take n).set j x := by
  rw [List.set_take]

theorem drop_set_ge (l : List Nat) (j x n : Nat) (h : n ≤ j) :
    (l.set j x).drop n = (l.drop n).set (j - n) x := by
  apply List.ext_getElem?
  intro m
  simp only [List.getElem?_drop, List.getElem?_set, List.length_drop]
  by_cases he : j = n + m
  · rw [if_pos he, if_pos (show j - n = m by omega)]
    by_cases hl : j < l.length
    · rw [if_pos hl, if_pos (by omega)]
    · rw [if_neg hl, if_neg (by omega)]
  · rw [if_neg he, if_neg (show ¬ (j - n = m) by omega)]

theorem getBe_set_outside (f : List Nat) (j x off n : Nat)
    (h : j < off ∨ off + n ≤ j) :
    getBe (f.set j x) off n = getBe f off n := by
  unfold getBe
  congr 1
  apply List.ext_getElem?
  intro m
  rw [List.getElem?_take, List.getElem?_take]
  by_cases hm : m < n
  · rw [if_pos hm, if_pos hm, List.getElem?_drop, List.getElem?_drop,
      List.getElem?_set, if_neg (by omega)]
  · rw [if_neg hm, if_neg hm]

theorem window4 (l : List Nat) (off : Nat) (h : off + 4 ≤ l.length) :
    (l.drop off).take 4 =
      [l.getD off 0, l.getD (off+1) 0, l.getD (off+2) 0, l.getD (off+3) 0] := by
  apply List.ext_getElem?
  intro m
  rw [List.getElem?_take]
  by_cases hm : m < 4
  · rw [if_pos hm, List.getElem?_drop]
    interval_cases m
    · simpa using getD_eq_of_lt_length l off (by omega)
    · simpa using getD_eq_of_lt_length l (off+1) (by omega)
    · simpa using getD_eq_of_lt_length l (off+2) (by omega)
    · simpa using getD_eq_of_lt_length l (off+3) (by omega)
  · rw [if_neg hm]
    refine (List.getElem?_eq_none ?_).symm
    simp only [List.length_cons, List.length_nil]
    omega

theorem getBe4_formula (l : List Nat) (off : Nat) (h : off + 4 ≤ l.length) :
    getBe l off 4 =
      ((l.getD off 0 * 256 + l.getD (off+1) 0) * 256 + l.getD (off+2) 0) * 256 +
        l.getD (off+3) 0 := by
  unfold getBe
  rw [window4 l off h]
  simp [List.foldl_cons]

theorem getBe4_set_flip_ne (f : List Nat) (off j i : Nat)
    (hbytes : ∀ b ∈ f, b < 256)
    (hoff : off ≤ j) (hj4 : j < off + 4) (hlen : off + 4 ≤ f.length) (hi : i < 8) :
    getBe (f.set j (f.getD j 0 ^^^ 2 ^ i)) off 4 ≠ getBe f off 4 := by
  have hne : f.getD j 0 ^^^ 2 ^ i ≠ f.getD j 0 := xor_pow_ne_self _ _
  have hjlen : j < f.length := by omega
  have hb : ∀ m, m < f.length → f.getD m 0 < 256 := by
    intro m hm
    exact hbytes _ (List.getElem?_mem (getD_eq_of_lt_length f m hm))
  have hbj : f.getD j 0 < 256 := hb j hjlen
  have h256 : (256:Nat) = 2 ^ 8 := by norm_num
  have hbj' : f.getD j 0 ^^^ 2 ^ i < 256 := by
    rw [h256]
    exact Nat.xor_lt_two_pow (h256 ▸ hbj) (Nat.pow_lt_pow_right (by omega) hi)
  have hset : ∀ m, m < f.length →
      (f.set j (f.getD j 0 ^^^ 2 ^ i)).getD m 0 =
        if m = j then f.getD j 0 ^^^ 2 ^ i else f.getD m 0 := by
    intro m hm
    by_cases hmj : m = j
    · subst hmj
      rw [if_pos rfl]
      have := List.getElem?_set (l := f) (i := m) (j := m)
        (a := f.getD m 0 ^^^ 2 ^ i)
      rw [List.getD_eq_getElem?_getD, this]
      simp [hm]
    · rw [if_neg hmj]
      have := List.getElem?_set (l := f) (i := j) (j := m)
        (a := f.getD j 0 ^^^ 2 ^ i)
      rw [List.getD_eq_getElem?_getD, this]
      rw [if_neg (fun hx => hmj hx.symm)]
      rw [← List.getD_eq_getElem?_getD]
  have hlen' : (f.set j (f.getD j 0 ^^^ 2 ^ i)).length = f.length := by simp
  rw [getBe4_formula _ off (by omega), getBe4_formula f off hlen]
  rw [hset off (by omega), hset (off+1) (by omega), hset (off+2) (by omega),
    hset (off+3) (by omega)]
  have h0 := hb off (by omega)
  have h1 := hb (off+1) (by omega)
  have h2 := hb (off+2) (by omega)
  have h3 := hb (off+3) (by omega)
  intro hc
  have hj' : j = off ∨ j = off + 1 ∨ j = off + 2 ∨ j = off + 3 := by omega
  rcases hj' with rfl | rfl | rfl | rfl
  · rw [if_pos rfl, if_neg (by omega), if_neg (by omega), if_neg (by omega)] at hc
    exact hne (by omega)
  · rw [if_neg (by omega), if_pos rfl, if_neg (by omega), if_neg (by omega)] at hc
    exact hne (by omega)
  · rw [if_neg (by omega), if_neg (by omega), if_pos rfl, if_neg (by omega)] at hc
    exact hne (by omega)
  · rw [if_neg (by omega), if_neg (by omega), if_neg (by omega), if_pos rfl] at hc
    exact hne (by omega)

theorem parseFooter_ok_iff (v size : Nat) (f h : List Nat) :
    (∃ r, parseFooter v size f h = .ok r) ↔
      (f.take 4 = magicREFT ∧
       f.take (headerSize v) = h.take (headerSize v) ∧
       (v = 1 ∨ getBe f 24 4 = sha1Id ∨ getBe f 24 4 = sha256Id) ∧
       crc32 (f.take (headerSize v + 40)) = getBe f (headerSize v + 40) 4) := by
  unfold parseFooter
  by_cases h1 : f.take 4 ≠ magicREFT
  · rw [if_pos h1]
    constructor
    · rintro ⟨r, hr⟩
      simp at hr
    · rintro ⟨c1, -, -, -⟩
      exact absurd c1 h1
  · rw [if_neg h1]
    by_cases h2 : f.take (headerSize v) ≠ h.take (headerSize v)
    · rw [if_pos h2]
      constructor
      · rintro ⟨r, hr⟩
        simp at hr
      · rintro ⟨-, c2, -, -⟩
        exact absurd c2 h2
    · rw [if_neg h2]
      by_cases h3 : v ≠ 1 ∧ getBe f 24 4 ≠ sha1Id ∧ getBe f 24 4 ≠ sha256Id
      · rw [if_pos h3]
        constructor
        · rintro ⟨r, hr⟩
          simp at hr
        · rintro ⟨-, -, c3, -⟩
          rcases c3 with c | c | c
          · exact (h3.1 c).elim
          · exact (h3.2.1 c).elim
          · exact (h3.2.2 c).elim
      · rw [if_neg h3]
        by_cases h4 : crc32 (f.take (headerSize v + 40)) ≠ getBe f (headerSize v + 40) 4
        · rw [if_pos h4]
          constructor
          · rintro ⟨r, hr⟩
            simp at hr
          · rintro ⟨-, -, -, c4⟩
            exact absurd c4 h4
        · rw [if_neg h4]
          constructor
          · intro _
            refine ⟨not_not.mp h1, not_not.mp h2, ?_, not_not.mp h4⟩
            by_cases hv : v = 1
            · exact Or.inl hv
            · rcases Decidable.em (getBe f 24 4 = sha1Id) with hs | hs
              · exact Or.inr (Or.inl hs)
              · rcases Decidable.em (getBe f 24 4 = sha256Id) with hs' | hs'
                · exact Or.inr (Or.inr hs')
                · exact absurd ⟨hv, hs, hs'⟩ h3
          · intro _
            exact ⟨_, rfl⟩

theorem parseFooter_no_io (v size : Nat) (f h : List Nat) (e : ErrCode)
    (he : parseFooter v size f h = .error e) : e = .formatErr := by
  unfold parseFooter at he
  split_ifs at he <;>
    first
      | (injection he with h'; exact h'.symm)
      | (cases he)

theorem parseFooter_error_of_mismatch (v size : Nat) (f h : List Nat)
    (hm : f.take (headerSize v) ≠ h.take (headerSize v)) :
    parseFooter v size f h = .error .formatErr := by
  unfold parseFooter
  by_cases h1 : f.take 4 ≠ magicREFT
  · rw [if_pos h1]
  · rw [if_neg h1, if_pos hm]

theorem headerSize_val (v : Nat) : headerSize v = 24 ∨ headerSize v = 28 := by
  unfold headerSize
  by_cases h : v = 1 <;> simp [h]

theorem footerSize_eq (v : Nat) : footerSize v = headerSize v + 44 := by
  unfold footerSize headerSize
  by_cases h : v = 1 <;> simp [h]

/-- Flipping any single bit of the footer bytes handed to `parse_footer`
turns a successful parse into a format error. -/
theorem parseFooter_flip (v size : Nat) (f h : List Nat) (r : Rdr)
    (hok : parseFooter v size f h = .ok r)
    (hbytes : ∀ b ∈ f, b < 256)
    (hflen : f.length = footerSize v)
    (j i : Nat) (hj : j < footerSize v) (hi : i < 8) :
    parseFooter v size (f.set j (f.getD j 0 ^^^ 2 ^ i)) h = .error .formatErr := by
  have hckeq := (parseFooter_ok_iff v size f h).mp ⟨r, hok⟩
  obtain ⟨hc1, hc2, hc3, hc4⟩ := hckeq
  have hhs : headerSize v = 24 ∨ headerSize v = 28 := headerSize_val v
  have hfsz : footerSize v = headerSize v + 44 := footerSize_eq v
  by_cases hjh : j < headerSize v
  · apply parseFooter_error_of_mismatch
    rw [take_set_inside]
    rw [hc2]
    intro hcontra
    have hlt : j < (f.take (headerSize v)).length := by
      rw [List.length_take]
      omega
    have hgd : (f.take (headerSize v)).getD j 0 = f.getD j 0 := by
      rw [List.getD_eq_getElem?_getD, List.getD_eq_getElem?_getD, List.getElem?_take,
        if_pos hjh]
    rw [← hc2] at hcontra
    rw [← hgd] at hcontra
    exact set_flip_ne_self _ j i hlt hcontra
  · have hmagic' : (f.set j (f.getD j 0 ^^^ 2 ^ i)).take 4 = magicREFT := by
      rw [take_set_outside _ _ _ _ (by omega)]
      exact hc1
    have hmatch' : (f.set j (f.getD j 0 ^^^ 2 ^ i)).take (headerSize v) =
        h.take (headerSize v) := by
      rw [take_set_outside _ _ _ _ (by omega)]
      exact hc2
    have hhash' : v = 1 ∨ getBe (f.set j (f.getD j 0 ^^^ 2 ^ i)) 24 4 = sha1Id ∨
        getBe (f.set j (f.getD j 0 ^^^ 2 ^ i)) 24 4 = sha256Id := by
      by_cases hv : v = 1
      · exact Or.inl hv
      · have h28 : headerSize v = 28 := by
          unfold headerSize
          rw [if_neg hv]
        rcases hc3 with hv1 | hs
        · exact absurd hv1 hv
        · right
          rw [getBe_set_outside _ _ _ _ _ (Or.inr (by omega))]
          exact hs
    by_cases hjc : j < headerSize v + 40
    · -- CRC mismatch
      unfold parseFooter
      rw [if_neg (by rw [hmagic']; intro hx; exact hx rfl),
        if_neg (by rw [hmatch']; intro hx; exact hx rfl)]
      rw [if_neg (by
        intro hx
        rcases hhash' with hv | hs | hs
        · exact hx.1 hv
        · exact hx.2.1 hs
        · exact hx.2.2 hs)]
      rw [if_pos]
      rw [take_set_inside]
      have hgd : (f.take (headerSize v + 40)).getD j 0 = f.getD j 0 := by
        rw [List.getD_eq_getElem?_getD, List.getD_eq_getElem?_getD, List.getElem?_take,
          if_pos hjc]
      rw [← hgd]
      have hlt : j < (f.take (headerSize v + 40)).length := by
        rw [List.length_take]
        omega
      have hcrcne := crc32_flip_ne (f.take (headerSize v + 40)) j i hlt hi
      rw [getBe_set_outside _ _ _ _ _ (Or.inl hjc)]
      rw [← hc4]
      exact hcrcne
    · -- stored CRC word flipped
      unfold parseFooter
      rw [if_neg (by rw [hmagic']; intro hx; exact hx rfl),
        if_neg (by rw [hmatch']; intro hx; exact hx rfl)]
      rw [if_neg (by
        intro hx
        rcases hhash' with hv | hs | hs
        · exact hx.1 hv
        · exact hx.2.1 hs
        · exact hx.2.2 hs)]
      rw [if_pos]
      rw [take_set_outside _ _ _ _ (by omega)]
      rw [hc4]
      apply Ne.symm
      apply getBe4_set_flip_ne f (headerSize v + 40) j i hbytes (by omega) (by omega)
        (by omega) hi

theorem initReader_eq (file : List Nat) : initReader file =
    (if (probeOf file).length ≠ headerSize 2 + 1 then .error .ioErr
     else if (probeOf file).take 4 ≠ magicREFT then .error .formatErr
     else if versionOf file ≠ 1 ∧ versionOf file ≠ 2 then .error .formatErr
     else if (footerBytesOf file).length ≠ footerSize (versionOf file) then
       .error .ioErr
     else parseFooter (versionOf file) (rdrSizeOf file) (footerBytesOf file)
       (probeOf file)) := rfl

theorem take4_of_take_hs (v : Nat) (f h : List Nat)
    (hm : f.take (headerSize v) = h.take (headerSize v)) :
    f.take 4 = h.take 4 := by
  have h4 : min 4 (headerSize v) = 4 := by
    rcases headerSize_val v with h' | h' <;> omega
  calc f.take 4 = (f.take (headerSize v)).take 4 := by rw [List.take_take, h4]
    _ = (h.take (headerSize v)).take 4 := by rw [hm]
    _ = h.take 4 := by rw [List.take_take, h4]

/-- C4: reader construction returns a format error exactly when a validation
check fails (file magic, version byte, footer header copy, v2 hash id, or
footer CRC), an i/o error exactly when the probe read is short or — with
magic and version intact — the footer read is short; and flipping any single
bit of the footer bytes of a successfully opened table makes construction
fail with a format error. -/
theorem initReader_error_conditions (file : List Nat)
    (hbytes : ∀ b ∈ file, b < 256) :
    (initReader file = .error .ioErr ↔
      ((probeOf file).length ≠ headerSize 2 + 1 ∨
       ((probeOf file).length = headerSize 2 + 1 ∧
        (probeOf file).take 4 = magicREFT ∧
        (versionOf file = 1 ∨ versionOf file = 2) ∧
        (footerBytesOf file).length ≠ footerSize (versionOf file)))) ∧
    (initReader file = .error .formatErr ↔
      ((probeOf file).length = headerSize 2 + 1 ∧
       ((probeOf file).take 4 ≠ magicREFT ∨
        (versionOf file ≠ 1 ∧ versionOf file ≠ 2) ∨
        ((footerBytesOf file).length = footerSize (versionOf file) ∧
         ¬ footerChecksOk file)))) ∧
    (∀ r : Rdr, initReader file = .ok r →
      ∀ j i : Nat, j < footerSize (versionOf file) → i < 8 →
        parseFooter (versionOf file) (rdrSizeOf file)
          ((footerBytesOf file).set j ((footerBytesOf file).getD j 0 ^^^ 2 ^ i))
          (probeOf file) = .error .formatErr) := by
  rw [initReader_eq]
  by_cases c1 : (probeOf file).length ≠ headerSize 2 + 1
  · rw [if_pos c1]
    refine ⟨iff_of_true rfl (Or.inl c1), iff_of_false (by simp) (fun hx => c1 hx.1), ?_⟩
    intro r hr
    simp at hr
  · rw [if_neg c1]
    by_cases c2 : (probeOf file).take 4 ≠ magicREFT
    · rw [if_pos c2]
      refine ⟨iff_of_false (by simp) ?_, iff_of_true rfl ⟨not_not.mp c1, Or.inl c2⟩, ?_⟩
      · rintro (h | h)
        · exact c1 h
        · exact c2 h.2.1
      · intro r hr
        simp at hr
    · rw [if_neg c2]
      by_cases c3 : versionOf file ≠ 1 ∧ versionOf file ≠ 2
      · rw [if_pos c3]
        refine ⟨iff_of_false (by simp) ?_,
          iff_of_true rfl ⟨not_not.mp c1, Or.inr (Or.inl c3)⟩, ?_⟩
        · rintro (h | h)
          · exact c1 h
          · rcases h.2.2.1 with hv | hv
            · exact c3.1 hv
            · exact c3.2 hv
        · intro r hr
          simp at hr
      · rw [if_neg c3]
        have hv12 : versionOf file = 1 ∨ versionOf file = 2 := by
          by_cases hv : versionOf file = 1
          · exact Or.inl hv
          · by_cases hv2 : versionOf file = 2
            · exact Or.inr hv2
            · exact absurd ⟨hv, hv2⟩ c3
        by_cases c4 : (footerBytesOf file).length ≠ footerSize (versionOf file)
        · rw [if_pos c4]
          refine ⟨iff_of_true rfl (Or.inr ⟨not_not.mp c1, not_not.mp c2, hv12, c4⟩),
            iff_of_false (by simp) ?_, ?_⟩
          · rintro ⟨-, h | h | h⟩
            · exact c2 h
            · rcases hv12 with hv | hv
              · exact h.1 hv
              · exact h.2 hv
            · exact c4 h.1
          · intro r hr
            simp at hr
        · rw [if_neg c4]
          cases hp : parseFooter (versionOf file) (rdrSizeOf file)
              (footerBytesOf file) (probeOf file) with
          | ok r0 =>
            have hok := (parseFooter_ok_iff (versionOf file) (rdrSizeOf file)
              (footerBytesOf file) (probeOf file)).mp ⟨r0, hp⟩
            refine ⟨iff_of_false (by simp) ?_, iff_of_false (by simp) ?_, ?_⟩
            · rintro (h | h)
              · exact c1 h
              · exact c4 h.2.2.2
            · rintro ⟨-, h | h | h⟩
              · exact c2 h
              · rcases hv12 with hv | hv
                · exact h.1 hv
                · exact h.2 hv
              · exact h.2 ⟨hok.2.1, hok.2.2.1, hok.2.2.2⟩
            · intro r hr j i hj hi
              apply parseFooter_flip (versionOf file) (rdrSizeOf file)
                (footerBytesOf file) (probeOf file) r0 hp
              · intro b hb
                exact hbytes b (List.mem_of_mem_drop (List.mem_of_mem_take hb))
              · exact not_not.mp c4
              · exact hj
              · exact hi
          | error e =>
            have he := parseFooter_no_io _ _ _ _ _ hp
            subst he
            refine ⟨iff_of_false (by simp) ?_, iff_of_true rfl ?_, ?_⟩
            · rintro (h | h)
              · exact c1 h
              · exact c4 h.2.2.2
            · refine ⟨not_not.mp c1, Or.inr (Or.inr ⟨not_not.mp c4, ?_⟩)⟩
              intro hM
              have hmagicF : (footerBytesOf file).take 4 = magicREFT := by
                rw [take4_of_take_hs _ _ _ hM.1]
                have h4 : min 4 (headerSize (versionOf file)) = 4 := by
                  rcases headerSize_val (versionOf file) with h' | h' <;> omega
                calc (probeOf file).take 4
                    = ((probeOf file).take (headerSize (versionOf file))).take 4 := by
                      rw [List.take_take, h4]
                  _ = (probeOf file).take 4 := by rw [List.take_take, h4]
                  _ = magicREFT := not_not.mp c2
              have : ∃ r, parseFooter (versionOf file) (rdrSizeOf file)
                  (footerBytesOf file) (probeOf file) = .ok r :=
                (parseFooter_ok_iff _ _ _ _).mpr ⟨hmagicF, hM.1, hM.2.1, hM.2.2⟩
              obtain ⟨r, hr⟩ := this
              rw [hr] at hp
              simp at hp
            · intro r hr
              simp at hr

set_option maxRecDepth 40000 in
theorem c45Footer64_chunks : c45Footer64 = [82, 69, 70, 84, 1, 0, 0, 0, 0, 0, 0, 0, 0, 0, 0, 1, 0, 0, 0, 0, 0, 0, 0, 1, 0, 0, 0, 0, 0, 0, 0, 0] ++ [0, 0, 0, 0, 0, 0, 0, 0, 0, 0, 0, 0, 0, 0, 0, 0, 0, 0, 0, 0, 0, 0, 0, 0, 0, 0, 0, 0, 0, 0, 0, 0] := by decide

set_option maxRecDepth 40000 in
theorem c45Footer64_crc : crc32 c45Footer64 = 3253279548 := by
  unfold crc32 crcUpdate
  rw [c45Footer64_chunks, List.foldl_append]
  rw [show List.foldl crcByte 0xFFFFFFFF [82, 69, 70, 84, 1, 0, 0, 0, 0, 0, 0, 0, 0, 0, 0, 1, 0, 0, 0, 0, 0, 0, 0, 1, 0, 0, 0, 0, 0, 0, 0, 0] = 730877498 from by decide]
  rw [show List.foldl crcByte 730877498 [0, 0, 0, 0, 0, 0, 0, 0, 0, 0, 0, 0, 0, 0, 0, 0, 0, 0, 0, 0, 0, 0, 0, 0, 0, 0, 0, 0, 0, 0, 0, 0] = 1041687747 from by decide]
  decide

set_option maxRecDepth 40000 in
theorem c5_crc_check :
    crc32 (c45Footer.take (headerSize 1 + 40)) =
      getBe c45Footer (headerSize 1 + 40) 4 := by
  rw [show c45Footer.take (headerSize 1 + 40) = c45Footer64 from by decide,
    c45Footer64_crc]
  decide

set_option maxRecDepth 40000 in
theorem c5_parse : parseFooter 1 29 c45Footer c5Probe = .ok c5Rdr := by
  unfold parseFooter
  rw [if_neg (by decide), if_neg (by decide), if_neg (by decide)]
  rw [if_neg (by
    intro hx
    exact hx c5_crc_check)]
  rfl

set_option maxRecDepth 40000 in
theorem c5_initReader : initReader c5File = .ok c5Rdr := by
  rw [initReader_eq]
  rw [if_neg (by decide), if_neg (by decide), if_neg (by decide), if_neg (by decide)]
  rw [show versionOf c5File = 1 from by decide,
    show rdrSizeOf c5File = 29 from by decide,
    show footerBytesOf c5File = c45Footer from by decide,
    show probeOf c5File = c5Probe from by decide]
  exact c5_parse

/-- Counterexample to C5 as stated: `c5File` opens successfully, its first
block's type byte is the obj tag while the footer's obj offset is zero, yet
the obj section is marked absent — presence for the obj section ignores the
first block's type. -/
theorem c5_obj_presence_counterexample :
    initReader c5File = .ok c5Rdr ∧
    c5File.getD (headerSize 1) 0 = tagObj ∧
    c5Rdr.objOff = 0 ∧
    c5Rdr.objPresent = false :=
  ⟨c5_initReader, by decide, rfl, rfl⟩

/-- C5 (amended): for every opened table, the ref section is present iff the
first block's type byte is the ref tag; the log section iff that byte is the
log tag or the log offset is nonzero; the obj section iff the obj offset is
nonzero (the first block's type is not consulted); and every seek targeting
an absent section yields the empty iterator with success, whose `next`
reports end of iteration without error. -/
theorem section_presence_and_empty_seek (v size : Nat) (f h : List Nat) (r : Rdr)
    (hok : parseFooter v size f h = .ok r) :
    ((r.refPresent = true ↔ h.getD (headerSize v) 0 = tagRef) ∧
     (r.objPresent = true ↔ r.objOff ≠ 0) ∧
     (r.logPresent = true ↔ (h.getD (headerSize v) 0 = tagLog ∨ r.logOff ≠ 0))) ∧
    (∀ (s : RSection) (want : Key), s.present = false →
      readerSeek s want = .ok .empty ∧ seekResultNextRec .empty = none) := by
  constructor
  · unfold parseFooter at hok
    split_ifs at hok
    all_goals injection hok with h'
    all_goals subst h'
    all_goals
      exact ⟨by simp, by simp [Nat.pos_iff_ne_zero], by simp [Nat.pos_iff_ne_zero]⟩
  · intro s want hs
    refine ⟨?_, rfl⟩
    unfold readerSeek
    rw [hs]
    simp

/-- Witness for the amended C5 at the concrete table `c5File`. -/
theorem section_presence_and_empty_seek_witness :
    parseFooter 1 29 c45Footer c5Probe = .ok c5Rdr ∧
    (((c5Rdr.refPresent = true ↔ c5Probe.getD (headerSize 1) 0 = tagRef) ∧
      (c5Rdr.objPresent = true ↔ c5Rdr.objOff ≠ 0) ∧
      (c5Rdr.logPresent = true ↔
        (c5Probe.getD (headerSize 1) 0 = tagLog ∨ c5Rdr.logOff ≠ 0))) ∧
     (∀ (s : RSection) (want : Key), s.present = false →
       readerSeek s want = .ok .empty ∧ seekResultNextRec .empty = none)) :=
  ⟨c5_parse, section_presence_and_empty_seek 1 29 c45Footer c5Probe c5Rdr c5_parse⟩

/-- Witness for C4 at the concrete table `c4File`. -/
theorem initReader_error_conditions_witness :
    (∀ b ∈ c4File, b < 256) ∧
    ((initReader c4File = .error .ioErr ↔
       ((probeOf c4File).length ≠ headerSize 2 + 1 ∨
        ((probeOf c4File).length = headerSize 2 + 1 ∧
         (probeOf c4File).take 4 = magicREFT ∧
         (versionOf c4File = 1 ∨ versionOf c4File = 2) ∧
         (footerBytesOf c4File).length ≠ footerSize (versionOf c4File)))) ∧
     (initReader c4File = .error .formatErr ↔
       ((probeOf c4File).length = headerSize 2 + 1 ∧
        ((probeOf c4File).take 4 ≠ magicREFT ∨
         (versionOf c4File ≠ 1 ∧ versionOf c4File ≠ 2) ∨
         ((footerBytesOf c4File).length = footerSize (versionOf c4File) ∧
          ¬ footerChecksOk c4File)))) ∧
     (∀ r : Rdr, initReader c4File = .ok r →
       ∀ j i : Nat, j < footerSize (versionOf c4File) → i < 8 →
         parseFooter (versionOf c4File) (rdrSizeOf c4File)
           ((footerBytesOf c4File).set j
             ((footerBytesOf c4File).getD j 0 ^^^ 2 ^ i))
           (probeOf c4File) = .error .formatErr)) :=
  ⟨by decide, initReader_error_conditions c4File (by decide)⟩

theorem key_append_lt_append (p a b : List Nat) : p ++ a < p ++ b ↔ a < b := by
  induction p with
  | nil => exact Iff.rfl
  | cons x t ih =>
    rw [List.cons_append, List.cons_append]
    exact List.Lex.cons_iff.trans ih

theorem lex_cons_cases (a b : Nat) (l m : List Nat) (h : a :: l < b :: m) :
    a < b ∨ (a = b ∧ l < m) := by
  cases h with
  | cons h => exact Or.inr ⟨rfl, h⟩
  | rel h => exact Or.inl h

theorem beBytes_lt (n : Nat) : ∀ x y : Nat, x < 256 ^ n → y < 256 ^ n →
    (beBytes n x < beBytes n y ↔ x < y) := by
  induction n with
  | zero =>
    intro x y hx hy
    simp only [pow_zero, Nat.lt_one_iff] at hx hy
    subst hx; subst hy
    simp only [beBytes]
    exact ⟨fun h => absurd h (List.Lex.not_nil_right _ _), fun h => absurd h (by omega)⟩
  | succ n ih =>
    intro x y hx hy
    simp only [beBytes]
    have hxd := Nat.div_add_mod x (256 ^ n)
    have hyd := Nat.div_add_mod y (256 ^ n)
    have hxm : x % 256 ^ n < 256 ^ n := Nat.mod_lt _ (Nat.pos_pow_of_pos n (by omega))
    have hym : y % 256 ^ n < 256 ^ n := Nat.mod_lt _ (Nat.pos_pow_of_pos n (by omega))
    rcases lt_trichotomy (x / 256 ^ n) (y / 256 ^ n) with hq | hq | hq
    · have h2 : 256 ^ n * (x / 256 ^ n) + 256 ^ n ≤ 256 ^ n * (y / 256 ^ n) := by
        have h3 := Nat.mul_le_mul_left (256 ^ n) (Nat.succ_le_of_lt hq)
        rw [Nat.mul_succ] at h3
        exact h3
      constructor
      · intro _
        omega
      · intro _
        exact List.Lex.rel hq
    · rw [hq]
      have hcons :
          (y / 256 ^ n :: beBytes n (x % 256 ^ n) <
            y / 256 ^ n :: beBytes n (y % 256 ^ n)) ↔
          beBytes n (x % 256 ^ n) < beBytes n (y % 256 ^ n) := List.Lex.cons_iff
      rw [hcons, ih _ _ hxm hym]
      have hbd : 256 ^ n * (x / 256 ^ n) = 256 ^ n * (y / 256 ^ n) := by rw [hq]
      omega
    · have h2 : 256 ^ n * (y / 256 ^ n) + 256 ^ n ≤ 256 ^ n * (x / 256 ^ n) := by
        have h3 := Nat.mul_le_mul_left (256 ^ n) (Nat.succ_le_of_lt hq)
        rw [Nat.mul_succ] at h3
        exact h3
      constructor
      · intro h
        rcases lex_cons_cases _ _ _ _ h with h1 | ⟨h1, _⟩ <;> omega
      · intro h
        exact absurd h (by omega)

theorem pow256_8 : 256 ^ 8 = u64Mod := by norm_num [u64Mod]

theorem logKey_lt_same (name : List Nat) (u1 u2 : Nat)
    (h1 : u1 < u64Mod) (h2 : u2 < u64Mod) :
    logKey name u1 < logKey name u2 ↔ u2 < u1 := by
  unfold logKey
  rw [key_append_lt_append]
  have hcons : (0 :: beBytes 8 (u64Max - u1) < 0 :: beBytes 8 (u64Max - u2)) ↔
      beBytes 8 (u64Max - u1) < beBytes 8 (u64Max - u2) := List.Lex.cons_iff
  rw [hcons, beBytes_lt 8 _ _ (by rw [pow256_8]; unfold u64Max; omega)
    (by rw [pow256_8]; unfold u64Max; omega)]
  unfold u64Max
  omega

theorem logKey_le_same (name : List Nat) (u1 u2 : Nat)
    (h1 : u1 < u64Mod) (h2 : u2 < u64Mod) :
    logKey name u1 ≤ logKey name u2 ↔ u2 ≤ u1 := by
  rw [← not_lt, logKey_lt_same name u2 u1 h2 h1, not_lt]

theorem logKey_lt_of_name_lt (n1 n2 : List Nat) (u1 u2 : Nat)
    (hz : 0 ∉ n2) (hlt : n1 < n2) : logKey n1 u1 < logKey n2 u2 := by
  induction n1 generalizing n2 with
  | nil =>
    cases n2 with
    | nil => exact absurd hlt (List.Lex.not_nil_right _ _)
    | cons b t2 =>
      have hb : b ≠ 0 := fun h => hz (by simp [h])
      simp only [logKey, List.nil_append, List.cons_append]
      exact List.Lex.rel (Nat.pos_of_ne_zero hb)
  | cons a t1 ih =>
    cases n2 with
    | nil => exact absurd hlt (List.Lex.not_nil_right _ _)
    | cons b t2 =>
      simp only [logKey, List.cons_append]
      rcases lex_cons_cases _ _ _ _ hlt with h | ⟨he, h⟩
      · exact List.Lex.rel h
      · subst he
        exact List.Lex.cons (by
          simpa only [logKey] using
            ih t2 (fun hm => hz (List.mem_cons_of_mem _ hm)) h)

theorem mem_dropWhile_not (l : List Rec) (p : Rec → Bool) (x : Rec)
    (hx : x ∈ l) (hpx : p x = false) : x ∈ l.dropWhile p := by
  have hsplit := List.takeWhile_append_dropWhile p l
  rw [← hsplit] at hx
  rcases List.mem_append.mp hx with htw | hdw
  · exact absurd (List.mem_takeWhile_imp htw) (by rw [hpx]; exact Bool.false_ne_true)
  · exact hdw

theorem mergedRun_head (streams : List (List Rec)) :
    (mergedRun false streams).head? = (pickTop 0 streams).map Prod.fst := by
  unfold mergedRun
  cases hp : pickTop 0 streams with
  | none =>
    have h1 : mergedNext false streams = none := by
      rw [mergedNext_false]
      exact (mergedNextEntry_eq_none_iff streams).mpr hp
    rw [mergedRunF_succ_none _ _ _ h1]
    rfl
  | some rj =>
    obtain ⟨r, j⟩ := rj
    have h1 : mergedNext false streams =
        some (r, dropShadowed r.key (streams.set j ((streams.getD j []).tail))) := by
      rw [mergedNext_false]
      unfold mergedNextEntry
      rw [hp]
    rw [mergedRunF_succ_some _ _ _ _ _ h1]
    rfl

theorem mergedSeekRecord_stream (secs : List RSection) (want : Key)
    (h : ∀ sec ∈ secs, sec.present = true ∧ WfBlocks sec.blocks ∧
      sec.blocks ≠ [] ∧ WfIndex sec.blocks sec.levels) :
    ∃ results, mergedSeekRecord secs want = .ok results ∧
      results.map seekResultStream = secs.map
        (fun sec => sec.blocks.flatten.dropWhile (fun r => decide (r.key < want))) := by
  induction secs with
  | nil => exact ⟨[], rfl, rfl⟩
  | cons sec t ih =>
    obtain ⟨hp, hwf, hnil, hidx⟩ := h sec (by simp)
    obtain ⟨res, hsk, hstr⟩ := readerSeek_stream sec want hp hwf hnil hidx
    obtain ⟨results, hrec, hmap⟩ := ih (fun s2 hs => h s2 (by simp [hs]))
    refine ⟨res :: results, ?_, ?_⟩
    · unfold mergedSeekRecord
      simp only [hsk, hrec]
    · simp [hmap, hstr]

theorem log_min_name_upd (name : List Nat) (u : Nat) (hu : u < u64Mod)
    (hname : 0 ∉ name) (r₀ : Rec)
    (h₀key : r₀.key = logKey r₀.name r₀.upd) (h₀u : r₀.upd < u64Mod)
    (h₀z : 0 ∉ r₀.name) (hge : logKey name u ≤ r₀.key)
    (w : Rec) (hwkey : w.key = logKey w.name w.upd) (hwu64 : w.upd < u64Mod)
    (hwn : w.name = name) (hwu : w.upd ≤ u) (hminw : r₀.key ≤ w.key) :
    r₀.name = name ∧ r₀.upd ≤ u := by
  have hr₀name : r₀.name = name := by
    rcases lt_trichotomy r₀.name name with hlt | heq | hgt
    · have hk : r₀.key < logKey name u := by
        rw [h₀key]
        exact logKey_lt_of_name_lt _ _ _ _ hname hlt
      exact absurd hge (not_le.mpr hk)
    · exact heq
    · have hk1 : w.key < r₀.key := by
        rw [hwkey, h₀key, hwn]
        exact logKey_lt_of_name_lt _ _ _ _ h₀z hgt
      exact absurd hk1 (not_lt.mpr hminw)
  refine ⟨hr₀name, ?_⟩
  have hge2 := hge
  rw [h₀key, hr₀name] at hge2
  exact (logKey_le_same name u r₀.upd hu h₀u).mp hge2

theorem logStream_newest (name : List Nat) (u : Nat) (hu : u < u64Mod)
    (hname : 0 ∉ name) (flat : List Rec) (hsort : flat.Pairwise recLt)
    (hlog : LogRecords flat) (w : Rec) (hw : w ∈ flat) (hwn : w.name = name)
    (hwu : w.upd ≤ u) :
    ∃ r₀, (flat.dropWhile (fun r => decide (r.key < logKey name u))).head? = some r₀ ∧
      r₀ ∈ flat ∧ r₀.name = name ∧ r₀.upd ≤ u ∧
      ∀ r ∈ flat, r.name = name → r.upd ≤ u → r.upd ≤ r₀.upd := by
  obtain ⟨-, hwkey, hwu64, -⟩ := hlog w hw
  have hwge : logKey name u ≤ w.key := by
    rw [hwkey, hwn]
    exact (logKey_le_same name u w.upd hu hwu64).mpr hwu
  have hfind := find?_min_of_pairwise flat (logKey name u) hsort
  cases hfe : flat.find? (fun r => decide (logKey name u ≤ r.key)) with
  | none =>
    rw [hfe] at hfind
    exact absurd (hfind w hw) (not_lt.mpr hwge)
  | some r₀ =>
    rw [hfe] at hfind
    obtain ⟨hr₀mem, hr₀ge, hr₀min⟩ := hfind
    obtain ⟨-, hr₀key, hr₀u64, hr₀zf⟩ := hlog r₀ hr₀mem
    obtain ⟨hr₀name, hr₀u⟩ := log_min_name_upd name u hu hname r₀ hr₀key hr₀u64
      hr₀zf hr₀ge w hwkey hwu64 hwn hwu (hr₀min w hw hwge)
    refine ⟨r₀, ?_, hr₀mem, hr₀name, hr₀u, ?_⟩
    · rw [← find?_ge_eq_head_dropWhile, hfe]
    · intro r hr hrn hru
      obtain ⟨-, hrkey, hru64, -⟩ := hlog r hr
      have hge : logKey name u ≤ r.key := by
        rw [hrkey, hrn]
        exact (logKey_le_same name u r.upd hu hru64).mpr hru
      have hmin := hr₀min r hr hge
      rw [hr₀key, hr₀name, hrkey, hrn] at hmin
      exact (logKey_le_same name r₀.upd r.upd hr₀u64 hru64).mp hmin

theorem merged_logStreams_newest (name : List Nat) (u : Nat) (hu : u < u64Mod)
    (hname : 0 ∉ name) (flats : List (List Rec))
    (hsort : ∀ f ∈ flats, f.Pairwise recLt)
    (hlog : ∀ f ∈ flats, LogRecords f)
    (w : Rec) (fw : List Rec) (hfw : fw ∈ flats) (hw : w ∈ fw)
    (hwn : w.name = name) (hwu : w.upd ≤ u) :
    ∃ r₀,
      (mergedRun false (flats.map
        (fun f => f.dropWhile (fun r => decide (r.key < logKey name u))))).head? =
        some r₀ ∧
      r₀.name = name ∧ r₀.upd ≤ u ∧
      ∀ f ∈ flats, ∀ r ∈ f, r.name = name → r.upd ≤ u → r.upd ≤ r₀.upd := by
  obtain ⟨-, hwkey, hwu64, -⟩ := hlog fw hfw w hw
  have hwge : logKey name u ≤ w.key := by
    rw [hwkey, hwn]
    exact (logKey_le_same name u w.upd hu hwu64).mpr hwu
  have hwdw : w ∈ fw.dropWhile (fun r => decide (r.key < logKey name u)) :=
    mem_dropWhile_not _ _ _ hw
      (by rw [decide_eq_false_iff_not]; exact not_lt.mpr hwge)
  have hne : pickTop 0 (flats.map
      (fun f => f.dropWhile (fun r => decide (r.key < logKey name u)))) ≠ none := by
    intro hnone
    have hall := (pickTop_eq_none_iff 0 _).mp hnone
    have hz : fw.dropWhile (fun r => decide (r.key < logKey name u)) = [] :=
      hall _ (List.mem_map_of_mem _ hfw)
    rw [hz] at hwdw
    cases hwdw
  obtain ⟨⟨r₀, j₀⟩, hp0⟩ : ∃ rj, pickTop 0 (flats.map
      (fun f => f.dropWhile (fun r => decide (r.key < logKey name u)))) = some rj := by
    cases hx : pickTop 0 (flats.map
        (fun f => f.dropWhile (fun r => decide (r.key < logKey name u)))) with
    | none => exact absurd hx hne
    | some rj => exact ⟨rj, rfl⟩
  have hhead : (mergedRun false (flats.map
      (fun f => f.dropWhile (fun r => decide (r.key < logKey name u))))).head? =
      some r₀ := by
    rw [mergedRun_head, hp0]
    rfl
  obtain ⟨k, t, -, hks⟩ := pickTop_mem 0 _ r₀ j₀ hp0
  obtain ⟨fk, hfk2, hfkdw⟩ : ∃ fk, flats[k]? = some fk ∧
      fk.dropWhile (fun r => decide (r.key < logKey name u)) = r₀ :: t := by
    rw [List.getElem?_map] at hks
    cases hx : flats[k]? with
    | none => rw [hx] at hks; cases hks
    | some fk =>
      rw [hx] at hks
      exact ⟨fk, rfl, by simpa using hks⟩
  have hfkmem : fk ∈ flats := List.getElem?_mem hfk2
  have hr₀dwmem : r₀ ∈ fk.dropWhile (fun r => decide (r.key < logKey name u)) := by
    rw [hfkdw]
    exact List.mem_cons_self _ _
  have hr₀mem : r₀ ∈ fk := (List.dropWhile_sublist _).mem hr₀dwmem
  obtain ⟨-, hr₀key, hr₀u64, hr₀zf⟩ := hlog fk hfkmem r₀ hr₀mem
  have hr₀ge : logKey name u ≤ r₀.key := by
    have h2 : (fk.dropWhile (fun r => decide (r.key < logKey name u))).head? =
        some r₀ := by
      rw [hfkdw]
      rfl
    have h3 := (head_dropWhile_pos fk _ r₀ h2).2
    rw [decide_eq_false_iff_not] at h3
    exact le_of_not_lt h3
  have hminkey : ∀ f ∈ flats, ∀ r ∈ f, logKey name u ≤ r.key → r₀.key ≤ r.key := by
    intro f hf r hr hge
    have hrdw : r ∈ f.dropWhile (fun x => decide (x.key < logKey name u)) :=
      mem_dropWhile_not _ _ _ hr
        (by rw [decide_eq_false_iff_not]; exact not_lt.mpr hge)
    obtain ⟨i2, hi2, hfi2⟩ := List.getElem_of_mem hf
    have hsi2 : (flats.map
        (fun f => f.dropWhile (fun r => decide (r.key < logKey name u))))[i2]? =
        some (f.dropWhile (fun x => decide (x.key < logKey name u))) := by
      rw [List.getElem?_map, List.getElem?_eq_getElem hi2, hfi2]
      rfl
    cases hsd : f.dropWhile (fun x => decide (x.key < logKey name u)) with
    | nil =>
      rw [hsd] at hrdw
      cases hrdw
    | cons rh rt =>
      have h1 : r₀.key ≤ rh.key :=
        pickTop_min_key _ 0 r₀ j₀ hp0 i2 rh rt (by rw [hsi2, hsd])
      have hs2 : (rh :: rt).Pairwise recLt := by
        rw [← hsd]
        exact List.Pairwise.sublist (List.dropWhile_sublist _) (hsort f hf)
      exact le_trans h1 (head_key_min (rh :: rt) hs2 r (hsd ▸ hrdw) rh rfl)
  obtain ⟨hr₀name, hr₀u⟩ := log_min_name_upd name u hu hname r₀ hr₀key hr₀u64 hr₀zf
    hr₀ge w hwkey hwu64 hwn hwu (hminkey fw hfw w hw hwge)
  refine ⟨r₀, hhead, hr₀name, hr₀u, ?_⟩
  intro f hf r hr hrn hru
  obtain ⟨-, hrkey, hru64, -⟩ := hlog f hf r hr
  have hge : logKey name u ≤ r.key := by
    rw [hrkey, hrn]
    exact (logKey_le_same name u r.upd hu hru64).mpr hru
  have hmin := hminkey f hf r hr hge
  rw [hr₀key, hr₀name, hrkey, hrn] at hmin
  exact (logKey_le_same name r₀.upd r.upd hr₀u64 hru64).mp hmin

/-- C6: `seek_log(name)` is definitionally `seek_log_at(name, 2^64 - 1)`, on
a single reader and on a merged table alike; on a well-formed log section —
indexed or not — `seek_log_at(name, u)` positions the iterator so that,
whenever some entry for `name` with update index `≤ u` exists, the first
record returned is the entry for `name` with the largest update index
`≤ u`; and the merged iterator over a seeked stack returns first the entry
for `name` with the largest update index `≤ u` across the whole stack.
With `u = 2^64 - 1` that is the newest entry for `name`. -/
theorem seek_log_equiv_and_newest_first (s : RSection) (secs : List RSection)
    (name : List Nat) (u : Nat) (hu : u < u64Mod) (hname : 0 ∉ name)
    (hp : s.present = true) (hwf : WfBlocks s.blocks) (hnil : s.blocks ≠ [])
    (hidx : WfIndex s.blocks s.levels) (hlog : LogRecords s.blocks.flatten)
    (hsecs : ∀ sec ∈ secs, sec.present = true ∧ WfBlocks sec.blocks ∧
      sec.blocks ≠ [] ∧ WfIndex sec.blocks sec.levels ∧
      LogRecords sec.blocks.flatten) :
    (∀ (t : RSection) (n : List Nat),
      readerSeekLog t n = readerSeekLogAt t n u64Max) ∧
    (∀ (ss : List RSection) (n : List Nat),
      mergedSeekLog ss n = mergedSeekLogAt ss n u64Max) ∧
    (∃ res, readerSeekLogAt s name u = .ok res ∧
      ∀ w ∈ s.blocks.flatten, w.name = name → w.upd ≤ u →
        ∃ r₀, seekResultNextRec res = some r₀ ∧
          r₀ ∈ s.blocks.flatten ∧ r₀.name = name ∧ r₀.upd ≤ u ∧
          ∀ r ∈ s.blocks.flatten, r.name = name → r.upd ≤ u → r.upd ≤ r₀.upd) ∧
    (∃ results, mergedSeekLogAt secs name u = .ok results ∧
      ∀ sec ∈ secs, ∀ w ∈ sec.blocks.flatten, w.name = name → w.upd ≤ u →
        ∃ r₀, (mergedRun false (results.map seekResultStream)).head? = some r₀ ∧
          r₀.name = name ∧ r₀.upd ≤ u ∧
          ∀ sec2 ∈ secs, ∀ r ∈ sec2.blocks.flatten, r.name = name → r.upd ≤ u →
            r.upd ≤ r₀.upd) := by
  refine ⟨fun _ _ => rfl, fun _ _ => rfl, ?_, ?_⟩
  · obtain ⟨res, hsk, hstr⟩ := readerSeek_stream s (logKey name u) hp hwf hnil hidx
    refine ⟨res, hsk, ?_⟩
    intro w hw hwn hwu
    obtain ⟨r₀, hhead, hmem, hrn, hru, hmax⟩ :=
      logStream_newest name u hu hname s.blocks.flatten hwf.2 hlog w hw hwn hwu
    refine ⟨r₀, ?_, hmem, hrn, hru, hmax⟩
    rw [seekResultNextRec_eq_head, hstr]
    exact hhead
  · obtain ⟨results, hrec, hmap⟩ := mergedSeekRecord_stream secs (logKey name u)
      (fun sec hs => ⟨(hsecs sec hs).1, (hsecs sec hs).2.1, (hsecs sec hs).2.2.1,
        (hsecs sec hs).2.2.2.1⟩)
    refine ⟨results, hrec, ?_⟩
    intro sec hsec w hw hwn hwu
    have hmap2 : results.map seekResultStream =
        (secs.map (fun sec => sec.blocks.flatten)).map
          (fun f => f.dropWhile (fun r => decide (r.key < logKey name u))) := by
      rw [hmap, List.map_map]
      rfl
    obtain ⟨r₀, hhead, hrn, hru, hmax⟩ := merged_logStreams_newest name u hu hname
      (secs.map (fun sec => sec.blocks.flatten))
      (fun f hf => by
        obtain ⟨sec2, hs2, rfl⟩ := List.mem_map.mp hf
        exact (hsecs sec2 hs2).2.1.2)
      (fun f hf => by
        obtain ⟨sec2, hs2, rfl⟩ := List.mem_map.mp hf
        exact (hsecs sec2 hs2).2.2.2.2)
      w sec.blocks.flatten (List.mem_map_of_mem _ hsec) hw hwn hwu
    refine ⟨r₀, ?_, hrn, hru, ?_⟩
    · rw [hmap2]
      exact hhead
    · intro sec2 hs2 r hr hrn2 hru2
      exact hmax sec2.blocks.flatten (List.mem_map_of_mem _ hs2) r hr hrn2 hru2

/-- Witness for C6 at the concrete log section `c6Sec` (also as a one-table
merged stack), name `[97]`, update index bound 3. -/
theorem seek_log_equiv_and_newest_first_witness :
    (3 < u64Mod ∧ (0 : Nat) ∉ ([97] : List Nat) ∧ c6Sec.present = true ∧
      WfBlocks c6Sec.blocks ∧ c6Sec.blocks ≠ [] ∧
      WfIndex c6Sec.blocks c6Sec.levels ∧ LogRecords c6Sec.blocks.flatten ∧
      (∀ sec ∈ [c6Sec], sec.present = true ∧ WfBlocks sec.blocks ∧
        sec.blocks ≠ [] ∧ WfIndex sec.blocks sec.levels ∧
        LogRecords sec.blocks.flatten)) ∧
    ((∀ (t : RSection) (n : List Nat),
       readerSeekLog t n = readerSeekLogAt t n u64Max) ∧
     (∀ (ss : List RSection) (n : List Nat),
       mergedSeekLog ss n = mergedSeekLogAt ss n u64Max) ∧
     (∃ res, readerSeekLogAt c6Sec [97] 3 = .ok res ∧
       ∀ w ∈ c6Sec.blocks.flatten, w.name = [97] → w.upd ≤ 3 →
         ∃ r₀, seekResultNextRec res = some r₀ ∧
           r₀ ∈ c6Sec.blocks.flatten ∧ r₀.name = [97] ∧ r₀.upd ≤ 3 ∧
           ∀ r ∈ c6Sec.blocks.flatten, r.name = [97] → r.upd ≤ 3 →
             r.upd ≤ r₀.upd) ∧
     (∃ results, mergedSeekLogAt [c6Sec] [97] 3 = .ok results ∧
       ∀ sec ∈ [c6Sec], ∀ w ∈ sec.blocks.flatten, w.name = [97] → w.upd ≤ 3 →
         ∃ r₀, (mergedRun false (results.map seekResultStream)).head? = some r₀ ∧
           r₀.name = [97] ∧ r₀.upd ≤ 3 ∧
           ∀ sec2 ∈ [c6Sec], ∀ r ∈ sec2.blocks.flatten, r.name = [97] →
             r.upd ≤ 3 → r.upd ≤ r₀.upd)) :=
  ⟨⟨by decide, by decide, rfl, by decide, by decide, by decide, by decide, by decide⟩,
    seek_log_equiv_and_newest_first c6Sec [c6Sec] [97] 3 (by decide) (by decide)
      rfl (by decide) (by decide) (by decide) (by decide) (by decide)⟩

theorem seekIndexedLevels_ne_empty (want : Key) (blocks : List (List Rec)) :
    ∀ (rest : List (List (List Rec))) (e : Rec),
      seekIndexedLevels want blocks e rest ≠ .ok .empty := by
  intro rest
  induction rest with
  | nil =>
    intro e h
    unfold seekIndexedLevels at h
    cases hx : blocks[e.val]? with
    | none =>
      rw [hx] at h
      cases h
    | some b =>
      rw [hx] at h
      injection h with h2
      cases h2
  | cons lvl r ih =>
    intro e h
    unfold seekIndexedLevels at h
    cases hx : lvl[e.val]? with
    | none =>
      rw [hx] at h
      cases h
    | some b =>
      simp only [hx] at h
      cases hn : tableIterNextRec (blockIterSeek want b) (lvl.drop (e.val + 1)) with
      | none =>
        rw [hn] at h
        injection h with h2
        cases h2
      | some e2 =>
        rw [hn] at h
        exact ih e2 h

theorem readerSeekInternal_ne_empty (s : RSection) (want : Key) :
    readerSeekInternal s want ≠ .ok .empty := by
  intro h
  unfold readerSeekInternal at h
  split at h
  · split at h
    · cases h
    · split at h
      · injection h with h2
        cases h2
      · exact seekIndexedLevels_ne_empty want s.blocks _ _ h
  · split at h
    · cases h
    · injection h with h2
      cases h2

/-- Counterexample to C10 as stated: `c10xTable` has a present obj section
whose obj index holds no entry at or past the searched prefix, so the
indexed obj seek overshoots; `refs_for` then returns the positive code 1
and never sets the output — in particular the output is not the empty
iterator and the return is not 0. -/
theorem refs_for_indexed_overshoot_counterexample :
    c10xTable.objSec.present = true ∧
    (∀ r ∈ c10xTable.objSec.blocks.flatten,
      r.key.take c10xTable.objectIdLen ≠
        ([9, 9, 9] : List Nat).take c10xTable.objectIdLen) ∧
    refsFor c10xTable [9, 9, 9] = .ok none ∧
    refsFor c10xTable [9, 9, 9] ≠ .ok (some RefsIter.empty) :=
  ⟨rfl, by decide, rfl,
    fun h => Option.noConfusion (Except.ok.inj h)⟩

/-- C10 (amended): `refs_for` takes the indexed path exactly when the obj
section is present, and the unindexed fallback returns a filtering iterator
with `double_check` disabled; on a well-formed present obj section whose
records all store a different hash prefix, the indexed path either sets the
output to the empty iterator and returns success — always, when the obj
section carries no index — or, when the seek of an obj index overshoots
(every obj key lies below the wanted prefix), returns the positive code 1
with the output unset; in no case does it return an error. -/
theorem refs_for_routing_and_miss (t : RdTable) (oid : List Nat)
    (hp : t.objSec.present = true) (hwf : WfBlocks t.objSec.blocks)
    (hnil : t.objSec.blocks ≠ [])
    (hidx : WfIndex t.objSec.blocks t.objSec.levels)
    (hmiss : ∀ r ∈ t.objSec.blocks.flatten,
      r.key.take t.objectIdLen ≠ oid.take t.objectIdLen) :
    ((refsFor t oid = .ok (some .empty) ∨ refsFor t oid = .ok none) ∧
     (refsFor t oid = .ok none →
       ∀ r ∈ t.objSec.blocks.flatten, r.key < oid.take t.objectIdLen) ∧
     (t.objSec.levels = [] → refsFor t oid = .ok (some .empty))) ∧
    (∀ (t₂ : RdTable) (o₂ : List Nat), refsFor t₂ o₂ =
      if t₂.objSec.present then refsForIndexed t₂ o₂
      else refsForUnindexed t₂ o₂) ∧
    (∀ (t₂ : RdTable) (o₂ : List Nat), t₂.objSec.present = false →
      ∃ bs, refsFor t₂ o₂ = .ok (some (.filtered o₂ false bs))) := by
  refine ⟨?_, fun _ _ => rfl, ?_⟩
  · obtain ⟨res, hsk, hstr⟩ :=
      readerSeek_stream t.objSec (oid.take t.objectIdLen) hp hwf hnil hidx
    have hski : readerSeekInternal t.objSec (oid.take t.objectIdLen) = .ok res := by
      unfold readerSeek at hsk
      rw [hp] at hsk
      simpa using hsk
    have hroute : refsFor t oid = refsForIndexed t oid := by
      unfold refsFor
      rw [hp, if_pos rfl]
    have hnext : seekResultNextRec res =
        t.objSec.blocks.flatten.find?
          (fun r => decide (oid.take t.objectIdLen ≤ r.key)) := by
      rw [seekResultNextRec_eq_head, hstr, ← find?_ge_eq_head_dropWhile]
    cases res with
    | empty => exact absurd hski (readerSeekInternal_ne_empty _ _)
    | eof =>
      have hall : ∀ r ∈ t.objSec.blocks.flatten, r.key < oid.take t.objectIdLen := by
        intro r hr
        have hz : t.objSec.blocks.flatten.dropWhile
            (fun r => decide (r.key < oid.take t.objectIdLen)) = [] := hstr.symm
        simpa using List.dropWhile_eq_nil_iff.mp hz r hr
      have hval : refsFor t oid = .ok none := by
        rw [hroute]
        unfold refsForIndexed
        simp only [hsk]
      refine ⟨Or.inr hval, fun _ => hall, ?_⟩
      intro hlv0
      unfold readerSeekInternal at hski
      rw [hlv0] at hski
      cases hx : readerSeekLinear (oid.take t.objectIdLen) t.objSec.blocks with
      | error e =>
        rw [hx] at hski
        cases hski
      | ok cr =>
        obtain ⟨cur, crest⟩ := cr
        rw [hx] at hski
        injection hski with h2
        cases h2
    | iter cur rest =>
      have hval : refsFor t oid = .ok (some .empty) := by
        rw [hroute]
        unfold refsForIndexed
        simp only [hsk]
        cases hfe : t.objSec.blocks.flatten.find?
            (fun r => decide (oid.take t.objectIdLen ≤ r.key)) with
        | none =>
          rw [hnext, hfe]
        | some got =>
          rw [hnext, hfe]
          have hmem : got ∈ t.objSec.blocks.flatten := List.mem_of_find?_eq_some hfe
          simp [hmiss got hmem]
      refine ⟨Or.inl hval, ?_, fun _ => hval⟩
      intro hcon
      rw [hval] at hcon
      exact absurd (Except.ok.inj hcon) (fun h => Option.noConfusion h)
  · intro t₂ o₂ hnp
    have hroute : refsFor t₂ o₂ = refsForUnindexed t₂ o₂ := by
      unfold refsFor
      rw [hnp]
      rfl
    rw [hroute]
    unfold refsForUnindexed readerStart
    cases t₂.refSec.blocks with
    | nil => exact ⟨[[]], rfl⟩
    | cons b rest => exact ⟨b :: rest, rfl⟩

/-- Witness for the amended C10 at `c10Table` (index-free obj section) and
oid `[9, 9, 9]`. -/
theorem refs_for_routing_and_miss_witness :
    (c10Table.objSec.present = true ∧ WfBlocks c10Table.objSec.blocks ∧
      c10Table.objSec.blocks ≠ [] ∧
      WfIndex c10Table.objSec.blocks c10Table.objSec.levels ∧
      (∀ r ∈ c10Table.objSec.blocks.flatten,
        r.key.take c10Table.objectIdLen ≠
          ([9, 9, 9] : List Nat).take c10Table.objectIdLen)) ∧
    (((refsFor c10Table [9, 9, 9] = .ok (some .empty) ∨
       refsFor c10Table [9, 9, 9] = .ok none) ∧
      (refsFor c10Table [9, 9, 9] = .ok none →
        ∀ r ∈ c10Table.objSec.blocks.flatten,
          r.key < ([9, 9, 9] : List Nat).take c10Table.objectIdLen) ∧
      (c10Table.objSec.levels = [] →
        refsFor c10Table [9, 9, 9] = .ok (some .empty))) ∧
     (∀ (t₂ : RdTable) (o₂ : List Nat), refsFor t₂ o₂ =
       if t₂.objSec.present then refsForIndexed t₂ o₂
       else refsForUnindexed t₂ o₂) ∧
     (∀ (t₂ : RdTable) (o₂ : List Nat), t₂.objSec.present = false →
       ∃ bs, refsFor t₂ o₂ = .ok (some (.filtered o₂ false bs)))) :=
  ⟨⟨rfl, by decide, by decide, by decide, by decide⟩,
    refs_for_routing_and_miss c10Table [9, 9, 9] rfl (by decide) (by decide)
      (by decide) (by decide)⟩
